import Mathlib

/-!
Shallow embedding of the owned-value lifetime canonicalizer
(`CanonicalizeOSSALifetime`, file `lib/SILOptimizer/Utils/CanonicalOSSALifetime.cpp`).

The IR is modelled as a control-flow graph of blocks holding instructions.
Values and instructions share numeric identifiers (a single-value instruction
with id `n` produces the value with id `n`).  Host collaborators that are not
part of the source file (dominance oracle, access-block analysis, the
incidental-use predicate, the destroy-hoisting ignore set, adjacent-reborrow
enumeration) are passed in as function parameters, exactly as the source
consumes them through external interfaces.  Host data structures declared in
the header rather than the source file (`PrunedLiveness`,
`CanonicalOSSAConsumeInfo`) are modelled from the spec; their definitions say
so in their doc comments.
-/

namespace CanonicalOSSA

/-- Ownership kind of a SIL value (`OwnershipKind`). -/
inductive OwnershipKind
  | owned
  | guaranteed
  | unowned
  | noneKind
deriving DecidableEq

/-- Operand-ownership classification (`OperandOwnership`), the cases
dispatched on by `computeCanonicalLiveness`. -/
inductive OperandOwnership
  | nonUse
  | trivialUse
  | forwardingUnowned
  | pointerEscape
  | instantaneousUse
  | unownedInstantaneousUse
  | bitwiseEscape
  | forwardingConsume
  | destroyingConsume
  | borrow
  | interiorPointer
  | forwardingBorrow
  | endBorrow
  | reborrow
deriving DecidableEq

/-- Per-block liveness tri-state (`PrunedLiveBlocks::IsLive`). -/
inductive BlockLiveness
  | dead
  | liveWithin
  | liveOut
deriving DecidableEq

/-- Per-instruction interesting-user classification
(`PrunedLiveness::IsInterestingUser`). -/
inductive InterestingKind
  | nonUser
  | nonLifetimeEndingUse
  | lifetimeEndingUse
deriving DecidableEq

/-- One operand of an instruction: the used value id, the host's
operand-ownership classification, and — for `Borrow` operands — the host's
answer to `updateForBorrowingOperand` modelled from the spec as the list of
scope-ending instruction ids (`none` when the borrow scope cannot be
resolved, which makes phase 1 bail out). -/
structure Operand where
  value : Nat
  ownership : OperandOwnership
  borrowEnds : Option (List Nat)
deriving DecidableEq

/-- Instruction kinds that the canonicalizer inspects structurally.  A
`branchInst` carries, parallel to its operand list, the ids of the phi
arguments it forwards each operand to (`BranchInst::getArgForOperand`). -/
inductive InstKind
  | copyValue
  | destroyValue
  | debugValue
  | beginAccess
  | endAccess (beginId : Nat)
  | endUnpairedAccess
  | branchInst (argTargets : List Nat)
  | otherTerm
  | other
deriving DecidableEq

/-- An instruction: id, kind and operands.  A single-value instruction with
id `n` defines the value with id `n`. -/
structure Inst where
  id : Nat
  kind : InstKind
  operands : List Operand
deriving DecidableEq

/-- A basic block: id, instruction list (terminator last) and successor
block ids. -/
structure Block where
  id : Nat
  insts : List Inst
  succs : List Nat
deriving DecidableEq

/-- A SIL function: its control-flow graph. -/
structure IRFunction where
  blocks : List Block
deriving DecidableEq

/-- Host-level attributes of the def being canonicalized (`currentDef`). -/
structure ValueInfo where
  id : Nat
  ownership : OwnershipKind
  isLexical : Bool
  parentBlock : Nat
  definingInst : Option Nat
deriving DecidableEq

/-- External collaborator interfaces consumed by the canonicalizer: the
dominance oracle, the access-block analysis, the incidental-use predicate,
the destroy-hoisting ignore set and adjacent-reborrow enumeration. -/
structure Host where
  properlyDominates : Nat → Nat → Bool
  containsNonLocalEndAccess : Nat → Bool
  isIncidentalUse : Inst → Bool
  ignoredByDestroyHoisting : InstKind → Bool
  adjacentReborrows : Nat → List Nat

/-! ## Basic CFG helpers -/

/-- All instructions of a function, in block order. -/
def allInsts (f : IRFunction) : List Inst :=
  (f.blocks.map Block.insts).flatten

/-- Find a block by id. -/
def findBlock (f : IRFunction) (bid : Nat) : Option Block :=
  f.blocks.find? (fun b => b.id == bid)

/-- Instruction list of the block with the given id. -/
def blockInsts (f : IRFunction) (bid : Nat) : List Inst :=
  match findBlock f bid with
  | some b => b.insts
  | none => []

/-- Successor ids of the block with the given id. -/
def blockSuccs (f : IRFunction) (bid : Nat) : List Nat :=
  match findBlock f bid with
  | some b => b.succs
  | none => []

/-- Id of the block containing the instruction with the given id
(`SILInstruction::getParent`). -/
def parentBlockOf (f : IRFunction) (instId : Nat) : Nat :=
  match f.blocks.find? (fun b => b.insts.any (fun i => i.id == instId)) with
  | some b => b.id
  | none => 0

/-- Predecessor ids of the block with the given id
(`SILBasicBlock::getPredecessorBlocks`). -/
def predsOf (f : IRFunction) (bid : Nat) : List Nat :=
  (f.blocks.filter (fun b => b.succs.contains bid)).map Block.id

/-- The instructions strictly after the instruction with id `i` in a block
instruction list (`std::next(it)` up to `end`). -/
def instsAfter : List Inst → Nat → List Inst
  | [], _ => []
  | a :: rest, i => if a.id = i then rest else instsAfter rest i

/-! ## Pruned liveness (host structure, modelled from the spec) -/

/-- Modelled from the spec: the `PrunedLiveness` host structure — a
per-block classification of the extended lifetime into
Dead / LiveWithin / LiveOut plus a per-instruction interesting-user label. -/
structure PrunedLivenessState where
  blockLiveness : Nat → BlockLiveness
  interesting : Nat → InterestingKind

/-- Rank of the monotone interesting-user lattice
NonUser → NonLifetimeEndingUse → LifetimeEndingUse. -/
def ikRank : InterestingKind → Nat
  | .nonUser => 0
  | .nonLifetimeEndingUse => 1
  | .lifetimeEndingUse => 2

/-- Join in the monotone interesting-user lattice. -/
def ikMax (a b : InterestingKind) : InterestingKind :=
  if ikRank a ≤ ikRank b then b else a

/-- Rank of the monotone block-liveness lattice Dead → LiveWithin → LiveOut. -/
def blRank : BlockLiveness → Nat
  | .dead => 0
  | .liveWithin => 1
  | .liveOut => 2

/-- Modelled from the spec: backward propagation of block liveness — every
block on a path from the def's block to a use is live at exit.  Marks each
worklist block LiveOut; recurses into predecessors only for blocks that were
Dead and are not the def's block. -/
def markLiveOutUpTo (f : IRFunction) (defBlock : Nat) :
    Nat → (Nat → BlockLiveness) → List Nat → (Nat → BlockLiveness)
  | 0, bl, _ => bl
  | _ + 1, bl, [] => bl
  | fuel + 1, bl, b :: rest =>
    match bl b with
    | .liveOut => markLiveOutUpTo f defBlock fuel bl rest
    | .liveWithin =>
        markLiveOutUpTo f defBlock fuel
          (fun x => if x = b then .liveOut else bl x) rest
    | .dead =>
        if b = defBlock then
          markLiveOutUpTo f defBlock fuel
            (fun x => if x = b then .liveOut else bl x) rest
        else
          markLiveOutUpTo f defBlock fuel
            (fun x => if x = b then .liveOut else bl x) (predsOf f b ++ rest)

/-- Modelled from the spec: `PrunedLiveness.updateForUse` — record `instId`
(in block `blockId`) as an interesting user, raising its label and its
block's liveness monotonically, and mark blocks between the def's block and
the use LiveOut. -/
def PrunedLivenessState.updateForUse (f : IRFunction) (defBlock : Nat)
    (lv : PrunedLivenessState) (instId blockId : Nat) (lifetimeEnding : Bool) :
    PrunedLivenessState :=
  let ik := if lifetimeEnding then InterestingKind.lifetimeEndingUse
            else InterestingKind.nonLifetimeEndingUse
  let interesting2 : Nat → InterestingKind :=
    fun j => if j = instId then ikMax (lv.interesting j) ik else lv.interesting j
  let bl2 : Nat → BlockLiveness :=
    match lv.blockLiveness blockId with
    | .liveOut => lv.blockLiveness
    | .liveWithin => lv.blockLiveness
    | .dead =>
        let base : Nat → BlockLiveness :=
          fun b => if b = blockId then .liveWithin else lv.blockLiveness b
        if blockId = defBlock then base
        else
          markLiveOutUpTo f defBlock
            ((f.blocks.length + 1) * (f.blocks.length + 1)) base
            (predsOf f blockId)
  { blockLiveness := bl2, interesting := interesting2 }

/-! ## Access-scope overlap (`endsAccessOverlappingPrunedBoundary`) -/

/-- Embedding of `CanonicalizeOSSALifetime::endsAccessOverlappingPrunedBoundary`:
whether `inst` is an end-access whose access scope overlaps the end of the
pruned live range.  An `end_unpaired_access` always counts; for an
`end_access`, dispatch on the liveness of the matching `begin_access`'s
block: LiveOut always overlaps, LiveWithin overlaps iff some interesting
user follows the `begin_access` in its block, Dead overlaps iff the
`begin_access`'s block properly dominates the def's block. -/
def endsAccessOverlappingPrunedBoundary (f : IRFunction)
    (properlyDominates : Nat → Nat → Bool) (lv : PrunedLivenessState)
    (defBlock : Nat) (inst : Inst) : Bool :=
  match inst.kind with
  | .endUnpairedAccess => true
  | .endAccess beginId =>
      let beginBB := parentBlockOf f beginId
      match lv.blockLiveness beginBB with
      | .liveOut => true
      | .liveWithin =>
          (instsAfter (blockInsts f beginBB) beginId).any
            (fun i => lv.interesting i.id != InterestingKind.nonUser)
      | .dead => properlyDominates beginBB defBlock
  | _ => false


/-! ## Consume info (host structure, modelled from the spec) -/

/-- Modelled from the spec: `CanonicalOSSAConsumeInfo` — the map
block → instruction of claimed final consumes (single consume per block,
claims are single-shot) and the set of debug-values deemed after the final
consume. -/
structure ConsumeInfo where
  finalBlockConsumes : List (Nat × Nat)
  debugAfterConsume : List Nat
deriving DecidableEq

/-- Modelled from the spec: `recordFinalConsume` — record the final consume
of a block (single consume per block). -/
def ConsumeInfo.recordFinalConsume (c : ConsumeInfo) (blockId instId : Nat) :
    ConsumeInfo :=
  { c with finalBlockConsumes :=
      (blockId, instId) :: c.finalBlockConsumes.filter (fun p => p.1 != blockId) }

/-- Modelled from the spec: `claimConsume(inst)` — returns true iff this
instruction was the recorded final consume of its block and was not yet
claimed; a successful claim is single-shot. -/
def ConsumeInfo.claimConsume (c : ConsumeInfo) (blockId instId : Nat) :
    Bool × ConsumeInfo :=
  match c.finalBlockConsumes.find? (fun p => p.1 == blockId) with
  | some p =>
      if p.2 == instId then
        (true, { c with finalBlockConsumes :=
                  c.finalBlockConsumes.filter (fun q => q.1 != blockId) })
      else (false, c)
  | none => (false, c)

/-- Modelled from the spec: `hasUnclaimedConsumes`. -/
def ConsumeInfo.hasUnclaimedConsumes (c : ConsumeInfo) : Bool :=
  !c.finalBlockConsumes.isEmpty

/-- Modelled from the spec: `recordDebugAfterConsume`. -/
def ConsumeInfo.recordDebugAfterConsume (c : ConsumeInfo) (dvi : Nat) :
    ConsumeInfo :=
  { c with debugAfterConsume :=
      if c.debugAfterConsume.contains dvi then c.debugAfterConsume
      else c.debugAfterConsume ++ [dvi] }

/-- Modelled from the spec: `popDebugAfterConsume`. -/
def ConsumeInfo.popDebugAfterConsume (c : ConsumeInfo) (dvi : Nat) :
    ConsumeInfo :=
  { c with debugAfterConsume := c.debugAfterConsume.filter (fun x => x != dvi) }

/-! ## Phase 2: destroys on CFG edges (`findDestroyOnCFGEdge`) -/

/-- Value destroyed by an instruction, when it is a `destroy_value`
(`destroy->getOperand()`). -/
def destroyedValue (i : Inst) : Option Nat :=
  match i.kind with
  | .destroyValue => i.operands.head?.map Operand.value
  | _ => none

/-- Embedding of `findDestroyOnCFGEdge`: look past destroys and incidental
uses to find a destroy on the edge block that destroys `defId`.  An
incidental use is skipped; a destroy of another value is skipped; a destroy
of `defId` is returned; any other instruction stops the scan. -/
def findDestroyOnCFGEdge (isIncidental : Inst → Bool) (defId : Nat) :
    List Inst → Option Inst
  | [] => none
  | inst :: rest =>
    if isIncidental inst then findDestroyOnCFGEdge isIncidental defId rest
    else
      match inst.kind with
      | .destroyValue =>
          if destroyedValue inst == some defId then some inst
          else findDestroyOnCFGEdge isIncidental defId rest
      | _ => none

/-- Insert an instruction at the first position of the block with the given
id (`succBB->begin()`). -/
def insertAtBlockBegin (f : IRFunction) (bid : Nat) (inst : Inst) :
    IRFunction :=
  ⟨f.blocks.map (fun b =>
    if b.id = bid then { b with insts := inst :: b.insts } else b)⟩

/-- Fresh `destroy_value` of the given def created by the canonicalizer. -/
def mkDestroy (nextId defId : Nat) : Inst :=
  ⟨nextId, .destroyValue, [⟨defId, .destroyingConsume, none⟩]⟩

/-- Embedding of `CanonicalizeOSSALifetime::findOrInsertDestroyOnCFGEdge`:
on the boundary edge into `succBB`, reuse a destroy of the def already on
the edge if one is found (avoiding deletion and recreation), otherwise
create a destroy at the beginning of `succBB`; record the result as a final
consume.  The predecessor is only used by the no-critical-edge assertion. -/
def findOrInsertDestroyOnCFGEdge (host : Host) (defId : Nat)
    (f : IRFunction) (consumes : ConsumeInfo) (nextId : Nat)
    (_predBB succBB : Nat) : IRFunction × ConsumeInfo × Nat :=
  match findDestroyOnCFGEdge host.isIncidentalUse defId (blockInsts f succBB) with
  | some di => (f, consumes.recordFinalConsume succBB di.id, nextId)
  | none =>
      (insertAtBlockBegin f succBB (mkDestroy nextId defId),
       consumes.recordFinalConsume succBB nextId, nextId + 1)

/-- The condition exactly as claim C7 states it: the successor block begins
with a destroy of the current def, looking past incidental uses only. -/
def specBeginsWithDestroyOfDef (isIncidental : Inst → Bool) (defId : Nat) :
    List Inst → Option Inst
  | [] => none
  | inst :: rest =>
    if isIncidental inst then specBeginsWithDestroyOfDef isIncidental defId rest
    else if destroyedValue inst == some defId then some inst
    else none

/-- A scan step that `findDestroyOnCFGEdge` looks past: an incidental use or
a destroy of a value other than the def. -/
def edgeScanSkippable (isInc : Inst → Bool) (defId : Nat) (i : Inst) : Prop :=
  isInc i = true
    ∨ (i.kind = InstKind.destroyValue ∧ destroyedValue i ≠ some defId)

/-! ## Phase 3: rewrite copies and destroys (`rewriteCopies`) -/

/-- Whether an operand with this ownership classification ends the lifetime
of the used value (the host IR attribute `Operand::isLifetimeEnding`). -/
def OperandOwnership.isLifetimeEnding : OperandOwnership → Bool
  | .forwardingConsume => true
  | .destroyingConsume => true
  | .reborrow => true
  | .endBorrow => true
  | _ => false

/-- Deduplicating insert preserving insertion order
(`SmallSetVector::insert`, `GraphNodeWorklist::insert`). -/
def setInsert (l : List Nat) (x : Nat) : List Nat :=
  if l.contains x then l else l ++ [x]

/-- State threaded through the phase-3 def-use traversal: the worklist of
discovered copies, the instructions scheduled for deletion, and the consume
info being claimed from. -/
structure RewriteState where
  worklist : List Nat
  instsToDelete : List Nat
  consumes : ConsumeInfo
deriving DecidableEq

/-- One use operand as phase 3 sees it: the user instruction, the user's
block, and the operand-ownership classification of the use. -/
structure UseRec where
  user : Inst
  userBlock : Nat
  opIdx : Nat
  ownership : OperandOwnership
deriving DecidableEq

/-- Embedding of the per-use decision closure `visitUse` inside
`CanonicalizeOSSALifetime::rewriteCopies`: a copy user is enqueued for
recursion and keeps its operand; a destroy user is kept if claimed as a
final consume and scheduled for deletion otherwise, keeping its operand
either way; a non-lifetime-ending use keeps its operand; a lifetime-ending
use keeps its operand iff it claims the final consume, and otherwise
requires a fresh copy (the caller then invokes `copyLiveUse`). -/
def visitUse (st : RewriteState) (user : Inst) (userBlock : Nat)
    (useOwnership : OperandOwnership) : Bool × RewriteState :=
  match user.kind with
  | .copyValue => (true, { st with worklist := setInsert st.worklist user.id })
  | .destroyValue =>
      if (st.consumes.claimConsume userBlock user.id).1 then
        (true, { st with consumes := (st.consumes.claimConsume userBlock user.id).2 })
      else
        (true, { st with
                  consumes := (st.consumes.claimConsume userBlock user.id).2,
                  instsToDelete := setInsert st.instsToDelete user.id })
  | _ =>
      if !useOwnership.isLifetimeEnding then (true, st)
      else if (st.consumes.claimConsume userBlock user.id).1 then
        (true, { st with consumes := (st.consumes.claimConsume userBlock user.id).2 })
      else (false, { st with consumes := (st.consumes.claimConsume userBlock user.id).2 })

/-- The uses of a walked value for which `visitUse` answers that a fresh
copy is required, in visit order (these are exactly the uses on which the
direct-use walk of `rewriteCopies` invokes `copyLiveUse`). -/
def needyUses : List UseRec → RewriteState → List UseRec
  | [], _ => []
  | u :: rest, st =>
    if (visitUse st u.user u.userBlock u.ownership).1 then
      needyUses rest (visitUse st u.user u.userBlock u.ownership).2
    else u :: needyUses rest (visitUse st u.user u.userBlock u.ownership).2

/-- State evolution of a sequence of `visitUse` calls. -/
def runUses : List UseRec → RewriteState → RewriteState
  | [], st => st
  | u :: rest, st => runUses rest (visitUse st u.user u.userBlock u.ownership).2

/-- Result of walking all uses of one discovered copy `srcCopy`:
the use retargeted back to the copy (if any), the uses that received a
fresh copy via `copyLiveUse`, the uses that kept their operand, and the
final traversal state. -/
structure CopyUsesResult where
  reusedCopyOp : Option UseRec
  freshCopyUses : List UseRec
  keptUses : List UseRec
  st : RewriteState
deriving DecidableEq

/-- Embedding of the use loop over one discovered copy in
`CanonicalizeOSSALifetime::rewriteCopies`: each use failing `visitUse`
becomes the reused operand if none was chosen yet and its user is in the
copy's block, and otherwise receives a fresh copy via `copyLiveUse`. -/
def processCopyUses (srcBlock : Nat) :
    List UseRec → RewriteState → Option UseRec → List UseRec → List UseRec →
    CopyUsesResult
  | [], st, reused, fresh, kept => ⟨reused, fresh, kept, st⟩
  | u :: rest, st, reused, fresh, kept =>
    if (visitUse st u.user u.userBlock u.ownership).1 then
      processCopyUses srcBlock rest (visitUse st u.user u.userBlock u.ownership).2
        reused fresh (kept ++ [u])
    else
      match reused with
      | none =>
          if u.userBlock = srcBlock then
            processCopyUses srcBlock rest
              (visitUse st u.user u.userBlock u.ownership).2 (some u) fresh kept
          else
            processCopyUses srcBlock rest
              (visitUse st u.user u.userBlock u.ownership).2 none (fresh ++ [u]) kept
      | some r =>
          processCopyUses srcBlock rest
            (visitUse st u.user u.userBlock u.ownership).2 (some r) (fresh ++ [u]) kept

/-- Drop the first use whose user lies in the given block. -/
def removeFirstSameBlock (srcBlock : Nat) : List UseRec → List UseRec
  | [] => []
  | u :: rest =>
    if u.userBlock = srcBlock then rest
    else u :: removeFirstSameBlock srcBlock rest

/-- Net effect on the walked copy after its uses were visited:
`keptInPlace` — the reused operand is the copy's only remaining use and
nothing is rewritten; `reusedAfterReplace` — all users are replaced with
the copy's operand and then the reused operand is set back to the copy;
`deleted` — all users are replaced with the copy's operand and the copy is
scheduled for deletion. -/
inductive CopyFate
  | keptInPlace
  | reusedAfterReplace
  | deleted
deriving DecidableEq

/-- Embedding of the copy short-circuit at the end of the per-copy loop in
`CanonicalizeOSSALifetime::rewriteCopies`: unless the reused operand exists
and is the copy's single remaining use, replace all users with the copy's
operand and either retarget the reused operand back to the copy or, when
there is none, schedule the copy for deletion.  The copy's remaining uses
are the kept uses, the reused operand and the operands of the fresh copies
created by `copyLiveUse`. -/
def finishCopyRewrite (srcCopyId : Nat) (r : CopyUsesResult) :
    CopyFate × RewriteState :=
  if r.reusedCopyOp.isSome
      && (r.keptUses.length + (if r.reusedCopyOp.isSome then 1 else 0)
          + r.freshCopyUses.length) == 1 then
    (CopyFate.keptInPlace, r.st)
  else
    match r.reusedCopyOp with
    | some _ => (CopyFate.reusedAfterReplace, r.st)
    | none =>
        (CopyFate.deleted,
         { r.st with instsToDelete := setInsert r.st.instsToDelete srcCopyId })


/-- Concrete edge block for the C7 counterexample: a destroy of value 1
followed by a destroy of value 0 (the def). -/
def cexEdgeBlock : Block :=
  ⟨2, [⟨10, .destroyValue, [⟨1, .destroyingConsume, none⟩]⟩,
       ⟨11, .destroyValue, [⟨0, .destroyingConsume, none⟩]⟩], []⟩

/-- Concrete one-block function for the C7 counterexample. -/
def cexEdgeF : IRFunction := ⟨[cexEdgeBlock]⟩

/-- Concrete host for the counterexamples: nothing dominates, no nonlocal
end-access, nothing incidental, nothing ignored, no adjacent reborrows. -/
def cexHost : Host :=
  ⟨fun _ _ => false, fun _ => false, fun _ => false, fun _ => false,
   fun _ => []⟩

/-- First consuming use (user id 20, block 5) for the C8 counterexample. -/
def cexUse1 : UseRec :=
  ⟨⟨20, .other, [⟨7, .forwardingConsume, none⟩]⟩, 5, 0, .forwardingConsume⟩

/-- Second consuming use (user id 21, block 5) for the C8 counterexample. -/
def cexUse2 : UseRec :=
  ⟨⟨21, .other, [⟨7, .forwardingConsume, none⟩]⟩, 5, 0, .forwardingConsume⟩

/-- The C8 counterexample run: a copy (id 7, block 5) with two consuming
uses in its own block, neither claimed as a final consume. -/
def cexShortCircuitRun : CopyUsesResult :=
  processCopyUses 5 [cexUse1, cexUse2] ⟨[], [], ⟨[], []⟩⟩ none [] []

/-! ## Phase 1: pruned liveness (`computeCanonicalLiveness`) -/

/-- State accumulated by phase 1: the pruned liveness, the def-use worklist
(pending values and every value ever inserted, since the worklist
deduplicates), the recorded destroys, debug values and consuming blocks. -/
structure LivenessState where
  lv : PrunedLivenessState
  defUseWorklist : List Nat
  seen : List Nat
  destroys : List Nat
  debugValues : List Nat
  consumingBlocks : List Nat

/-- Deduplicating insert into the def-use worklist
(`defUseWorklist.insert`). -/
def LivenessState.insertValue (st : LivenessState) (v : Nat) : LivenessState :=
  if st.seen.contains v then st
  else { st with seen := st.seen ++ [v],
                 defUseWorklist := st.defUseWorklist ++ [v] }

/-- Modelled from the spec: `recordConsumingUse` — remember the block of an
original lifetime-ending use of the extended lifetime. -/
def LivenessState.recordConsumingUse (st : LivenessState) (userBlock : Nat) :
    LivenessState :=
  { st with consumingBlocks := setInsert st.consumingBlocks userBlock }

/-- Modelled from the spec: `recordDebugValue` — remember a debug-value
observer found outside the LiveOut region. -/
def LivenessState.recordDebugValue (st : LivenessState) (dvi : Nat) :
    LivenessState :=
  { st with debugValues := setInsert st.debugValues dvi }

/-- Update the liveness component of the phase-1 state for a use. -/
def LivenessState.updateForUse (st : LivenessState) (f : IRFunction)
    (defBlock : Nat) (instId blockId : Nat) (lifetimeEnding : Bool) :
    LivenessState :=
  { st with lv := st.lv.updateForUse f defBlock instId blockId lifetimeEnding }

/-- One use site of a value: the user instruction, its block, the operand
index within the user and the operand itself. -/
structure UseSite where
  user : Inst
  userBlock : Nat
  opIdx : Nat
  op : Operand
deriving DecidableEq

/-- All use sites of a value in the function, in block order
(`value->getUses()`). -/
def useSites (f : IRFunction) (v : Nat) : List UseSite :=
  f.blocks.flatMap (fun b =>
    b.insts.flatMap (fun i =>
      (List.range i.operands.length).filterMap (fun k =>
        match i.operands.get? k with
        | some o => if o.value == v then some ⟨i, b.id, k, o⟩ else none
        | none => none)))

/-- Embedding of the per-use dispatch in
`CanonicalizeOSSALifetime::computeCanonicalLiveness` (the body of the use
loop): copies are enqueued; in debug-pruning mode a debug-value is handled
before the operand-ownership dispatch, recorded only when its block is not
LiveOut; then the operand-ownership switch runs.  `none` is returned
exactly on the two phase-1 bail-outs (a `ForwardingUnowned` or
`PointerEscape` operand, and a `Borrow` operand whose scope extension
fails).  The `TrivialUse` case is unreachable on well-formed input (the
source aborts there rather than returning false) and is modelled as a
no-op. -/
def visitLivenessUse (f : IRFunction) (defInfo : ValueInfo)
    (pruneDebugMode : Bool) (st : LivenessState) (user : Inst)
    (userBlock opIdx : Nat) (op : Operand) : Option LivenessState :=
  if user.kind = InstKind.copyValue then
    some (st.insertValue user.id)
  else if pruneDebugMode ∧ user.kind = InstKind.debugValue then
    if st.lv.blockLiveness userBlock ≠ BlockLiveness.liveOut then
      some (st.recordDebugValue user.id)
    else some st
  else
    match op.ownership with
    | .nonUse => some st
    | .trivialUse => some st
    | .forwardingUnowned => none
    | .pointerEscape => none
    | .instantaneousUse =>
        some (st.updateForUse f defInfo.parentBlock user.id userBlock false)
    | .unownedInstantaneousUse =>
        some (st.updateForUse f defInfo.parentBlock user.id userBlock false)
    | .bitwiseEscape =>
        some (st.updateForUse f defInfo.parentBlock user.id userBlock false)
    | .forwardingConsume =>
        some ((st.recordConsumingUse userBlock).updateForUse f
          defInfo.parentBlock user.id userBlock true)
    | .destroyingConsume =>
        if user.kind = InstKind.destroyValue then
          some ({ st with destroys := setInsert st.destroys user.id
                }.recordConsumingUse userBlock)
        else
          some ((st.updateForUse f defInfo.parentBlock user.id userBlock
            true).recordConsumingUse userBlock)
    | .borrow =>
        match op.borrowEnds with
        | none => none
        | some ends =>
            some { st with
                   lv := ends.foldl
                     (fun lv e =>
                       lv.updateForUse f defInfo.parentBlock e
                         (parentBlockOf f e) false)
                     st.lv }
    | .interiorPointer =>
        some (st.updateForUse f defInfo.parentBlock user.id userBlock false)
    | .forwardingBorrow =>
        some (st.updateForUse f defInfo.parentBlock user.id userBlock false)
    | .endBorrow =>
        some (st.updateForUse f defInfo.parentBlock user.id userBlock false)
    | .reborrow =>
        match user.kind with
        | .branchInst argTargets =>
            if (user.operands.map Operand.value).contains defInfo.id then
              some (st.updateForUse f defInfo.parentBlock user.id userBlock
                true)
            else
              match argTargets.get? opIdx with
              | some t =>
                  some ((st.updateForUse f defInfo.parentBlock user.id
                    userBlock false).insertValue t)
              | none =>
                  some (st.updateForUse f defInfo.parentBlock user.id
                    userBlock false)
        | _ =>
            some ((st.updateForUse f defInfo.parentBlock user.id userBlock
              false).insertValue user.id)

/-- Visit all use sites of one popped value, short-circuiting on bail. -/
def visitLivenessUses (f : IRFunction) (defInfo : ValueInfo)
    (pruneDebugMode : Bool) : List UseSite → LivenessState →
    Option LivenessState
  | [], st => some st
  | u :: rest, st =>
    match visitLivenessUse f defInfo pruneDebugMode st u.user u.userBlock
        u.opIdx u.op with
    | none => none
    | some st2 => visitLivenessUses f defInfo pruneDebugMode rest st2

/-- Result of the phase-1 worklist loop. -/
inductive LoopResult
  | ok (st : LivenessState)
  | bailed
  | outOfFuel

/-- Embedding of the worklist loop of
`CanonicalizeOSSALifetime::computeCanonicalLiveness`: pop a value, enqueue
its adjacent reborrow phis (empty for non-phis), visit its uses; repeat
until the worklist is empty or a use bails.  Recursion is fueled; the
caller supplies fuel exceeding the number of insertable values, which is
proven sufficient. -/
def livenessLoop (host : Host) (f : IRFunction) (defInfo : ValueInfo)
    (pruneDebugMode : Bool) : Nat → LivenessState → LoopResult
  | 0, _ => .outOfFuel
  | fuel + 1, st =>
    match st.defUseWorklist with
    | [] => .ok st
    | v :: rest =>
        let st1 : LivenessState := { st with defUseWorklist := rest }
        let st2 := (host.adjacentReborrows v).foldl LivenessState.insertValue st1
        match visitLivenessUses f defInfo pruneDebugMode (useSites f v) st2 with
        | none => .bailed
        | some st3 => livenessLoop host f defInfo pruneDebugMode fuel st3

/-- Every value id the phase-1 worklist can ever hold: the def, every
instruction-defined value and every branch phi target.  Host-supplied
adjacent reborrows are required (as a well-formedness hypothesis) to lie in
this universe. -/
def valueUniverse (f : IRFunction) (defInfo : ValueInfo) : List Nat :=
  defInfo.id :: (allInsts f).map Inst.id
    ++ (allInsts f).flatMap (fun i =>
         match i.kind with
         | .branchInst ts => ts
         | _ => [])

/-- Phase-1 state at entry (`initDef`): worklist seeded with the def, its
block LiveWithin, everything else empty. -/
def initialLivenessState (defInfo : ValueInfo) : LivenessState :=
  { lv := { blockLiveness := fun b =>
              if b = defInfo.parentBlock then .liveWithin else .dead,
            interesting := fun _ => .nonUser },
    defUseWorklist := [defInfo.id], seen := [defInfo.id],
    destroys := [], debugValues := [], consumingBlocks := [] }

/-- Embedding of `CanonicalizeOSSALifetime::computeCanonicalLiveness`:
run the worklist loop from the initial state; `none` is failure. -/
def computeCanonicalLiveness (host : Host) (f : IRFunction)
    (defInfo : ValueInfo) (pruneDebugMode : Bool) : Option LivenessState :=
  match livenessLoop host f defInfo pruneDebugMode
      ((valueUniverse f defInfo).length + 1) (initialLivenessState defInfo) with
  | .ok st => some st
  | .bailed => none
  | .outOfFuel => none

/-! ## Phase 1b: access-scope extension
(`extendLivenessThroughOverlappingAccess`) -/

/-- Construction of the candidate block set of one outer iteration: start
from the consuming blocks and, while traversing the growing list, append
the unseen predecessors of every block classified Dead
(the `blocksToVisit` set-vector loop). -/
def buildBlocksToVisit (lv : PrunedLivenessState) (f : IRFunction) :
    Nat → List Nat → Nat → List Nat
  | 0, acc, _ => acc
  | fuel + 1, acc, i =>
    match acc.drop i with
    | [] => acc
    | b :: _ =>
        let acc2 :=
          if lv.blockLiveness b = BlockLiveness.dead then
            (predsOf f b).foldl
              (fun a p => if a.contains p then a else a ++ [p]) acc
          else acc
        buildBlocksToVisit lv f fuel acc2 (i + 1)

/-- The candidate blocks of one outer iteration of the extension loop. -/
def blocksToVisitList (lv : PrunedLivenessState) (f : IRFunction)
    (consumingBlocks : List Nat) : List Nat :=
  buildBlocksToVisit lv f (f.blocks.length + consumingBlocks.length + 1)
    consumingBlocks 0

/-- Embedding of the reverse instruction scan of one candidate block in
`extendLivenessThroughOverlappingAccess`: while the last original consume
has not been passed, skip; then stop at the first interesting user when the
block has a use; otherwise return the first end-access overlapping the
pruned boundary. -/
def extendScan (f : IRFunction) (dom : Nat → Nat → Bool)
    (lv : PrunedLivenessState) (defBlock : Nat) (destroys : List Nat) :
    List Inst → Bool → Bool → Option Inst
  | [], _, _ => none
  | inst :: rest, findLastConsume, blockHasUse =>
    if findLastConsume then
      extendScan f dom lv defBlock destroys rest
        (!(destroys.contains inst.id)) blockHasUse
    else if blockHasUse
        && !(lv.interesting inst.id == InterestingKind.nonUser) then none
    else if endsAccessOverlappingPrunedBoundary f dom lv defBlock inst then
      some inst
    else extendScan f dom lv defBlock destroys rest findLastConsume blockHasUse

/-- Embedding of the per-candidate-block body of the visiting loop in
`extendLivenessThroughOverlappingAccess`: LiveOut blocks are skipped, Dead
blocks without a nonlocal end-access are skipped, and otherwise the block
is scanned in reverse, initially skipping to the last consume when the
block is a consuming block none of whose successors is a Dead candidate
block. -/
def extendScanBlock (host : Host) (f : IRFunction)
    (lv : PrunedLivenessState) (defBlock : Nat)
    (destroys consumingBlocks btv : List Nat) (bb : Nat) : Option Inst :=
  if lv.blockLiveness bb = BlockLiveness.liveOut then none
  else if lv.blockLiveness bb = BlockLiveness.dead
      && !(host.containsNonLocalEndAccess bb) then none
  else
    extendScan f host.properlyDominates lv defBlock destroys
      (blockInsts f bb).reverse
      (consumingBlocks.contains bb
        && !((blockSuccs f bb).any (fun s =>
              btv.contains s
                && (lv.blockLiveness s == BlockLiveness.dead))))
      (lv.blockLiveness bb == BlockLiveness.liveWithin)

/-- One iteration of the outer while-changed loop of
`extendLivenessThroughOverlappingAccess`: find the first candidate block
whose scan yields an overlapping end-access, record it as a
non-lifetime-ending use and report a change; otherwise report no change. -/
def extendLivenessIter (host : Host) (f : IRFunction) (defBlock : Nat)
    (destroys consumingBlocks : List Nat) (lv : PrunedLivenessState) :
    PrunedLivenessState × Bool :=
  match (blocksToVisitList lv f consumingBlocks).findSome? (fun bb =>
      (extendScanBlock host f lv defBlock destroys consumingBlocks
        (blocksToVisitList lv f consumingBlocks) bb).map (fun i => (i, bb))) with
  | some (inst, bb) => (lv.updateForUse f defBlock inst.id bb false, true)
  | none => (lv, false)

/-- The fueled outer loop. -/
def extendLivenessLoop (host : Host) (f : IRFunction) (defBlock : Nat)
    (destroys consumingBlocks : List Nat) :
    Nat → PrunedLivenessState → PrunedLivenessState
  | 0, lv => lv
  | fuel + 1, lv =>
    match extendLivenessIter host f defBlock destroys consumingBlocks lv with
    | (lv2, true) =>
        extendLivenessLoop host f defBlock destroys consumingBlocks fuel lv2
    | (_, false) => lv

/-- Embedding of
`CanonicalizeOSSALifetime::extendLivenessThroughOverlappingAccess`: iterate
until no change; each change adds one instruction as a new user, so the
number of instructions bounds the number of iterations. -/
def extendLivenessThroughOverlappingAccess (host : Host) (f : IRFunction)
    (defBlock : Nat) (destroys consumingBlocks : List Nat)
    (lv : PrunedLivenessState) : PrunedLivenessState :=
  extendLivenessLoop host f defBlock destroys consumingBlocks
    ((allInsts f).length + 1) lv

/-- Interesting users only occur in live blocks.  Phase 1 establishes this
invariant — every recorded use also raises its block's liveness — and the
extension loop preserves it. -/
def UsersLiveInv (f : IRFunction) (lv : PrunedLivenessState) : Prop :=
  ∀ i, i ∈ allInsts f → ¬ lv.interesting i.id = InterestingKind.nonUser →
    ¬ lv.blockLiveness (parentBlockOf f i.id) = BlockLiveness.dead

/-- Number of instructions of the function not yet recorded as interesting
users: the termination measure of the extension loop. -/
def nonUserCount (f : IRFunction) (lv : PrunedLivenessState) : Nat :=
  ((allInsts f).filter
    (fun i => lv.interesting i.id == InterestingKind.nonUser)).length

/-! ## Phase 2: destroy placement (`findOrInsertDestroys`) -/

/-- State threaded through phase 2: the function being rewritten, the
consume info being filled, the remaining recorded debug values and the
fresh-id counter for created destroys. -/
structure Phase2State where
  f : IRFunction
  consumes : ConsumeInfo
  debugValues : List Nat
  nextId : Nat
deriving DecidableEq

/-- Whether an instruction kind is a terminator (`isa TermInst`). -/
def isTermKind : InstKind → Bool
  | .branchInst _ => true
  | .otherTerm => true
  | _ => false

/-- Find an instruction (equivalently, the single value it defines) by
id. -/
def instById (f : IRFunction) (vid : Nat) : Option Inst :=
  (allInsts f).find? (fun i => i.id == vid)

/-- Follow copy chains back to the canonical producer
(`CanonicalizeOSSALifetime::getCanonicalCopiedDef`, consumed as a host
walker). -/
def getCanonicalCopiedDef (f : IRFunction) : Nat → Nat → Nat
  | 0, v => v
  | fuel + 1, v =>
    match instById f v with
    | some i =>
        match i.kind with
        | .copyValue =>
            match i.operands.head? with
            | some o => getCanonicalCopiedDef f fuel o.value
            | none => v
        | _ => v
    | none => v

/-- Insert an instruction before position `idx` of the block with the given
id. -/
def insertAtIdx (f : IRFunction) (bid idx : Nat) (ni : Inst) : IRFunction :=
  ⟨f.blocks.map (fun b =>
    if b.id = bid then
      { b with insts := b.insts.take idx ++ ni :: b.insts.drop idx }
    else b)⟩

/-- Embedding of `insertDestroyAtInst`: when an existing destroy is
available, walk from the insertion position to it, recover the debug values
passed over, and claim it; otherwise create a fresh destroy immediately
before position `idx` and claim that.  The position is the index in the
block's instruction list before which the destroy would be created. -/
def insertDestroyAtInst (defId bb idx : Nat) (existingDestroy : Option Inst)
    (st : Phase2State) : Phase2State :=
  match existingDestroy with
  | some ed =>
      let between := ((blockInsts st.f bb).drop idx).takeWhile
        (fun i => ¬ i.id = ed.id)
      let c2 := between.foldl
        (fun c i =>
          if i.kind = InstKind.debugValue then c.popDebugAfterConsume i.id
          else c)
        st.consumes
      { st with consumes := c2.recordFinalConsume bb ed.id }
  | none =>
      { st with f := insertAtIdx st.f bb idx (mkDestroy st.nextId defId),
                consumes := st.consumes.recordFinalConsume bb st.nextId,
                nextId := st.nextId + 1 }

/-- Adapter running `findOrInsertDestroyOnCFGEdge` on the phase-2 state. -/
def edgeDestroy (host : Host) (defId predBB succBB : Nat)
    (st : Phase2State) : Phase2State :=
  match findOrInsertDestroyOnCFGEdge host defId st.f st.consumes st.nextId
      predBB succBB with
  | (f2, c2, n2) => { st with f := f2, consumes := c2, nextId := n2 }

/-- Embedding of the backward scan of
`CanonicalizeOSSALifetime::findOrInsertDestroyInBlock`: starting from the
terminator, recover debug values, stop at the first interesting user
(placing a destroy after a non-lifetime-ending user, on every outgoing edge
for a terminator user, or claiming a lifetime-ending user), remember an
existing destroy of the current def while only ignored instructions are
passed, and fall back to the block argument or the defining instruction
when the scan exhausts the block. -/
def destroyInBlockScan (host : Host) (defInfo : ValueInfo)
    (pruneDebugMode : Bool) (lv : PrunedLivenessState) (bb : Nat)
    (insts : List Inst) :
    Nat → Nat → Option Inst → Phase2State → Phase2State
  | 0, _, _, st => st
  | _fuel + 1, idx, existing, st =>
    match insts.get? idx with
    | none => st
    | some inst =>
        let st1 :=
          if pruneDebugMode ∧ inst.kind = InstKind.debugValue
              ∧ st.debugValues.contains inst.id then
            { st with
              debugValues := st.debugValues.filter (fun x => x != inst.id),
              consumes := st.consumes.recordDebugAfterConsume inst.id }
          else st
        match lv.interesting inst.id with
        | .nonLifetimeEndingUse =>
            if isTermKind inst.kind then
              (blockSuccs st1.f bb).foldl
                (fun s succ => edgeDestroy host defInfo.id bb succ s) st1
            else insertDestroyAtInst defInfo.id bb (idx + 1) existing st1
        | .lifetimeEndingUse =>
            { st1 with consumes := st1.consumes.recordFinalConsume bb inst.id }
        | .nonUser =>
            let existing2 : Option Inst :=
              if !(host.ignoredByDestroyHoisting inst.kind) then none
              else if existing.isNone && inst.kind == InstKind.destroyValue
                  && (match inst.operands.head? with
                      | some o =>
                          getCanonicalCopiedDef st1.f
                            ((allInsts st1.f).length + 1) o.value == defInfo.id
                      | none => false) then
                some inst
              else existing
            if idx = 0 then
              insertDestroyAtInst defInfo.id bb 0 existing2 st1
            else
              match insts.get? (idx - 1) with
              | some prev =>
                  if defInfo.definingInst = some prev.id then
                    insertDestroyAtInst defInfo.id bb idx existing2 st1
                  else
                    destroyInBlockScan host defInfo pruneDebugMode lv bb
                      insts _fuel (idx - 1) existing2 st1
              | none => st1

/-- Embedding of `CanonicalizeOSSALifetime::findOrInsertDestroyInBlock`:
scan the block backward from its terminator. -/
def findOrInsertDestroyInBlock (host : Host) (defInfo : ValueInfo)
    (pruneDebugMode : Bool) (lv : PrunedLivenessState) (bb : Nat)
    (st : Phase2State) : Phase2State :=
  destroyInBlockScan host defInfo pruneDebugMode lv bb (blockInsts st.f bb)
    (blockInsts st.f bb).length ((blockInsts st.f bb).length - 1) none st

/-- One predecessor step of the Dead-block handling of
`findOrInsertDestroys`: a LiveOut predecessor edge gets a destroy, any
other predecessor is enqueued unless already visited. -/
def predsStep (host : Host) (defId : Nat) (lv : PrunedLivenessState)
    (bb : Nat) (acc : List Nat × List Nat × Phase2State) (p : Nat) :
    List Nat × List Nat × Phase2State :=
  if lv.blockLiveness p = BlockLiveness.liveOut then
    (acc.1, acc.2.1, edgeDestroy host defId p bb acc.2.2)
  else if acc.2.1.contains p then acc
  else (acc.1 ++ [p], acc.2.1 ++ [p], acc.2.2)

/-- The deduplicating block worklist of `findOrInsertDestroys`: pop a
block; LiveOut blocks are skipped, LiveWithin blocks get their intra-block
destroy, and for a Dead block each LiveOut predecessor edge gets a destroy
while other predecessors are enqueued. -/
def destroysWorklistLoop (host : Host) (defInfo : ValueInfo)
    (pruneDebugMode : Bool) (lv : PrunedLivenessState) :
    Nat → List Nat → List Nat → Phase2State → Phase2State
  | 0, _, _, st => st
  | fuel + 1, pending, seen, st =>
    match pending with
    | [] => st
    | bb :: rest =>
        match lv.blockLiveness bb with
        | .liveOut =>
            destroysWorklistLoop host defInfo pruneDebugMode lv fuel rest
              seen st
        | .liveWithin =>
            destroysWorklistLoop host defInfo pruneDebugMode lv fuel rest
              seen (findOrInsertDestroyInBlock host defInfo pruneDebugMode
                lv bb st)
        | .dead =>
            let step := (predsOf st.f bb).foldl
              (predsStep host defInfo.id lv bb) (rest, seen, st)
            destroysWorklistLoop host defInfo pruneDebugMode lv fuel step.1
              step.2.1 step.2.2

/-- Embedding of `CanonicalizeOSSALifetime::findOrInsertDestroys`: a
backward CFG traversal from the consuming blocks. -/
def findOrInsertDestroys (host : Host) (defInfo : ValueInfo)
    (pruneDebugMode : Bool) (lv : PrunedLivenessState)
    (consumingBlocks : List Nat) (st : Phase2State) : Phase2State :=
  destroysWorklistLoop host defInfo pruneDebugMode lv
    (st.f.blocks.length + consumingBlocks.length + 1) consumingBlocks
    consumingBlocks st

/-! ## Phase 3 over the IR (`rewriteCopies`) and the top-level entry -/

/-- Set one operand of an instruction to a new value (`use->set`). -/
def setOperand (f : IRFunction) (instId opIdx newVal : Nat) : IRFunction :=
  ⟨f.blocks.map (fun b =>
    { b with insts := b.insts.map (fun i =>
        if i.id = instId then
          { i with operands := i.operands.mapIdx (fun k o =>
              if k = opIdx then { o with value := newVal } else o) }
        else i) })⟩

/-- Insert an instruction before the instruction with the given id in the
given block. -/
def insertBeforeInst (f : IRFunction) (bid instId : Nat) (ni : Inst) :
    IRFunction :=
  ⟨f.blocks.map (fun b =>
    if b.id = bid then
      { b with insts := b.insts.flatMap (fun i =>
          if i.id = instId then [ni, i] else [i]) }
    else b)⟩

/-- Replace every use of one value with another
(`replaceValueUsesWith`). -/
def replaceUsesIn (f : IRFunction) (old new : Nat) : IRFunction :=
  ⟨f.blocks.map (fun b =>
    { b with insts := b.insts.map (fun i =>
        { i with operands := i.operands.map (fun o =>
            if o.value = old then { o with value := new } else o) }) })⟩

/-- Delete the instructions with the given ids (`deleter.forceDelete`). -/
def deleteInsts (f : IRFunction) (ids : List Nat) : IRFunction :=
  ⟨f.blocks.map (fun b =>
    { b with insts := b.insts.filter (fun i => !(ids.contains i.id)) })⟩

/-- View a use site as the record phase 3 dispatches on. -/
def toUseRec (s : UseSite) : UseRec :=
  ⟨s.user, s.userBlock, s.opIdx, s.op.ownership⟩

/-- State threaded through phase 3: the function, the traversal state and
the fresh-id counter. -/
structure Phase3State where
  f : IRFunction
  rw : RewriteState
  nextId : Nat
deriving DecidableEq

/-- Embedding of `copyLiveUse` at the IR level: materialize a copy of the
used value immediately before the user and retarget the operand to it. -/
def applyCopyLiveUse (usedVal : Nat) (st : Phase3State) (u : UseRec) :
    Phase3State :=
  { f := setOperand
      (insertBeforeInst st.f u.userBlock u.user.id
        ⟨st.nextId, .copyValue, [⟨usedVal, .instantaneousUse, none⟩]⟩)
      u.user.id u.opIdx st.nextId,
    rw := st.rw,
    nextId := st.nextId + 1 }

/-- Embedding of the def-use worklist loop of
`CanonicalizeOSSALifetime::rewriteCopies`: pop a discovered copy, walk its
uses, give fresh copies to the needy uses other than the retargeted one,
and apply the copy short-circuit. -/
def copyWorklistLoop (host : Host) : Nat → Phase3State → Phase3State
  | 0, st => st
  | fuel + 1, st =>
    match st.rw.worklist with
    | [] => st
    | c :: rest =>
        let srcBlock := parentBlockOf st.f c
        let srcOperandVal :=
          match instById st.f c with
          | some i =>
              match i.operands.head? with
              | some o => o.value
              | none => c
          | none => c
        let sites := (useSites st.f c).map toUseRec
        let r := processCopyUses srcBlock sites
          { st.rw with worklist := rest } none [] []
        let st2 := r.freshCopyUses.foldl (applyCopyLiveUse c)
          { f := st.f, rw := (finishCopyRewrite c r).2, nextId := st.nextId }
        let st3 :=
          match (finishCopyRewrite c r).1, r.reusedCopyOp with
          | CopyFate.keptInPlace, _ => st2
          | CopyFate.reusedAfterReplace, some u =>
              { st2 with
                f := setOperand (replaceUsesIn st2.f c srcOperandVal)
                       u.user.id u.opIdx c }
          | CopyFate.reusedAfterReplace, none => st2
          | CopyFate.deleted, _ =>
              { st2 with f := replaceUsesIn st2.f c srcOperandVal }
        copyWorklistLoop host fuel st3

/-- Embedding of `CanonicalizeOSSALifetime::rewriteCopies` over the IR:
visit the direct uses of the def (giving fresh copies to every needy use),
run the copy worklist, move the debug values of Dead blocks after the
consume, delete them, and delete the unclaimed copies and destroys. -/
def rewriteCopies (host : Host) (f : IRFunction) (defInfo : ValueInfo)
    (lv : PrunedLivenessState) (consumes : ConsumeInfo)
    (debugValues : List Nat) (nextId : Nat) : IRFunction × ConsumeInfo :=
  let sites := (useSites f defInfo.id).map toUseRec
  let rw0 : RewriteState := ⟨[], [], consumes⟩
  let rw1 := runUses sites rw0
  let st1 := (needyUses sites rw0).foldl (applyCopyLiveUse defInfo.id)
    ⟨f, rw1, nextId⟩
  let st2 := copyWorklistLoop host ((allInsts st1.f).length + 1) st1
  let c2 := debugValues.foldl
    (fun c dvi =>
      if lv.blockLiveness (parentBlockOf st2.f dvi) = BlockLiveness.dead then
        c.recordDebugAfterConsume dvi
      else c)
    st2.rw.consumes
  let f2 := deleteInsts st2.f c2.debugAfterConsume
  (deleteInsts f2 st2.rw.instsToDelete, c2)

/-- First unused instruction id, for destroys and copies the canonicalizer
creates. -/
def freshIdBase (f : IRFunction) : Nat :=
  ((allInsts f).map Inst.id).foldl max 0 + 1

/-- Embedding of `CanonicalizeOSSALifetime::canonicalizeValueLifetime`:
skip defs that are not owned or are lexical; compute pruned liveness,
bailing out with the IR untouched on failure; extend liveness over
overlapping access scopes; place final destroys; rewrite copies. -/
def canonicalizeValueLifetime (host : Host) (pruneDebugMode : Bool)
    (f : IRFunction) (defInfo : ValueInfo) : Bool × IRFunction :=
  if ¬ defInfo.ownership = OwnershipKind.owned then (false, f)
  else if defInfo.isLexical then (false, f)
  else
    match computeCanonicalLiveness host f defInfo pruneDebugMode with
    | none => (false, f)
    | some ls =>
        let lv2 := extendLivenessThroughOverlappingAccess host f
          defInfo.parentBlock ls.destroys ls.consumingBlocks ls.lv
        let st2 := findOrInsertDestroys host defInfo pruneDebugMode lv2
          ls.consumingBlocks ⟨f, ⟨[], []⟩, ls.debugValues, freshIdBase f⟩
        (true, (rewriteCopies host st2.f defInfo lv2 st2.consumes
          st2.debugValues st2.nextId).1)

/-- A phase-1 bail-out operand: classified `PointerEscape` or
`ForwardingUnowned`, or a `Borrow` whose scope extension fails. -/
def bailOperand (op : Operand) : Prop :=
  op.ownership = OperandOwnership.pointerEscape
  ∨ op.ownership = OperandOwnership.forwardingUnowned
  ∨ (op.ownership = OperandOwnership.borrow ∧ op.borrowEnds = none)

/-- Worklist sanity for phase 1: ever-inserted value ids are distinct and
lie in the value universe. -/
def LSInv (U : List Nat) (st : LivenessState) : Prop :=
  st.seen.Nodup ∧ (∀ x ∈ st.seen, x ∈ U)

/-- Termination measure of the phase-1 worklist loop: pending values plus
never-inserted universe values. -/
def lsMeasure (U : List Nat) (st : LivenessState) : Nat :=
  st.defUseWorklist.length + (U.length - st.seen.length)

/-- Concrete function for the C2 witness: one block holding a destroy of
the def (value 0) and a terminator. -/
def wF : IRFunction :=
  ⟨[⟨0, [⟨1, .destroyValue, [⟨0, .destroyingConsume, none⟩]⟩,
        ⟨2, .otherTerm, []⟩], []⟩]⟩

/-- Concrete def for the C2 witness: an owned, non-lexical block argument. -/
def wDef : ValueInfo := ⟨0, .owned, false, 0, none⟩

/-- CFG for the C3 counterexample: the def (value 0) is an argument of
block 0, whose terminator uses it without consuming it; blocks 1 and 2 each
begin with an original destroy of the def. -/
def cexC3F : IRFunction :=
  ⟨[⟨0, [⟨1, .otherTerm, [⟨0, .instantaneousUse, none⟩]⟩], [1, 2]⟩,
    ⟨1, [⟨2, .destroyValue, [⟨0, .destroyingConsume, none⟩]⟩,
         ⟨3, .otherTerm, []⟩], []⟩,
    ⟨2, [⟨4, .destroyValue, [⟨0, .destroyingConsume, none⟩]⟩,
         ⟨5, .otherTerm, []⟩], []⟩]⟩

/-- The def of the C3 counterexample. -/
def cexC3Def : ValueInfo := ⟨0, .owned, false, 0, none⟩

/-- Phase-1 output on the C3 counterexample. -/
def cexC3LS : LivenessState :=
  (computeCanonicalLiveness cexHost cexC3F cexC3Def false).getD
    (initialLivenessState cexC3Def)

/-- Liveness after access-scope extension on the C3 counterexample. -/
def cexC3LV : PrunedLivenessState :=
  extendLivenessThroughOverlappingAccess cexHost cexC3F 0 cexC3LS.destroys
    cexC3LS.consumingBlocks cexC3LS.lv

/-- Phase-2 output on the C3 counterexample. -/
def cexC3Phase2 : Phase2State :=
  findOrInsertDestroys cexHost cexC3Def false cexC3LV cexC3LS.consumingBlocks
    ⟨cexC3F, ⟨[], []⟩, cexC3LS.debugValues, freshIdBase cexC3F⟩

/-- Blocks the phase-2 backward traversal reaches: the consuming blocks
and, transitively, the non-LiveOut predecessors of reached Dead blocks. -/
inductive Phase2Reaches (f : IRFunction) (lv : PrunedLivenessState)
    (consumingBlocks : List Nat) : Nat → Prop
  | seed {bb : Nat} : bb ∈ consumingBlocks →
      Phase2Reaches f lv consumingBlocks bb
  | pred {bb p : Nat} : Phase2Reaches f lv consumingBlocks bb →
      lv.blockLiveness bb = BlockLiveness.dead →
      p ∈ predsOf f bb →
      ¬ lv.blockLiveness p = BlockLiveness.liveOut →
      Phase2Reaches f lv consumingBlocks p

/-- Every recorded final consume names an instruction of the block it is
recorded for. -/
def EntriesOK (st : Phase2State) : Prop :=
  ∀ p ∈ st.consumes.finalBlockConsumes,
    ∃ inst ∈ blockInsts st.f p.1, inst.id = p.2

/-- A destroy of the def at the entry of a block — past incidental uses and
destroys of other values — claimed as the block's final consume. -/
def DestroyEntryOK (isInc : Inst → Bool) (defId : Nat) (st : Phase2State)
    (bb : Nat) : Prop :=
  ∃ pre di rest, blockInsts st.f bb = pre ++ di :: rest
    ∧ (∀ i ∈ pre, edgeScanSkippable isInc defId i)
    ∧ destroyedValue di = some defId
    ∧ (bb, di.id) ∈ st.consumes.finalBlockConsumes

/-- The phase-2 guarantee for one processed block, relative to the current
traversal state and the set of ever-enqueued blocks: a LiveWithin block
either holds a recorded final consume or every one of its successors holds
a claimed entry destroy of the def; a Dead block holds a claimed entry
destroy whenever some predecessor is LiveOut, and its other predecessors
have been enqueued. -/
def ProcessedOK (host : Host) (f0 : IRFunction) (defId : Nat)
    (lv : PrunedLivenessState) (seen : List Nat) (st : Phase2State)
    (bb : Nat) : Prop :=
  (lv.blockLiveness bb = BlockLiveness.liveWithin →
     (∃ i, (bb, i) ∈ st.consumes.finalBlockConsumes)
     ∨ (∀ succ ∈ blockSuccs f0 bb,
          DestroyEntryOK host.isIncidentalUse defId st succ))
  ∧ (lv.blockLiveness bb = BlockLiveness.dead →
     (∀ p ∈ predsOf f0 bb, lv.blockLiveness p = BlockLiveness.liveOut →
        DestroyEntryOK host.isIncidentalUse defId st bb)
     ∧ (∀ p ∈ predsOf f0 bb, ¬ lv.blockLiveness p = BlockLiveness.liveOut →
        p ∈ seen))

/-- The consume map holds at most one entry per block: its keys are
distinct. -/
def KeysOK (c : ConsumeInfo) : Prop :=
  (c.finalBlockConsumes.map Prod.fst).Nodup

/-- Frame facts of one intra-block destroy placement step for block `bb`:
sound entries and distinct keys are preserved, instruction lists only grow,
recorded entries of every block survive (as some entry), entry destroys of
other blocks survive, and the CFG shape is untouched. -/
def ScanPost (host : Host) (defId bb : Nat) (st st2 : Phase2State) : Prop :=
  (EntriesOK st → EntriesOK st2)
  ∧ (∀ x inst, inst ∈ blockInsts st.f x → inst ∈ blockInsts st2.f x)
  ∧ (∀ b, (∃ i, (b, i) ∈ st.consumes.finalBlockConsumes) →
      ∃ i, (b, i) ∈ st2.consumes.finalBlockConsumes)
  ∧ (∀ x, ¬ x = bb → DestroyEntryOK host.isIncidentalUse defId st x →
      DestroyEntryOK host.isIncidentalUse defId st2 x)
  ∧ (∀ x, blockSuccs st2.f x = blockSuccs st.f x)
  ∧ (∀ x, predsOf st2.f x = predsOf st.f x)
  ∧ (∀ x, (findBlock st2.f x).isSome = (findBlock st.f x).isSome)
  ∧ (KeysOK st.consumes → KeysOK st2.consumes)

/-- Frame facts of one worklist step of `findOrInsertDestroys`: sound
entries and distinct keys are preserved, instruction lists only grow,
recorded entries survive, entry destroys of Dead blocks survive, and the
CFG shape is untouched. -/
def StepFrame (host : Host) (defId : Nat) (lv : PrunedLivenessState)
    (st st2 : Phase2State) : Prop :=
  (EntriesOK st → EntriesOK st2)
  ∧ (∀ x inst, inst ∈ blockInsts st.f x → inst ∈ blockInsts st2.f x)
  ∧ (∀ b, (∃ i, (b, i) ∈ st.consumes.finalBlockConsumes) →
      ∃ i, (b, i) ∈ st2.consumes.finalBlockConsumes)
  ∧ (∀ x, lv.blockLiveness x = BlockLiveness.dead →
      DestroyEntryOK host.isIncidentalUse defId st x →
      DestroyEntryOK host.isIncidentalUse defId st2 x)
  ∧ (∀ x, blockSuccs st2.f x = blockSuccs st.f x)
  ∧ (∀ x, predsOf st2.f x = predsOf st.f x)
  ∧ (∀ x, (findBlock st2.f x).isSome = (findBlock st.f x).isSome)
  ∧ (KeysOK st.consumes → KeysOK st2.consumes)

/-- Number of final consumes recorded for a block. -/
def consumeCount (st : Phase2State) (bb : Nat) : Nat :=
  (st.consumes.finalBlockConsumes.map Prod.fst).count bb

/-- Concrete CFG exercising the amended phase-2 contract: a single
LiveWithin block whose terminator is a lifetime-ending use of the def
(value 7). -/
def w3F : IRFunction :=
  ⟨[⟨0, [⟨10, .other, []⟩,
         ⟨11, .otherTerm, [⟨7, .destroyingConsume, none⟩]⟩], []⟩]⟩

/-- Host oracles for the amended phase-2 contract instance. -/
def w3Host : Host :=
  ⟨fun _ _ => false, fun _ => false, fun _ => false, fun _ => false,
   fun _ => []⟩

/-- The def of the amended phase-2 contract instance. -/
def w3Def : ValueInfo := ⟨7, .owned, false, 0, none⟩

/-- Liveness of the amended phase-2 contract instance: block 0 LiveWithin,
instruction 11 a lifetime-ending user. -/
def w3LV : PrunedLivenessState :=
  ⟨fun b => if b = 0 then .liveWithin else .dead,
   fun i => if i = 11 then .lifetimeEndingUse else .nonUser⟩

/-- Initial phase-2 state of the amended contract instance. -/
def w3St : Phase2State := ⟨w3F, ⟨[], []⟩, [], 100⟩

/-! ## Theorems -/


/-- Only a `destroy_value` destroys a value. -/
theorem destroyedValue_kind {i : Inst} {v : Nat}
    (h : destroyedValue i = some v) : i.kind = InstKind.destroyValue := by
  cases hk : i.kind <;> simp [destroyedValue, hk] at h ⊢

/-- Completeness of the edge scan: a decomposition of the block into a
skippable prefix followed by a non-incidental destroy of the def forces
`findDestroyOnCFGEdge` to return that destroy. -/
theorem findDestroyOnCFGEdge_some_of_decomp (isInc : Inst → Bool)
    (defId : Nat) (pre : List Inst) (di : Inst) (rest : List Inst)
    (hpre : ∀ i ∈ pre, edgeScanSkippable isInc defId i)
    (hinc : isInc di = false) (hdi : destroyedValue di = some defId) :
    findDestroyOnCFGEdge isInc defId (pre ++ di :: rest) = some di := by
  induction pre with
  | nil =>
      have hk := destroyedValue_kind hdi
      simp only [List.nil_append, findDestroyOnCFGEdge, hinc, Bool.false_eq_true,
        if_false, hk, hdi]
      simp
  | cons a pre ih =>
      have ha := hpre a (by simp)
      have hrest : ∀ i ∈ pre, edgeScanSkippable isInc defId i :=
        fun i hi => hpre i (by simp [hi])
      rcases ha with haInc | ⟨hk, hvne⟩
      · simpa [findDestroyOnCFGEdge, haInc] using ih hrest
      · by_cases hAi : isInc a = true
        · simpa [findDestroyOnCFGEdge, hAi] using ih hrest
        · have hne : ¬ (destroyedValue a == some defId) = true := by
            simpa using hvne
          simp only [List.cons_append, findDestroyOnCFGEdge, hAi,
            Bool.false_eq_true, if_false, hk]
          simp only [hne, if_false]
          exact ih hrest

/-- Soundness of the edge scan: a found destroy yields a decomposition of
the block into a skippable prefix followed by that destroy. -/
theorem findDestroyOnCFGEdge_decomp_of_some (isInc : Inst → Bool)
    (defId : Nat) (l : List Inst) (di : Inst)
    (h : findDestroyOnCFGEdge isInc defId l = some di) :
    ∃ pre rest, l = pre ++ di :: rest
      ∧ (∀ i ∈ pre, edgeScanSkippable isInc defId i)
      ∧ isInc di = false ∧ destroyedValue di = some defId := by
  induction l with
  | nil => simp [findDestroyOnCFGEdge] at h
  | cons a rest ih =>
      by_cases hAi : isInc a = true
      · have h2 : findDestroyOnCFGEdge isInc defId rest = some di := by
          simpa [findDestroyOnCFGEdge, hAi] using h
        obtain ⟨pre, tail, hEq, hSkip, hIncDi, hDi⟩ := ih h2
        exact ⟨a :: pre, tail, by simp [hEq],
          fun i hi => by
            rcases List.mem_cons.mp hi with hia | hip
            · exact hia ▸ Or.inl hAi
            · exact hSkip i hip,
          hIncDi, hDi⟩
      · cases hk : a.kind with
        | destroyValue =>
            by_cases hEq : (destroyedValue a == some defId) = true
            · have : a = di := by
                simp only [findDestroyOnCFGEdge, hAi, Bool.false_eq_true,
                  if_false, hk, hEq, if_true, Option.some.injEq] at h
                exact h
              subst this
              refine ⟨[], rest, rfl, by simp, by simpa using hAi, ?_⟩
              simpa using hEq
            · have h2 : findDestroyOnCFGEdge isInc defId rest = some di := by
                simp only [findDestroyOnCFGEdge, hAi, Bool.false_eq_true,
                  if_false, hk, hEq, if_false] at h
                exact h
              obtain ⟨pre, tail, hEq2, hSkip, hIncDi, hDi⟩ := ih h2
              have hv : destroyedValue a ≠ some defId := by
                intro hvd
                exact hEq (by simp [hvd])
              exact ⟨a :: pre, tail, by simp [hEq2],
                fun i hi => by
                  rcases List.mem_cons.mp hi with hia | hip
                  · exact hia ▸ Or.inr ⟨hk, hv⟩
                  · exact hSkip i hip,
                hIncDi, hDi⟩
        | copyValue => simp [findDestroyOnCFGEdge, hAi, hk] at h
        | debugValue => simp [findDestroyOnCFGEdge, hAi, hk] at h
        | beginAccess => simp [findDestroyOnCFGEdge, hAi, hk] at h
        | endAccess b => simp [findDestroyOnCFGEdge, hAi, hk] at h
        | endUnpairedAccess => simp [findDestroyOnCFGEdge, hAi, hk] at h
        | branchInst t => simp [findDestroyOnCFGEdge, hAi, hk] at h
        | otherTerm => simp [findDestroyOnCFGEdge, hAi, hk] at h
        | other => simp [findDestroyOnCFGEdge, hAi, hk] at h


/-- C5: during access-scope extension, an end-access whose matching
begin-access lives in a block classified Dead is treated as overlapping the
pruned boundary iff the begin-access's block properly dominates the block of
the def being canonicalized. -/
theorem endsAccess_dead_iff_properlyDominates (f : IRFunction)
    (dom : Nat → Nat → Bool) (lv : PrunedLivenessState) (defBlock : Nat)
    (instId beginId : Nat) (ops : List Operand)
    (h : lv.blockLiveness (parentBlockOf f beginId) = BlockLiveness.dead) :
    endsAccessOverlappingPrunedBoundary f dom lv defBlock
        ⟨instId, InstKind.endAccess beginId, ops⟩
      = dom (parentBlockOf f beginId) defBlock := by
  simp only [endsAccessOverlappingPrunedBoundary, h]

/-- Witness for C5 at a concrete input: a one-block function whose liveness
map classifies every block Dead, and a concrete dominance oracle. -/
theorem endsAccess_dead_iff_properlyDominates_witness :
    (PrunedLivenessState.mk (fun _ => BlockLiveness.dead)
        (fun _ => InterestingKind.nonUser)).blockLiveness
        (parentBlockOf (IRFunction.mk []) 5) = BlockLiveness.dead
    ∧ endsAccessOverlappingPrunedBoundary (IRFunction.mk [])
        (fun a b => a == 0 && b == 7)
        (PrunedLivenessState.mk (fun _ => BlockLiveness.dead)
          (fun _ => InterestingKind.nonUser)) 7
        ⟨9, InstKind.endAccess 5, []⟩
      = (fun a b => a == 0 && b == 7) (parentBlockOf (IRFunction.mk []) 5) 7 :=
  ⟨rfl,
   endsAccess_dead_iff_properlyDominates (IRFunction.mk [])
     (fun a b => a == 0 && b == 7)
     (PrunedLivenessState.mk (fun _ => BlockLiveness.dead)
       (fun _ => InterestingKind.nonUser)) 7 9 5 [] rfl⟩


/-- C7 counterexample: looking past incidental uses only, block 2 does not
begin with a destroy of the def (value 0) — its first non-incidental
instruction is a destroy of the unrelated value 1 — so the claim requires a
fresh destroy inserted at the block's first position.  The code instead
looks past the unrelated destroy, claims the existing destroy (id 11) as
the final consume, and creates no instruction: the function is returned
unchanged and the fresh-id counter does not advance. -/
theorem findOrInsertDestroyOnCFGEdge_cex :
    specBeginsWithDestroyOfDef cexHost.isIncidentalUse 0
        (blockInsts cexEdgeF 2) = none
    ∧ findOrInsertDestroyOnCFGEdge cexHost 0 cexEdgeF ⟨[], []⟩ 99 1 2
        = (cexEdgeF, ⟨[(2, 11)], []⟩, 99) := by
  constructor <;> rfl

/-- C7 (amended): when phase 2 places a destroy on a boundary CFG edge into
`succBB`: if `succBB` begins with a destroy of the current def — looking
past incidental uses and also past destroys of other values — that existing
destroy is claimed as the final consume and no new instruction is created;
otherwise a fresh destroy of the current def is inserted at `succBB`'s
first position and claimed. -/
theorem findOrInsertDestroyOnCFGEdge_amended (host : Host) (defId : Nat)
    (f : IRFunction) (consumes : ConsumeInfo) (nextId predBB succBB : Nat) :
    (∀ pre di rest, blockInsts f succBB = pre ++ di :: rest →
        (∀ i ∈ pre, edgeScanSkippable host.isIncidentalUse defId i) →
        host.isIncidentalUse di = false → destroyedValue di = some defId →
        findOrInsertDestroyOnCFGEdge host defId f consumes nextId predBB succBB
          = (f, consumes.recordFinalConsume succBB di.id, nextId))
    ∧ ((¬ ∃ pre di rest, blockInsts f succBB = pre ++ di :: rest
          ∧ (∀ i ∈ pre, edgeScanSkippable host.isIncidentalUse defId i)
          ∧ host.isIncidentalUse di = false
          ∧ destroyedValue di = some defId) →
        findOrInsertDestroyOnCFGEdge host defId f consumes nextId predBB succBB
          = (insertAtBlockBegin f succBB (mkDestroy nextId defId),
             consumes.recordFinalConsume succBB nextId, nextId + 1)) := by
  constructor
  · intro pre di rest hEq hSkip hInc hDi
    have hFound : findDestroyOnCFGEdge host.isIncidentalUse defId
        (blockInsts f succBB) = some di := by
      rw [hEq]
      exact findDestroyOnCFGEdge_some_of_decomp host.isIncidentalUse defId
        pre di rest hSkip hInc hDi
    simp [findOrInsertDestroyOnCFGEdge, hFound]
  · intro hNone
    cases hFind : findDestroyOnCFGEdge host.isIncidentalUse defId
        (blockInsts f succBB) with
    | some di =>
        exfalso
        obtain ⟨pre, rest, hEq, hSkip, hInc, hDi⟩ :=
          findDestroyOnCFGEdge_decomp_of_some host.isIncidentalUse defId
            (blockInsts f succBB) di hFind
        exact hNone ⟨pre, di, rest, hEq, hSkip, hInc, hDi⟩
    | none => simp [findOrInsertDestroyOnCFGEdge, hFind]

/-- Witness for the amended C7 theorem: applying it at the counterexample
block claims the existing destroy (id 11) past the unrelated destroy. -/
theorem findOrInsertDestroyOnCFGEdge_amended_witness :
    findOrInsertDestroyOnCFGEdge cexHost 0 cexEdgeF ⟨[], []⟩ 99 1 2
      = (cexEdgeF, ConsumeInfo.recordFinalConsume ⟨[], []⟩ 2 11, 99) :=
  (findOrInsertDestroyOnCFGEdge_amended cexHost 0 cexEdgeF ⟨[], []⟩ 99 1 2).1
    [⟨10, .destroyValue, [⟨1, .destroyingConsume, none⟩]⟩]
    ⟨11, .destroyValue, [⟨0, .destroyingConsume, none⟩]⟩ [] rfl
    (by
      intro i hi
      have : i = ⟨10, .destroyValue, [⟨1, .destroyingConsume, none⟩]⟩ := by
        simpa using hi
      subst this
      exact Or.inr ⟨rfl, by decide⟩)
    rfl rfl

/-- Walking the uses of a copy with the reused operand already chosen: the
choice never changes and every further needy use receives a fresh copy. -/
theorem processCopyUses_reused_some (srcBlock : Nat) (uses : List UseRec) :
    ∀ st r fresh kept,
      (processCopyUses srcBlock uses st (some r) fresh kept).reusedCopyOp = some r
      ∧ (processCopyUses srcBlock uses st (some r) fresh kept).freshCopyUses
          = fresh ++ needyUses uses st := by
  induction uses with
  | nil => intro st r fresh kept; simp [processCopyUses, needyUses]
  | cons u rest ih =>
      intro st r fresh kept
      by_cases h : (visitUse st u.user u.userBlock u.ownership).1 = true
      · simpa [processCopyUses, needyUses, h] using
          ih (visitUse st u.user u.userBlock u.ownership).2 r fresh (kept ++ [u])
      · simp only [processCopyUses, needyUses, h, Bool.false_eq_true, if_false]
        refine ⟨(ih _ r (fresh ++ [u]) kept).1, ?_⟩
        rw [(ih _ r (fresh ++ [u]) kept).2]
        simp

/-- Walking the uses of a copy with no reused operand chosen yet: the
reused operand becomes the first needy use lying in the copy's block, and
the fresh copies go exactly to the remaining needy uses. -/
theorem processCopyUses_reused_none (srcBlock : Nat) (uses : List UseRec) :
    ∀ st fresh kept,
      (processCopyUses srcBlock uses st none fresh kept).reusedCopyOp
        = (needyUses uses st).find? (fun u => u.userBlock == srcBlock)
      ∧ (processCopyUses srcBlock uses st none fresh kept).freshCopyUses
          = fresh ++ removeFirstSameBlock srcBlock (needyUses uses st) := by
  induction uses with
  | nil =>
      intro st fresh kept
      simp [processCopyUses, needyUses, removeFirstSameBlock]
  | cons u rest ih =>
      intro st fresh kept
      by_cases h : (visitUse st u.user u.userBlock u.ownership).1 = true
      · simpa [processCopyUses, needyUses, h] using
          ih (visitUse st u.user u.userBlock u.ownership).2 fresh (kept ++ [u])
      · simp only [processCopyUses, needyUses, h, Bool.false_eq_true, if_false]
        by_cases hb : u.userBlock = srcBlock
        · simp only [hb, if_true, List.find?_cons, removeFirstSameBlock]
          have hfind : (srcBlock == srcBlock) = true := by simp
          simp only [hfind, if_true]
          have := processCopyUses_reused_some srcBlock rest
            (visitUse st u.user u.userBlock u.ownership).2 u fresh kept
          simpa [hb] using this
        · have hfind : (u.userBlock == srcBlock) = false := by
            simpa using hb
          simp only [removeFirstSameBlock, hb, if_false, List.find?_cons, hfind]
          have := ih (visitUse st u.user u.userBlock u.ownership).2 (fresh ++ [u]) kept
          refine ⟨this.1, ?_⟩
          rw [this.2]
          simp

/-- The walked copy is scheduled for deletion exactly when no use was
retargeted back to it. -/
theorem finishCopyRewrite_deleted_iff (srcCopyId : Nat) (r : CopyUsesResult) :
    (finishCopyRewrite srcCopyId r).1 = CopyFate.deleted
      ↔ r.reusedCopyOp = none := by
  cases hr : r.reusedCopyOp with
  | some u => simp [finishCopyRewrite, hr]; split <;> simp
  | none => simp [finishCopyRewrite, hr]

/-- C8 counterexample: a copy (id 7, in block 5) with two uses, both of
which need a copy (consuming, unclaimed) and both of which lie in the
copy's own block.  Since not exactly one use needed a copy, the claim
requires every user to be replaced with the copy's operand and the copy to
be deleted; the code instead retargets the first needy use back to the
copy after replacing the other users, and the copy survives. -/
theorem rewriteCopies_shortCircuit_cex :
    (needyUses [cexUse1, cexUse2] ⟨[], [], ⟨[], []⟩⟩).length = 2
    ∧ cexUse1.userBlock = 5 ∧ cexUse2.userBlock = 5
    ∧ (finishCopyRewrite 7 cexShortCircuitRun).1 = CopyFate.reusedAfterReplace
    ∧ ¬ (finishCopyRewrite 7 cexShortCircuitRun).1 = CopyFate.deleted := by
  refine ⟨rfl, rfl, rfl, rfl, ?_⟩
  decide

/-- C8 (amended): after visiting all uses of a discovered copy, the use
retargeted back to the copy is the first use that needed a copy and lies in
the copy's block; the copy is deleted — with all users replaced by its
operand — exactly when no use needing a copy lies in the copy's block; in
particular, when exactly one use needed a copy and that use is in the
copy's block, the copy is reused for that use, no fresh copy is created,
and the copy is not deleted. -/
theorem rewriteCopies_shortCircuit_amended (srcCopyId srcBlock : Nat)
    (uses : List UseRec) (st0 : RewriteState) :
    ((processCopyUses srcBlock uses st0 none [] []).reusedCopyOp
        = (needyUses uses st0).find? (fun u => u.userBlock == srcBlock))
    ∧ ((finishCopyRewrite srcCopyId
          (processCopyUses srcBlock uses st0 none [] [])).1 = CopyFate.deleted
        ↔ (needyUses uses st0).find? (fun u => u.userBlock == srcBlock) = none)
    ∧ (∀ u, needyUses uses st0 = [u] → u.userBlock = srcBlock →
        (processCopyUses srcBlock uses st0 none [] []).reusedCopyOp = some u
        ∧ (processCopyUses srcBlock uses st0 none [] []).freshCopyUses = []
        ∧ ¬ (finishCopyRewrite srcCopyId
              (processCopyUses srcBlock uses st0 none [] [])).1
            = CopyFate.deleted) := by
  obtain ⟨hre, hfr⟩ := processCopyUses_reused_none srcBlock uses st0 [] []
  refine ⟨hre, ?_, ?_⟩
  · rw [finishCopyRewrite_deleted_iff, hre]
  · intro u hu hub
    have hfind : (needyUses uses st0).find? (fun v => v.userBlock == srcBlock)
        = some u := by
      rw [hu]
      simp [List.find?_cons, hub]
    refine ⟨hre.trans hfind, ?_, ?_⟩
    · rw [hfr, hu]
      simp [removeFirstSameBlock, hub]
    · rw [finishCopyRewrite_deleted_iff, hre, hfind]
      simp

/-- Witness for the amended C8 theorem: a copy with a single consuming
unclaimed use in its own block is reused for that use and survives. -/
theorem rewriteCopies_shortCircuit_amended_witness :
    (processCopyUses 5 [cexUse1] ⟨[], [], ⟨[], []⟩⟩ none [] []).reusedCopyOp
        = some cexUse1
    ∧ (processCopyUses 5 [cexUse1] ⟨[], [], ⟨[], []⟩⟩ none [] []).freshCopyUses = []
    ∧ ¬ (finishCopyRewrite 7
          (processCopyUses 5 [cexUse1] ⟨[], [], ⟨[], []⟩⟩ none [] [])).1
        = CopyFate.deleted :=
  (rewriteCopies_shortCircuit_amended 7 5 [cexUse1] ⟨[], [], ⟨[], []⟩⟩).2.2
    cexUse1 (by decide) rfl

/-- The per-use decision always lets a destroy keep its operand. -/
theorem visitUse_fst_of_destroy (st : RewriteState) (user : Inst)
    (ub : Nat) (ow : OperandOwnership)
    (h : user.kind = InstKind.destroyValue) :
    (visitUse st user ub ow).1 = true := by
  obtain ⟨uid, uk, uops⟩ := user
  simp only [Inst.kind] at h
  subst h
  simp only [visitUse]
  split <;> rfl

/-- No needy use has a destroy user. -/
theorem needyUses_not_destroy (uses : List UseRec) :
    ∀ st u, u ∈ needyUses uses st → ¬ u.user.kind = InstKind.destroyValue := by
  induction uses with
  | nil => intro st u hu; simp [needyUses] at hu
  | cons a rest ih =>
      intro st u hu
      by_cases h : (visitUse st a.user a.userBlock a.ownership).1 = true
      · exact ih _ u (by simpa [needyUses, h] using hu)
      · have h2 : u = a ∨ u ∈ needyUses rest
            (visitUse st a.user a.userBlock a.ownership).2 := by
          simpa [needyUses, h] using hu
        rcases h2 with rfl | h2
        · intro hk
          exact h (visitUse_fst_of_destroy st u.user u.userBlock u.ownership hk)
        · exact ih _ u h2

/-- Dropping the first same-block use keeps a sublist. -/
theorem removeFirstSameBlock_mem (srcBlock : Nat) (l : List UseRec) :
    ∀ u, u ∈ removeFirstSameBlock srcBlock l → u ∈ l := by
  induction l with
  | nil => intro u hu; simp [removeFirstSameBlock] at hu
  | cons a rest ih =>
      intro u hu
      by_cases hb : a.userBlock = srcBlock
      · simp only [removeFirstSameBlock, hb, if_true] at hu
        exact List.mem_cons_of_mem a hu
      · simp only [removeFirstSameBlock, hb, if_false] at hu
        rcases List.mem_cons.mp hu with rfl | h2
        · exact List.mem_cons_self u rest
        · exact List.mem_cons_of_mem a (ih u h2)

/-- C9: in phase 3, a destroy user of the current def or of one of its
copies is never given a fresh copy: the per-use decision either claims it
as a final consume (keeping it and leaving the deletion schedule alone) or
schedules it for deletion, in both cases reporting that the use can keep
its current operand; consequently `copyLiveUse` — invoked exactly on the
needy uses of the direct walk and on the fresh-copy uses of the per-copy
walk — never receives a destroy operand. -/
theorem rewriteCopies_destroy_never_copied (st : RewriteState) (user : Inst)
    (userBlock : Nat) (ow : OperandOwnership)
    (h : user.kind = InstKind.destroyValue) :
    ((visitUse st user userBlock ow).1 = true
      ∧ (visitUse st user userBlock ow).2
          = (if (st.consumes.claimConsume userBlock user.id).1 then
              { st with consumes := (st.consumes.claimConsume userBlock user.id).2 }
             else
              { st with
                 consumes := (st.consumes.claimConsume userBlock user.id).2,
                 instsToDelete := setInsert st.instsToDelete user.id }))
    ∧ (∀ uses st0 u, u ∈ needyUses uses st0
        → ¬ u.user.kind = InstKind.destroyValue)
    ∧ (∀ srcBlock uses st0 u,
        u ∈ (processCopyUses srcBlock uses st0 none [] []).freshCopyUses
        → ¬ u.user.kind = InstKind.destroyValue) := by
  refine ⟨⟨visitUse_fst_of_destroy st user userBlock ow h, ?_⟩, ?_, ?_⟩
  · obtain ⟨uid, uk, uops⟩ := user
    simp only [Inst.kind] at h
    subst h
    simp only [visitUse]
    split <;> simp_all
  · intro uses st0 u hu
    exact needyUses_not_destroy uses st0 u hu
  · intro srcBlock uses st0 u hu
    rw [(processCopyUses_reused_none srcBlock uses st0 [] []).2] at hu
    simp only [List.nil_append] at hu
    exact needyUses_not_destroy uses st0 u
      (removeFirstSameBlock_mem srcBlock (needyUses uses st0) u hu)

/-- Witness for C9 at a concrete destroy user: it keeps its operand and is
scheduled for deletion because no final consume claims it. -/
theorem rewriteCopies_destroy_never_copied_witness :
    (visitUse ⟨[], [], ⟨[], []⟩⟩ ⟨11, .destroyValue, [⟨0, .destroyingConsume, none⟩]⟩
        2 .destroyingConsume).1 = true
    ∧ (visitUse ⟨[], [], ⟨[], []⟩⟩ ⟨11, .destroyValue, [⟨0, .destroyingConsume, none⟩]⟩
        2 .destroyingConsume).2
      = (if ((⟨[], []⟩ : ConsumeInfo).claimConsume 2 11).1 then
           { worklist := [], instsToDelete := [],
             consumes := ((⟨[], []⟩ : ConsumeInfo).claimConsume 2 11).2 }
         else
           { worklist := [],
             instsToDelete := setInsert [] 11,
             consumes := ((⟨[], []⟩ : ConsumeInfo).claimConsume 2 11).2 }) :=
  (rewriteCopies_destroy_never_copied ⟨[], [], ⟨[], []⟩⟩
    ⟨11, .destroyValue, [⟨0, .destroyingConsume, none⟩]⟩ 2 .destroyingConsume rfl).1

/-- C10: when debug-pruning mode is on, a debug-value user met during
phase-1 liveness computation is handled before the operand-ownership
dispatch (the conclusion holds for every operand classification): it never
causes a bail-out, never extends pruned liveness, and is recorded in the
debug-value set exactly when its block's current liveness is not
LiveOut. -/
theorem computeCanonicalLiveness_debugValue (f : IRFunction)
    (defInfo : ValueInfo) (st : LivenessState) (user : Inst)
    (userBlock opIdx : Nat) (op : Operand)
    (h : user.kind = InstKind.debugValue) :
    (visitLivenessUse f defInfo true st user userBlock opIdx op
       = some (if st.lv.blockLiveness userBlock ≠ BlockLiveness.liveOut
               then st.recordDebugValue user.id else st))
    ∧ ((if st.lv.blockLiveness userBlock ≠ BlockLiveness.liveOut
        then st.recordDebugValue user.id else st).lv = st.lv)
    ∧ ((if st.lv.blockLiveness userBlock ≠ BlockLiveness.liveOut
        then st.recordDebugValue user.id else st).debugValues
        = (if ¬ st.lv.blockLiveness userBlock = BlockLiveness.liveOut
           then setInsert st.debugValues user.id else st.debugValues)) := by
  refine ⟨?_, ?_, ?_⟩
  · simp only [visitLivenessUse, h]
    by_cases hb : st.lv.blockLiveness userBlock = BlockLiveness.liveOut <;>
      simp [hb]
  · split <;> rfl
  · split <;> simp_all [LivenessState.recordDebugValue]

/-- Witness for C10 at a concrete debug-value user in a block that is not
LiveOut: no bail, liveness untouched, the user recorded. -/
theorem computeCanonicalLiveness_debugValue_witness :
    visitLivenessUse (IRFunction.mk []) ⟨0, .owned, false, 0, none⟩ true
        (initialLivenessState ⟨0, .owned, false, 0, none⟩)
        ⟨3, .debugValue, [⟨0, .instantaneousUse, none⟩]⟩ 0 0
        ⟨0, .instantaneousUse, none⟩
      = some (if (initialLivenessState ⟨0, .owned, false, 0, none⟩).lv.blockLiveness 0
                  ≠ BlockLiveness.liveOut
              then (initialLivenessState ⟨0, .owned, false, 0, none⟩).recordDebugValue 3
              else initialLivenessState ⟨0, .owned, false, 0, none⟩) :=
  (computeCanonicalLiveness_debugValue (IRFunction.mk [])
    ⟨0, .owned, false, 0, none⟩ (initialLivenessState ⟨0, .owned, false, 0, none⟩)
    ⟨3, .debugValue, [⟨0, .instantaneousUse, none⟩]⟩ 0 0
    ⟨0, .instantaneousUse, none⟩ rfl).1

/-- Raising by join does not lower the interesting-user rank. -/
theorem ikRank_le_ikMax (a b : InterestingKind) :
    ikRank a ≤ ikRank (ikMax a b) := by
  unfold ikMax
  split
  · assumption
  · exact Nat.le_refl _

/-- A rank of at least one means the block is not Dead. -/
theorem blRank_pos_ne_dead {b : BlockLiveness} (h : 1 ≤ blRank b) :
    ¬ b = BlockLiveness.dead := by
  cases b <;> simp_all [blRank]

/-- Backward LiveOut propagation only raises block liveness. -/
theorem markLiveOutUpTo_mono (f : IRFunction) (defBlock : Nat) :
    ∀ fuel work bl x,
      blRank (bl x) ≤ blRank (markLiveOutUpTo f defBlock fuel bl work x) := by
  intro fuel
  induction fuel with
  | zero => intro work bl x; simp [markLiveOutUpTo]
  | succ n ih =>
      intro work bl x
      cases work with
      | nil => simp [markLiveOutUpTo]
      | cons b rest =>
          simp only [markLiveOutUpTo]
          cases hb : bl b with
          | liveOut => exact ih rest bl x
          | liveWithin =>
              dsimp only
              refine Nat.le_trans ?_ (ih rest _ x)
              by_cases hx : x = b
              · subst hx; simp [hb, blRank]
              · simp [hx]
          | dead =>
              dsimp only
              split
              · refine Nat.le_trans ?_ (ih rest _ x)
                by_cases hx : x = b
                · subst hx; simp [hb, blRank]
                · simp [hx]
              · refine Nat.le_trans ?_ (ih (predsOf f b ++ rest) _ x)
                by_cases hx : x = b
                · subst hx; simp [hb, blRank]
                · simp [hx]

/-- Recording a use only raises block liveness. -/
theorem updateForUse_blockLiveness_mono (f : IRFunction) (defBlock : Nat)
    (lv : PrunedLivenessState) (instId blockId : Nat) (le : Bool) (x : Nat) :
    blRank (lv.blockLiveness x)
      ≤ blRank ((lv.updateForUse f defBlock instId blockId le).blockLiveness x) := by
  simp only [PrunedLivenessState.updateForUse]
  cases hb : lv.blockLiveness blockId with
  | liveOut => exact Nat.le_refl _
  | liveWithin => exact Nat.le_refl _
  | dead =>
      split
      · by_cases hx : x = blockId
        · subst hx; simp [hb, blRank]
        · simp [hx]
      · refine Nat.le_trans ?_ (markLiveOutUpTo_mono f defBlock _ _ _ x)
        by_cases hx : x = blockId
        · subst hx; simp [hb, blRank]
        · simp [hx]

/-- Recording a use only raises interesting-user labels. -/
theorem updateForUse_interesting_mono (f : IRFunction) (defBlock : Nat)
    (lv : PrunedLivenessState) (instId blockId : Nat) (le : Bool) (j : Nat) :
    ikRank (lv.interesting j)
      ≤ ikRank ((lv.updateForUse f defBlock instId blockId le).interesting j) := by
  simp only [PrunedLivenessState.updateForUse]
  by_cases hj : j = instId
  · subst hj; simp only [if_pos rfl]; exact ikRank_le_ikMax _ _
  · simp [hj]

/-- Recording a non-lifetime-ending use labels the user accordingly. -/
theorem updateForUse_interesting_self (f : IRFunction) (defBlock : Nat)
    (lv : PrunedLivenessState) (instId blockId : Nat) :
    (lv.updateForUse f defBlock instId blockId false).interesting instId
      = ikMax (lv.interesting instId) InterestingKind.nonLifetimeEndingUse := by
  simp [PrunedLivenessState.updateForUse]

/-- Labels of other instructions are untouched. -/
theorem updateForUse_interesting_other (f : IRFunction) (defBlock : Nat)
    (lv : PrunedLivenessState) (instId blockId : Nat) (le : Bool) (j : Nat)
    (hj : ¬ j = instId) :
    (lv.updateForUse f defBlock instId blockId le).interesting j
      = lv.interesting j := by
  simp [PrunedLivenessState.updateForUse, hj]

/-- Recording a use makes the user's block live. -/
theorem updateForUse_block_not_dead (f : IRFunction) (defBlock : Nat)
    (lv : PrunedLivenessState) (instId blockId : Nat) (le : Bool) :
    ¬ (lv.updateForUse f defBlock instId blockId le).blockLiveness blockId
        = BlockLiveness.dead := by
  simp only [PrunedLivenessState.updateForUse]
  cases hb : lv.blockLiveness blockId with
  | liveOut => simp [hb]
  | liveWithin => simp [hb]
  | dead =>
      split
      · simp
      · refine blRank_pos_ne_dead ?_
        refine Nat.le_trans ?_ (markLiveOutUpTo_mono f defBlock _ _ _ blockId)
        simp [blRank]

/-- The reverse scan only returns instructions of the scanned list. -/
theorem extendScan_mem (f : IRFunction) (dom : Nat → Nat → Bool)
    (lv : PrunedLivenessState) (defBlock : Nat) (destroys : List Nat) :
    ∀ l flc bhu inst,
      extendScan f dom lv defBlock destroys l flc bhu = some inst →
      inst ∈ l := by
  intro l
  induction l with
  | nil => intro flc bhu inst h; simp [extendScan] at h
  | cons a rest ih =>
      intro flc bhu inst h
      simp only [extendScan] at h
      split at h
      · exact List.mem_cons_of_mem a (ih _ _ inst h)
      · split at h
        · simp at h
        · split at h
          · simp only [Option.some.injEq] at h
            subst h
            exact List.mem_cons_self a rest
          · exact List.mem_cons_of_mem a (ih _ _ inst h)

/-- With a use in the block, the scan stops at interesting users before
looking for an overlapping end-access: whatever it returns was not yet an
interesting user. -/
theorem extendScan_nonUser (f : IRFunction) (dom : Nat → Nat → Bool)
    (lv : PrunedLivenessState) (defBlock : Nat) (destroys : List Nat) :
    ∀ l flc inst,
      extendScan f dom lv defBlock destroys l flc true = some inst →
      lv.interesting inst.id = InterestingKind.nonUser := by
  intro l
  induction l with
  | nil => intro flc inst h; simp [extendScan] at h
  | cons a rest ih =>
      intro flc inst h
      simp only [extendScan] at h
      split at h
      · exact ih _ inst h
      · split at h
        · simp at h
        · rename_i hcond
          split at h
          · simp only [Option.some.injEq] at h
            subst h
            simpa using hcond
          · exact ih _ inst h

/-- An instruction of a block with the given id is an instruction of the
function. -/
theorem blockInsts_subset_allInsts (f : IRFunction) (bb : Nat) :
    ∀ inst, inst ∈ blockInsts f bb → inst ∈ allInsts f := by
  intro inst h
  unfold blockInsts at h
  cases hfb : findBlock f bb with
  | none => rw [hfb] at h; simp at h
  | some b =>
      rw [hfb] at h
      have hb : b ∈ f.blocks := List.mem_of_find?_eq_some hfb
      unfold allInsts
      simp only [List.mem_flatten, List.mem_map]
      exact ⟨b.insts, ⟨b, hb, rfl⟩, h⟩

/-- A successful block scan yields an instruction of that block, the block
is not LiveOut, and when the block is LiveWithin the instruction was not an
interesting user. -/
theorem extendScanBlock_some (host : Host) (f : IRFunction)
    (lv : PrunedLivenessState) (defBlock : Nat)
    (destroys consumingBlocks btv : List Nat) (bb : Nat) (inst : Inst)
    (h : extendScanBlock host f lv defBlock destroys consumingBlocks btv bb
        = some inst) :
    inst ∈ blockInsts f bb
    ∧ ¬ lv.blockLiveness bb = BlockLiveness.liveOut
    ∧ (lv.blockLiveness bb = BlockLiveness.liveWithin →
        lv.interesting inst.id = InterestingKind.nonUser) := by
  unfold extendScanBlock at h
  split at h
  · simp at h
  · split at h
    · simp at h
    · rename_i hlo hde
      refine ⟨?_, hlo, ?_⟩
      · have := extendScan_mem f host.properlyDominates lv defBlock destroys
          _ _ _ inst h
        exact (List.mem_reverse).mp this
      · intro hlw
        have hbhu : (lv.blockLiveness bb == BlockLiveness.liveWithin) = true := by
          simp [hlw]
        rw [hbhu] at h
        exact extendScan_nonUser f host.properlyDominates lv defBlock
          destroys _ _ inst h

/-- With globally distinct instruction ids, the block search of
`parentBlockOf` finds the block actually holding the instruction. -/
theorem find_parent_block (blocks : List Block) (b : Block) (inst : Inst)
    (hb : b ∈ blocks) (hi : inst ∈ b.insts)
    (hnd : (((blocks.map Block.insts).flatten).map Inst.id).Nodup) :
    blocks.find? (fun blk => blk.insts.any (fun i => i.id == inst.id))
      = some b := by
  induction blocks with
  | nil => simp at hb
  | cons a rest ih =>
      rcases List.mem_cons.mp hb with rfl | hbr
      · refine List.find?_cons_of_pos _ ?_
        simp only [List.any_eq_true]
        exact ⟨inst, hi, by simp⟩
      · simp only [List.map_cons, List.flatten_cons, List.map_append,
          List.nodup_append] at hnd
        obtain ⟨hndA, hndR, hdisj⟩ := hnd
        have hmem : inst.id ∈ ((rest.map Block.insts).flatten).map Inst.id := by
          simp only [List.mem_map, List.mem_flatten]
          exact ⟨inst, ⟨b.insts, ⟨b, hbr, rfl⟩, hi⟩, rfl⟩
        have hpa : (a.insts.any (fun i => i.id == inst.id)) = false := by
          by_contra hcon
          rw [Bool.not_eq_false, List.any_eq_true] at hcon
          obtain ⟨i2, hi2, hid⟩ := hcon
          rw [beq_iff_eq] at hid
          have : inst.id ∈ a.insts.map Inst.id := by
            simp only [List.mem_map]
            exact ⟨i2, hi2, hid⟩
          exact hdisj this hmem
        rw [List.find?_cons_of_neg _ (by simp [hpa])]
        exact ih hbr hndR

/-- With globally distinct instruction ids, `parentBlockOf` returns the id
of the block holding the instruction. -/
theorem parentBlockOf_eq (f : IRFunction) (b : Block) (inst : Inst)
    (hb : b ∈ f.blocks) (hi : inst ∈ b.insts)
    (hnd : ((allInsts f).map Inst.id).Nodup) :
    parentBlockOf f inst.id = b.id := by
  unfold parentBlockOf
  rw [find_parent_block f.blocks b inst hb hi (by simpa [allInsts] using hnd)]

/-- A found block carries the searched id. -/
theorem findBlock_id (f : IRFunction) (bb : Nat) (b : Block)
    (h : findBlock f bb = some b) : b.id = bb := by
  have := List.find?_some h
  simpa using this

/-- A found block is a block of the function. -/
theorem findBlock_mem (f : IRFunction) (bb : Nat) (b : Block)
    (h : findBlock f bb = some b) : b ∈ f.blocks :=
  List.mem_of_find?_eq_some h

/-- An instruction found in the block with id `bb` has `bb` as its parent
block id, assuming globally distinct instruction ids. -/
theorem parentBlockOf_of_blockInsts (f : IRFunction) (bb : Nat) (inst : Inst)
    (hi : inst ∈ blockInsts f bb)
    (hnd : ((allInsts f).map Inst.id).Nodup) :
    parentBlockOf f inst.id = bb := by
  unfold blockInsts at hi
  cases hfb : findBlock f bb with
  | none => rw [hfb] at hi; simp at hi
  | some b =>
      rw [hfb] at hi
      rw [parentBlockOf_eq f b inst (findBlock_mem f bb b hfb) hi hnd]
      exact findBlock_id f bb b hfb

/-- Filtering by a weaker predicate keeps at least as many elements. -/
theorem filter_length_le_of_imp {α : Type} (p q : α → Bool) (l : List α)
    (h : ∀ a ∈ l, q a = true → p a = true) :
    (l.filter q).length ≤ (l.filter p).length := by
  rw [← List.countP_eq_length_filter, ← List.countP_eq_length_filter]
  exact List.countP_mono_left h

/-- Filtering by a strictly weaker predicate (witnessed at a member) keeps
strictly more elements. -/
theorem filter_length_lt_of_imp {α : Type} (p q : α → Bool) :
    ∀ l : List α, (∀ a ∈ l, q a = true → p a = true) →
      ∀ x, x ∈ l → p x = true → q x = false →
      (l.filter q).length < (l.filter p).length := by
  intro l
  induction l with
  | nil => intro _ x hx; simp at hx
  | cons a rest ih =>
      intro h x hx hpx hqx
      rcases List.mem_cons.mp hx with rfl | hxr
      · simp only [List.filter_cons, hpx, hqx, if_true, if_false,
          Bool.false_eq_true, List.length_cons]
        exact Nat.lt_succ_of_le (filter_length_le_of_imp p q rest
          (fun b hb => h b (List.mem_cons_of_mem _ hb)))
      · have hrest : ∀ b ∈ rest, q b = true → p b = true :=
          fun b hb => h b (List.mem_cons_of_mem _ hb)
        by_cases hqa : q a = true
        · have hpa : p a = true := h a (List.mem_cons_self a rest) hqa
          simp only [List.filter_cons, hpa, hqa, if_true, List.length_cons]
          exact Nat.succ_lt_succ (ih hrest x hxr hpx hqx)
        · rw [Bool.not_eq_true] at hqa
          by_cases hpa : p a = true
          · simp only [List.filter_cons, hpa, hqa, if_true, if_false,
              Bool.false_eq_true, List.length_cons]
            exact Nat.lt_succ_of_lt (ih hrest x hxr hpx hqx)
          · rw [Bool.not_eq_true] at hpa
            simp only [List.filter_cons, hpa, hqa, Bool.false_eq_true,
              if_false]
            exact ih hrest x hxr hpx hqx

/-- A changed extension iteration records an instruction of a candidate
block that was not previously an interesting user, and labels it a
non-lifetime-ending use. -/
theorem extendLivenessIter_changed (host : Host) (f : IRFunction)
    (defBlock : Nat) (destroys consumingBlocks : List Nat)
    (lv : PrunedLivenessState)
    (hnd : ((allInsts f).map Inst.id).Nodup)
    (hinv : UsersLiveInv f lv)
    (h : (extendLivenessIter host f defBlock destroys consumingBlocks lv).2
        = true) :
    ∃ inst bb, inst ∈ blockInsts f bb
      ∧ lv.interesting inst.id = InterestingKind.nonUser
      ∧ (extendLivenessIter host f defBlock destroys consumingBlocks lv).1
          = lv.updateForUse f defBlock inst.id bb false
      ∧ (extendLivenessIter host f defBlock destroys consumingBlocks
          lv).1.interesting inst.id = InterestingKind.nonLifetimeEndingUse := by
  unfold extendLivenessIter at h ⊢
  cases hfs : (blocksToVisitList lv f consumingBlocks).findSome? (fun bb =>
      (extendScanBlock host f lv defBlock destroys consumingBlocks
        (blocksToVisitList lv f consumingBlocks) bb).map (fun i => (i, bb)))
    with
  | none => rw [hfs] at h; simp at h
  | some p =>
      obtain ⟨inst, bb⟩ := p
      obtain ⟨bb2, _, hmap⟩ := List.exists_of_findSome?_eq_some hfs
      have hsb : extendScanBlock host f lv defBlock destroys consumingBlocks
          (blocksToVisitList lv f consumingBlocks) bb2 = some inst ∧ bb2 = bb := by
        cases hx : extendScanBlock host f lv defBlock destroys consumingBlocks
            (blocksToVisitList lv f consumingBlocks) bb2 with
        | none => rw [hx] at hmap; simp at hmap
        | some i2 =>
            rw [hx] at hmap
            simp only [Option.map_some', Option.some.injEq, Prod.mk.injEq] at hmap
            exact ⟨by rw [hmap.1], hmap.2⟩
      obtain ⟨hscan, rfl⟩ := hsb
      obtain ⟨hmem, hnlo, hlw⟩ := extendScanBlock_some host f lv defBlock
        destroys consumingBlocks _ bb2 inst hscan
      have hnu : lv.interesting inst.id = InterestingKind.nonUser := by
        cases hbl : lv.blockLiveness bb2 with
        | liveOut => exact absurd hbl hnlo
        | liveWithin => exact hlw hbl
        | dead =>
            by_contra hcon
            have hp := parentBlockOf_of_blockInsts f bb2 inst hmem hnd
            have h2 := hinv inst (blockInsts_subset_allInsts f bb2 inst hmem) hcon
            rw [hp] at h2
            exact h2 hbl
      refine ⟨inst, bb2, hmem, hnu, rfl, ?_⟩
      rw [updateForUse_interesting_self, hnu]
      decide

/-- The extension iteration preserves the invariant that interesting users
live in live blocks. -/
theorem extendLivenessIter_inv (host : Host) (f : IRFunction)
    (defBlock : Nat) (destroys consumingBlocks : List Nat)
    (lv : PrunedLivenessState)
    (hnd : ((allInsts f).map Inst.id).Nodup)
    (hinv : UsersLiveInv f lv) :
    UsersLiveInv f
      (extendLivenessIter host f defBlock destroys consumingBlocks lv).1 := by
  unfold extendLivenessIter
  cases hfs : (blocksToVisitList lv f consumingBlocks).findSome? (fun bb =>
      (extendScanBlock host f lv defBlock destroys consumingBlocks
        (blocksToVisitList lv f consumingBlocks) bb).map (fun i => (i, bb)))
    with
  | none => exact hinv
  | some p =>
      obtain ⟨inst, bb⟩ := p
      obtain ⟨bb2, _, hmap⟩ := List.exists_of_findSome?_eq_some hfs
      have hsb : extendScanBlock host f lv defBlock destroys consumingBlocks
          (blocksToVisitList lv f consumingBlocks) bb2 = some inst ∧ bb2 = bb := by
        cases hx : extendScanBlock host f lv defBlock destroys consumingBlocks
            (blocksToVisitList lv f consumingBlocks) bb2 with
        | none => rw [hx] at hmap; simp at hmap
        | some i2 =>
            rw [hx] at hmap
            simp only [Option.map_some', Option.some.injEq, Prod.mk.injEq] at hmap
            exact ⟨by rw [hmap.1], hmap.2⟩
      obtain ⟨hscan, rfl⟩ := hsb
      obtain ⟨hmem, _, _⟩ := extendScanBlock_some host f lv defBlock
        destroys consumingBlocks _ bb2 inst hscan
      intro i hi hint
      by_cases hii : i.id = inst.id
      · have hp := parentBlockOf_of_blockInsts f bb2 inst hmem hnd
        rw [hii, hp]
        exact updateForUse_block_not_dead f defBlock lv inst.id bb2 false
      · rw [updateForUse_interesting_other f defBlock lv inst.id bb2 false
          i.id hii] at hint
        have hold := hinv i hi hint
        intro hdead
        have hmono := updateForUse_blockLiveness_mono f defBlock lv inst.id
          bb2 false (parentBlockOf f i.id)
        rw [hdead] at hmono
        have hz : blRank (lv.blockLiveness (parentBlockOf f i.id)) = 0 :=
          Nat.le_zero.mp (by simpa [blRank] using hmono)
        cases hb2 : lv.blockLiveness (parentBlockOf f i.id) with
        | dead => exact hold hb2
        | liveWithin => rw [hb2] at hz; simp [blRank] at hz
        | liveOut => rw [hb2] at hz; simp [blRank] at hz

/-- A changed extension iteration strictly decreases the number of
instructions not yet recorded as users. -/
theorem extendLivenessIter_measure (host : Host) (f : IRFunction)
    (defBlock : Nat) (destroys consumingBlocks : List Nat)
    (lv : PrunedLivenessState)
    (hnd : ((allInsts f).map Inst.id).Nodup)
    (hinv : UsersLiveInv f lv)
    (h : (extendLivenessIter host f defBlock destroys consumingBlocks lv).2
        = true) :
    nonUserCount f
        (extendLivenessIter host f defBlock destroys consumingBlocks lv).1
      < nonUserCount f lv := by
  obtain ⟨inst, bb, hmem, hnu, hupd, hnew⟩ :=
    extendLivenessIter_changed host f defBlock destroys consumingBlocks lv
      hnd hinv h
  unfold nonUserCount
  refine filter_length_lt_of_imp
    (fun i => lv.interesting i.id == InterestingKind.nonUser)
    (fun i =>
      (extendLivenessIter host f defBlock destroys consumingBlocks
        lv).1.interesting i.id == InterestingKind.nonUser)
    (allInsts f) ?_ inst (blockInsts_subset_allInsts f bb inst hmem)
    (by simp [hnu]) (by simp [hnew])
  intro a _ hq
  rw [beq_iff_eq] at hq ⊢
  have hmono : ikRank (lv.interesting a.id)
      ≤ ikRank ((extendLivenessIter host f defBlock destroys consumingBlocks
        lv).1.interesting a.id) := by
    rw [hupd]
    exact updateForUse_interesting_mono f defBlock lv inst.id bb false a.id
  rw [hq] at hmono
  have hz : ikRank (lv.interesting a.id) = 0 :=
    Nat.le_zero.mp (by simpa [ikRank] using hmono)
  cases ha : lv.interesting a.id with
  | nonUser => rfl
  | nonLifetimeEndingUse => rw [ha] at hz; simp [ikRank] at hz
  | lifetimeEndingUse => rw [ha] at hz; simp [ikRank] at hz

/-- With fuel exceeding the measure, the fueled outer loop reaches a state
with no further change. -/
theorem extendLivenessLoop_fix (host : Host) (f : IRFunction)
    (defBlock : Nat) (destroys consumingBlocks : List Nat)
    (hnd : ((allInsts f).map Inst.id).Nodup) :
    ∀ fuel lv, UsersLiveInv f lv → nonUserCount f lv < fuel →
      (extendLivenessIter host f defBlock destroys consumingBlocks
        (extendLivenessLoop host f defBlock destroys consumingBlocks fuel
          lv)).2 = false := by
  intro fuel
  induction fuel with
  | zero => intro lv _ hm; exact absurd hm (Nat.not_lt_zero _)
  | succ n ih =>
      intro lv hinv hm
      rcases hiter : extendLivenessIter host f defBlock destroys
        consumingBlocks lv with ⟨lv2, ch⟩
      cases ch with
      | true =>
          have hlt : nonUserCount f lv2 < nonUserCount f lv := by
            have h2 := extendLivenessIter_measure host f defBlock destroys
              consumingBlocks lv hnd hinv (by rw [hiter])
            rwa [hiter] at h2
          have hinv2 : UsersLiveInv f lv2 := by
            have h2 := extendLivenessIter_inv host f defBlock destroys
              consumingBlocks lv hnd hinv
            rwa [hiter] at h2
          simp only [extendLivenessLoop, hiter]
          exact ih lv2 hinv2 (Nat.lt_of_lt_of_le hlt (Nat.lt_succ_iff.mp hm))
      | false =>
          simp only [extendLivenessLoop, hiter]

/-- C6: the iterative access-scope extension loop terminates on every
input: pruned liveness only grows across an iteration (block liveness and
interesting-user labels are monotone), every iteration that reports a
change records at least one instruction as a new non-lifetime-ending user
that was not previously a user, and therefore the loop run by
`extendLivenessThroughOverlappingAccess` — whose fuel exceeds the number of
instructions — reaches a state in which no iteration changes anything. -/
theorem extendLiveness_terminates (host : Host) (f : IRFunction)
    (defBlock : Nat) (destroys consumingBlocks : List Nat)
    (lv : PrunedLivenessState)
    (hnd : ((allInsts f).map Inst.id).Nodup)
    (hinv : UsersLiveInv f lv) :
    (∀ x, blRank (lv.blockLiveness x) ≤ blRank
        ((extendLivenessIter host f defBlock destroys consumingBlocks
          lv).1.blockLiveness x))
    ∧ (∀ j, ikRank (lv.interesting j) ≤ ikRank
        ((extendLivenessIter host f defBlock destroys consumingBlocks
          lv).1.interesting j))
    ∧ ((extendLivenessIter host f defBlock destroys consumingBlocks lv).2
          = true →
        ∃ inst bb, inst ∈ blockInsts f bb
          ∧ lv.interesting inst.id = InterestingKind.nonUser
          ∧ (extendLivenessIter host f defBlock destroys consumingBlocks
              lv).1.interesting inst.id
              = InterestingKind.nonLifetimeEndingUse)
    ∧ (extendLivenessIter host f defBlock destroys consumingBlocks
        (extendLivenessThroughOverlappingAccess host f defBlock destroys
          consumingBlocks lv)).2 = false := by
  refine ⟨?_, ?_, ?_, ?_⟩
  · intro x
    unfold extendLivenessIter
    cases hfs : (blocksToVisitList lv f consumingBlocks).findSome? (fun bb =>
        (extendScanBlock host f lv defBlock destroys consumingBlocks
          (blocksToVisitList lv f consumingBlocks) bb).map (fun i => (i, bb)))
      with
    | none => exact Nat.le_refl _
    | some p =>
        obtain ⟨inst, bb⟩ := p
        exact updateForUse_blockLiveness_mono f defBlock lv inst.id bb false x
  · intro j
    unfold extendLivenessIter
    cases hfs : (blocksToVisitList lv f consumingBlocks).findSome? (fun bb =>
        (extendScanBlock host f lv defBlock destroys consumingBlocks
          (blocksToVisitList lv f consumingBlocks) bb).map (fun i => (i, bb)))
      with
    | none => exact Nat.le_refl _
    | some p =>
        obtain ⟨inst, bb⟩ := p
        exact updateForUse_interesting_mono f defBlock lv inst.id bb false j
  · intro h
    obtain ⟨inst, bb, h1, h2, _, h4⟩ := extendLivenessIter_changed host f
      defBlock destroys consumingBlocks lv hnd hinv h
    exact ⟨inst, bb, h1, h2, h4⟩
  · unfold extendLivenessThroughOverlappingAccess
    refine extendLivenessLoop_fix host f defBlock destroys consumingBlocks
      hnd _ lv hinv ?_
    exact Nat.lt_succ_of_le (List.length_filter_le _ _)

/-- Witness for C6 at a concrete input: a one-block one-instruction
function with everything dead; the extension loop reaches its fixpoint. -/
theorem extendLiveness_terminates_witness :
    (extendLivenessIter cexHost ⟨[⟨0, [⟨1, .other, []⟩], []⟩]⟩ 0 [] [0]
      (extendLivenessThroughOverlappingAccess cexHost
        ⟨[⟨0, [⟨1, .other, []⟩], []⟩]⟩ 0 [] [0]
        ⟨fun _ => BlockLiveness.dead, fun _ => InterestingKind.nonUser⟩)).2
      = false :=
  (extendLiveness_terminates cexHost ⟨[⟨0, [⟨1, .other, []⟩], []⟩]⟩ 0 [] [0]
    ⟨fun _ => BlockLiveness.dead, fun _ => InterestingKind.nonUser⟩
    (by decide)
    (fun i _ hint => absurd rfl hint)).2.2.2

/-- The per-use liveness dispatch returns failure only at the two
bail-outs: a `PointerEscape` or `ForwardingUnowned` operand, or a `Borrow`
operand whose scope extension fails. -/
theorem visitLivenessUse_none_bail (f : IRFunction) (defInfo : ValueInfo)
    (pdm : Bool) (st : LivenessState) (user : Inst) (ub oi : Nat)
    (op : Operand)
    (h : visitLivenessUse f defInfo pdm st user ub oi op = none) :
    bailOperand op := by
  obtain ⟨ov, oo, ob⟩ := op
  unfold visitLivenessUse at h
  split at h
  · simp at h
  · split at h
    · split at h <;> simp at h
    · cases oo with
      | pointerEscape => exact Or.inl rfl
      | forwardingUnowned => exact Or.inr (Or.inl rfl)
      | borrow =>
          cases ob with
          | none => exact Or.inr (Or.inr ⟨rfl, rfl⟩)
          | some ends => dsimp only at h; simp at h
      | nonUse => dsimp only at h; simp at h
      | trivialUse => dsimp only at h; simp at h
      | instantaneousUse => dsimp only at h; simp at h
      | unownedInstantaneousUse => dsimp only at h; simp at h
      | bitwiseEscape => dsimp only at h; simp at h
      | forwardingConsume => dsimp only at h; simp at h
      | destroyingConsume => dsimp only at h; split at h <;> simp at h
      | interiorPointer => dsimp only at h; simp at h
      | forwardingBorrow => dsimp only at h; simp at h
      | endBorrow => dsimp only at h; simp at h
      | reborrow =>
          dsimp only at h
          cases hk : user.kind with
          | branchInst ts =>
              rw [hk] at h
              dsimp only at h
              split at h
              · simp at h
              · cases hg : ts.get? oi with
                | some t => rw [hg] at h; simp at h
                | none => rw [hg] at h; simp at h
          | copyValue => rw [hk] at h; simp at h
          | destroyValue => rw [hk] at h; simp at h
          | debugValue => rw [hk] at h; simp at h
          | beginAccess => rw [hk] at h; simp at h
          | endAccess b => rw [hk] at h; simp at h
          | endUnpairedAccess => rw [hk] at h; simp at h
          | otherTerm => rw [hk] at h; simp at h
          | other => rw [hk] at h; simp at h

/-- A failed use-visiting fold exhibits a bail operand among the visited
sites. -/
theorem visitLivenessUses_none (f : IRFunction) (defInfo : ValueInfo)
    (pdm : Bool) :
    ∀ sites st, visitLivenessUses f defInfo pdm sites st = none →
      ∃ s ∈ sites, bailOperand s.op := by
  intro sites
  induction sites with
  | nil => intro st h; simp [visitLivenessUses] at h
  | cons s rest ih =>
      intro st h
      unfold visitLivenessUses at h
      cases hv : visitLivenessUse f defInfo pdm st s.user s.userBlock s.opIdx
          s.op with
      | none =>
          exact ⟨s, by simp,
            visitLivenessUse_none_bail f defInfo pdm st s.user s.userBlock
              s.opIdx s.op hv⟩
      | some st2 =>
          rw [hv] at h
          obtain ⟨s2, hs2, hb⟩ := ih st2 h
          exact ⟨s2, by simp [hs2], hb⟩

/-- A use site really is a use: its user is an instruction of the function
and its operand is an operand of that user. -/
theorem useSites_sound (f : IRFunction) (v : Nat) :
    ∀ s ∈ useSites f v, s.user ∈ allInsts f ∧ s.op ∈ s.user.operands := by
  intro s hs
  unfold useSites at hs
  simp only [List.mem_flatMap, List.mem_filterMap, List.mem_range] at hs
  obtain ⟨b, hb, i, hi, k, hk, hmk⟩ := hs
  cases hg : i.operands.get? k with
  | none => rw [hg] at hmk; simp at hmk
  | some o =>
      rw [hg] at hmk
      dsimp only at hmk
      split at hmk
      · injection hmk with hmk
        subst hmk
        refine ⟨?_, ?_⟩
        · unfold allInsts
          simp only [List.mem_flatten, List.mem_map]
          exact ⟨b.insts, ⟨b, hb, rfl⟩, hi⟩
        · exact List.get?_mem hg
      · simp at hmk

/-- A bailed phase-1 loop exhibits a bail operand among the function's
instructions. -/
theorem livenessLoop_bailed (host : Host) (f : IRFunction)
    (defInfo : ValueInfo) (pdm : Bool) :
    ∀ fuel st, livenessLoop host f defInfo pdm fuel st = LoopResult.bailed →
      ∃ i ∈ allInsts f, ∃ op ∈ i.operands, bailOperand op := by
  intro fuel
  induction fuel with
  | zero => intro st h; simp [livenessLoop] at h
  | succ n ih =>
      intro st h
      simp only [livenessLoop] at h
      cases hw : st.defUseWorklist with
      | nil => rw [hw] at h; simp at h
      | cons v rest =>
          rw [hw] at h
          dsimp only at h
          cases hv : visitLivenessUses f defInfo pdm (useSites f v)
              ((host.adjacentReborrows v).foldl LivenessState.insertValue
                { st with defUseWorklist := rest }) with
          | none =>
              obtain ⟨s, hs, hb⟩ := visitLivenessUses_none f defInfo pdm _ _ hv
              obtain ⟨hu, hop⟩ := useSites_sound f v s hs
              exact ⟨s.user, hu, s.op, hop, hb⟩
          | some st3 =>
              rw [hv] at h
              exact ih st3 h

/-- A duplicate-free list contained in another list is no longer than it. -/
theorem nodup_subset_length {l U : List Nat} (hnd : l.Nodup)
    (hsub : ∀ x ∈ l, x ∈ U) : l.length ≤ U.length := by
  calc l.length = l.toFinset.card := (List.toFinset_card_of_nodup hnd).symm
    _ ≤ U.toFinset.card := Finset.card_le_card (fun x hx => by
        rw [List.mem_toFinset] at hx ⊢
        exact hsub x hx)
    _ ≤ U.length := U.toFinset_card_le

/-- Worklist insertion of a universe value preserves the invariant and the
measure. -/
theorem insertValue_inv_measure (U : List Nat) (st : LivenessState)
    (v : Nat) (hv : v ∈ U) (hinv : LSInv U st) :
    LSInv U (st.insertValue v)
      ∧ lsMeasure U (st.insertValue v) = lsMeasure U st := by
  unfold LivenessState.insertValue
  by_cases hc : st.seen.contains v
  · simp only [hc, if_true]
    exact ⟨hinv, trivial⟩
  · have hvn : v ∉ st.seen := by simpa using hc
    simp only [hc, Bool.false_eq_true, if_false]
    have hnd2 : (st.seen ++ [v]).Nodup := by
      rw [List.nodup_append]
      exact ⟨hinv.1, List.nodup_singleton v,
        fun x hx hx2 => hvn (by rwa [List.mem_singleton.mp hx2] at hx)⟩
    have hsub2 : ∀ x ∈ st.seen ++ [v], x ∈ U := by
      intro x hx
      rcases List.mem_append.mp hx with hx1 | hx2
      · exact hinv.2 x hx1
      · simpa using (List.mem_singleton.mp hx2) ▸ hv
    refine ⟨⟨hnd2, hsub2⟩, ?_⟩
    unfold lsMeasure
    simp only [List.length_append, List.length_singleton]
    have hle : st.seen.length + 1 ≤ U.length := by
      simpa using nodup_subset_length hnd2 hsub2
    omega

/-- Folding worklist insertions of universe values preserves the invariant
and the measure. -/
theorem foldl_insertValue_inv (U : List Nat) :
    ∀ (l : List Nat) (st : LivenessState), (∀ x ∈ l, x ∈ U) → LSInv U st →
      LSInv U (l.foldl LivenessState.insertValue st)
      ∧ lsMeasure U (l.foldl LivenessState.insertValue st)
          = lsMeasure U st := by
  intro l
  induction l with
  | nil => intro st _ hinv; exact ⟨hinv, rfl⟩
  | cons a rest ih =>
      intro st hl hinv
      have h1 := insertValue_inv_measure U st a (hl a (by simp)) hinv
      have h2 := ih (st.insertValue a)
        (fun x hx => hl x (by simp [hx])) h1.1
      simp only [List.foldl_cons]
      exact ⟨h2.1, h2.2.trans h1.2⟩

/-- Every instruction-defined value lies in the value universe. -/
theorem universe_instId (f : IRFunction) (defInfo : ValueInfo) :
    ∀ i ∈ allInsts f, i.id ∈ valueUniverse f defInfo := by
  intro i hi
  unfold valueUniverse
  refine List.mem_cons_of_mem _ (List.mem_append.mpr (Or.inl ?_))
  exact List.mem_map.mpr ⟨i, hi, rfl⟩

/-- Every branch phi target lies in the value universe. -/
theorem universe_branchTarget (f : IRFunction) (defInfo : ValueInfo) :
    ∀ i ∈ allInsts f, ∀ ts t, i.kind = InstKind.branchInst ts → t ∈ ts →
      t ∈ valueUniverse f defInfo := by
  intro i hi ts t hk ht
  unfold valueUniverse
  refine List.mem_cons_of_mem _ (List.mem_append.mpr (Or.inr ?_))
  refine List.mem_flatMap.mpr ⟨i, hi, ?_⟩
  rw [hk]
  exact ht

/-- The per-use liveness dispatch preserves the worklist invariant and the
measure: the only worklist insertions are the user (a copy or a forwarding
reborrow, whose id is in the universe) and branch phi targets. -/
theorem visitLivenessUse_inv (U : List Nat) (f : IRFunction)
    (defInfo : ValueInfo) (pdm : Bool) (st : LivenessState) (user : Inst)
    (ub oi : Nat) (op : Operand) (st2 : LivenessState)
    (hU1 : user.id ∈ U)
    (hU2 : ∀ ts t, user.kind = InstKind.branchInst ts → t ∈ ts → t ∈ U)
    (hinv : LSInv U st)
    (h : visitLivenessUse f defInfo pdm st user ub oi op = some st2) :
    LSInv U st2 ∧ lsMeasure U st2 = lsMeasure U st := by
  unfold visitLivenessUse at h
  split at h
  · cases h
    exact insertValue_inv_measure U st user.id hU1 hinv
  · split at h
    · split at h
      · cases h; exact ⟨hinv, rfl⟩
      · cases h; exact ⟨hinv, rfl⟩
    · split at h
      · cases h; exact ⟨hinv, rfl⟩
      · cases h; exact ⟨hinv, rfl⟩
      · cases h
      · cases h
      · cases h; exact ⟨hinv, rfl⟩
      · cases h; exact ⟨hinv, rfl⟩
      · cases h; exact ⟨hinv, rfl⟩
      · cases h; exact ⟨hinv, rfl⟩
      · split at h
        · cases h; exact ⟨hinv, rfl⟩
        · cases h; exact ⟨hinv, rfl⟩
      · split at h
        · cases h
        · cases h; exact ⟨hinv, rfl⟩
      · cases h; exact ⟨hinv, rfl⟩
      · cases h; exact ⟨hinv, rfl⟩
      · cases h; exact ⟨hinv, rfl⟩
      · split at h
        · rename_i ts heq
          split at h
          · cases h; exact ⟨hinv, rfl⟩
          · split at h
            · rename_i t hget
              cases h
              exact insertValue_inv_measure U _ t
                (hU2 ts t heq (List.get?_mem hget)) hinv
            · cases h; exact ⟨hinv, rfl⟩
        · cases h
          exact insertValue_inv_measure U _ user.id hU1 hinv

/-- Visiting a list of genuine use sites preserves the worklist invariant
and the measure. -/
theorem visitLivenessUses_inv (U : List Nat) (f : IRFunction)
    (defInfo : ValueInfo) (pdm : Bool) :
    ∀ sites st st2,
      (∀ s ∈ sites, s.user ∈ allInsts f) →
      (∀ i ∈ allInsts f, i.id ∈ U) →
      (∀ i ∈ allInsts f, ∀ ts t, i.kind = InstKind.branchInst ts → t ∈ ts →
        t ∈ U) →
      LSInv U st →
      visitLivenessUses f defInfo pdm sites st = some st2 →
      LSInv U st2 ∧ lsMeasure U st2 = lsMeasure U st := by
  intro sites
  induction sites with
  | nil =>
      intro st st2 _ _ _ hinv h
      cases h
      exact ⟨hinv, rfl⟩
  | cons s rest ih =>
      intro st st2 husers hUi hUb hinv h
      unfold visitLivenessUses at h
      cases hv : visitLivenessUse f defInfo pdm st s.user s.userBlock s.opIdx
          s.op with
      | none => rw [hv] at h; cases h
      | some stm =>
          rw [hv] at h
          have h1 := visitLivenessUse_inv U f defInfo pdm st s.user
            s.userBlock s.opIdx s.op stm
            (hUi s.user (husers s (by simp)))
            (fun ts t hk ht => hUb s.user (husers s (by simp)) ts t hk ht)
            hinv hv
          have h2 := ih stm st2 (fun x hx => husers x (by simp [hx])) hUi hUb
            h1.1 h
          exact ⟨h2.1, h2.2.trans h1.2⟩

/-- With fuel exceeding the measure, the phase-1 worklist loop never runs
out of fuel. -/
theorem livenessLoop_no_outOfFuel (host : Host) (f : IRFunction)
    (defInfo : ValueInfo) (pdm : Bool)
    (hadj : ∀ v r, r ∈ host.adjacentReborrows v →
      r ∈ valueUniverse f defInfo) :
    ∀ fuel st, LSInv (valueUniverse f defInfo) st →
      lsMeasure (valueUniverse f defInfo) st < fuel →
      ¬ livenessLoop host f defInfo pdm fuel st = LoopResult.outOfFuel := by
  intro fuel
  induction fuel with
  | zero => intro st _ hm; exact absurd hm (Nat.not_lt_zero _)
  | succ n ih =>
      intro st hinv hm h
      simp only [livenessLoop] at h
      cases hw : st.defUseWorklist with
      | nil => rw [hw] at h; simp at h
      | cons v rest =>
          rw [hw] at h
          dsimp only at h
          have hinv1 : LSInv (valueUniverse f defInfo)
              { st with defUseWorklist := rest } := hinv
          have hm1 : lsMeasure (valueUniverse f defInfo)
                { st with defUseWorklist := rest } + 1
              = lsMeasure (valueUniverse f defInfo) st := by
            unfold lsMeasure
            rw [hw]
            simp only [List.length_cons]
            omega
          have hfold := foldl_insertValue_inv (valueUniverse f defInfo)
            (host.adjacentReborrows v) { st with defUseWorklist := rest }
            (fun x hx => hadj v x hx) hinv1
          cases hv : visitLivenessUses f defInfo pdm (useSites f v)
              ((host.adjacentReborrows v).foldl LivenessState.insertValue
                { st with defUseWorklist := rest }) with
          | none => rw [hv] at h; simp at h
          | some st3 =>
              rw [hv] at h
              have h3 := visitLivenessUses_inv (valueUniverse f defInfo) f
                defInfo pdm (useSites f v) _ st3
                (fun s hs => (useSites_sound f v s hs).1)
                (universe_instId f defInfo) (universe_branchTarget f defInfo)
                hfold.1 hv
              refine ih st3 h3.1 ?_ h
              have hm3 := h3.2.trans hfold.2
              omega

/-- A failed phase-1 computation exhibits a bail operand among the
function's instructions, provided the host's adjacent reborrows lie in the
value universe. -/
theorem computeCanonicalLiveness_none_bail (host : Host) (f : IRFunction)
    (defInfo : ValueInfo) (pdm : Bool)
    (hadj : ∀ v r, r ∈ host.adjacentReborrows v →
      r ∈ valueUniverse f defInfo)
    (h : computeCanonicalLiveness host f defInfo pdm = none) :
    ∃ i ∈ allInsts f, ∃ op ∈ i.operands, bailOperand op := by
  unfold computeCanonicalLiveness at h
  cases hl : livenessLoop host f defInfo pdm
      ((valueUniverse f defInfo).length + 1)
      (initialLivenessState defInfo) with
  | ok st => rw [hl] at h; simp at h
  | bailed => exact livenessLoop_bailed host f defInfo pdm _ _ hl
  | outOfFuel =>
      exfalso
      refine livenessLoop_no_outOfFuel host f defInfo pdm hadj _ _ ?_ ?_ hl
      · refine ⟨List.nodup_singleton _, ?_⟩
        intro x hx
        rw [List.mem_singleton.mp hx]
        exact List.mem_cons_self _ _
      · unfold lsMeasure initialLivenessState
        have h1 : 1 ≤ (valueUniverse f defInfo).length := by
          show 1 ≤ ((defInfo.id :: ((allInsts f).map Inst.id
            ++ (allInsts f).flatMap (fun i =>
                 match i.kind with
                 | .branchInst ts => ts
                 | _ => []))) : List Nat).length
          simp only [List.length_cons]
          omega
        simp only [List.length_singleton]
        omega

/-- C2: `canonicalizeValueLifetime` returns true exactly when the def is
owned, non-lexical and phase-1 liveness computation succeeds (regardless of
what the rewrite then does); in every false-returning case the IR is
returned unchanged; and a phase-1 failure exhibits an operand classified
`PointerEscape` or `ForwardingUnowned`, or a borrow operand whose extension
fails, among the function's instructions. -/
theorem canonicalizeValueLifetime_spec (host : Host) (pdm : Bool)
    (f : IRFunction) (defInfo : ValueInfo)
    (hadj : ∀ v r, r ∈ host.adjacentReborrows v →
      r ∈ valueUniverse f defInfo) :
    ((canonicalizeValueLifetime host pdm f defInfo).1 = true
      ↔ defInfo.ownership = OwnershipKind.owned ∧ defInfo.isLexical = false
        ∧ ¬ computeCanonicalLiveness host f defInfo pdm = none)
    ∧ ((canonicalizeValueLifetime host pdm f defInfo).1 = false →
        (canonicalizeValueLifetime host pdm f defInfo).2 = f)
    ∧ (computeCanonicalLiveness host f defInfo pdm = none →
        ∃ i ∈ allInsts f, ∃ op ∈ i.operands, bailOperand op) := by
  refine ⟨?_, ?_,
    fun h => computeCanonicalLiveness_none_bail host f defInfo pdm hadj h⟩
  · unfold canonicalizeValueLifetime
    by_cases h1 : defInfo.ownership = OwnershipKind.owned
    · by_cases h2 : defInfo.isLexical
      · simp [h1, h2]
      · cases hc : computeCanonicalLiveness host f defInfo pdm with
        | none => simp [h1, h2, hc]
        | some ls => simp [h1, h2, hc]
    · simp [h1]
  · unfold canonicalizeValueLifetime
    by_cases h1 : defInfo.ownership = OwnershipKind.owned
    · by_cases h2 : defInfo.isLexical
      · intro _; simp [h1, h2]
      · cases hc : computeCanonicalLiveness host f defInfo pdm with
        | none => intro _; simp [h1, h2, hc]
        | some ls => intro hfalse; simp [h1, h2, hc] at hfalse
    · intro _; simp [h1]

/-- Witness for C2 at a concrete accepted def: an owned, non-lexical block
argument with one destroy is canonicalized to completion. -/
theorem canonicalizeValueLifetime_spec_witness :
    (canonicalizeValueLifetime cexHost false wF wDef).1 = true :=
  ((canonicalizeValueLifetime_spec cexHost false wF wDef
      (fun _ r hr => absurd hr (List.not_mem_nil r))).1).mpr
    ⟨rfl, rfl, fun h => by
      have hs : (computeCanonicalLiveness cexHost wF wDef false).isSome
          = true := rfl
      rw [h] at hs
      simp at hs⟩

/-- C3 counterexample: on `cexC3F` the def reaches phase 2 (phase 1
succeeds), block 0 is classified LiveWithin at phase-2 exit, yet the
recorded final consumes are the two destroys at the entries of blocks 1
and 2 — block 0, a LiveWithin block, holds none of them, because its
liveness boundary is a non-lifetime-ending terminator and the destroys are
claimed on the outgoing edges instead. -/
theorem findOrInsertDestroys_cex :
    (computeCanonicalLiveness cexHost cexC3F cexC3Def false).isSome = true
    ∧ cexC3LV.blockLiveness 0 = BlockLiveness.liveWithin
    ∧ cexC3Phase2.consumes.finalBlockConsumes = [(2, 4), (1, 2)]
    ∧ (cexC3Phase2.consumes.finalBlockConsumes.filter
        (fun p => p.1 == 0)).length = 0 := by
  refine ⟨by decide, by decide, by decide, by decide⟩

/-- Searching for a block commutes with an id-preserving block map. -/
theorem findBlock_map_id (f : IRFunction) (g : Block → Block)
    (hg : ∀ b, (g b).id = b.id) (x : Nat) :
    findBlock ⟨f.blocks.map g⟩ x = (findBlock f x).map g := by
  unfold findBlock
  rw [List.find?_map]
  have hpred : ((fun b : Block => b.id == x) ∘ g)
      = (fun b : Block => b.id == x) := by
    funext b
    simp [Function.comp, hg]
  rw [hpred]

/-- Inserting at the beginning of one block conses onto that block's
instruction list and leaves every other block unchanged. -/
theorem blockInsts_insertAtBlockBegin (f : IRFunction) (bb : Nat)
    (ni : Inst) (x : Nat) :
    blockInsts (insertAtBlockBegin f bb ni) x
      = if x = bb ∧ (findBlock f x).isSome then ni :: blockInsts f x
        else blockInsts f x := by
  unfold insertAtBlockBegin blockInsts
  rw [findBlock_map_id f _ (fun b => by split <;> rfl) x]
  cases hfb : findBlock f x with
  | none => simp
  | some b =>
      have hid : b.id = x := findBlock_id f x b hfb
      simp only [Option.map_some']
      by_cases hx : x = bb
      · subst hx
        simp [hid]
      · have : ¬ b.id = bb := by rw [hid]; exact hx
        simp [this, hx]

/-- Inserting before an index of one block splices into that block's
instruction list and leaves every other block unchanged. -/
theorem blockInsts_insertAtIdx (f : IRFunction) (bb idx : Nat) (ni : Inst)
    (x : Nat) :
    blockInsts (insertAtIdx f bb idx ni) x
      = if x = bb ∧ (findBlock f x).isSome then
          (blockInsts f x).take idx ++ ni :: (blockInsts f x).drop idx
        else blockInsts f x := by
  unfold insertAtIdx blockInsts
  rw [findBlock_map_id f _ (fun b => by split <;> rfl) x]
  cases hfb : findBlock f x with
  | none => simp
  | some b =>
      have hid : b.id = x := findBlock_id f x b hfb
      simp only [Option.map_some']
      by_cases hx : x = bb
      · subst hx
        simp [hid]
      · have : ¬ b.id = bb := by rw [hid]; exact hx
        simp [this, hx]

/-- Successor lists are untouched by an id- and successor-preserving block
map. -/
theorem blockSuccs_map_id (f : IRFunction) (g : Block → Block)
    (hg : ∀ b, (g b).id = b.id) (hgs : ∀ b, (g b).succs = b.succs)
    (x : Nat) :
    blockSuccs ⟨f.blocks.map g⟩ x = blockSuccs f x := by
  unfold blockSuccs
  rw [findBlock_map_id f g hg x]
  cases hfb : findBlock f x with
  | none => simp
  | some b => simp [hgs]

/-- Predecessor lists are untouched by an id- and successor-preserving
block map. -/
theorem predsOf_map_id (f : IRFunction) (g : Block → Block)
    (hg : ∀ b, (g b).id = b.id) (hgs : ∀ b, (g b).succs = b.succs)
    (x : Nat) :
    predsOf ⟨f.blocks.map g⟩ x = predsOf f x := by
  unfold predsOf
  rw [List.filter_map, List.map_map]
  have h1 : (Block.id ∘ g) = Block.id := funext hg
  have h2 : ((fun b => b.succs.contains x) ∘ g)
      = (fun b : Block => b.succs.contains x) := by
    funext b
    simp [Function.comp, hgs]
  rw [h1, h2]

/-- A just-recorded final consume is a member. -/
theorem mem_recordFinalConsume_self (c : ConsumeInfo) (b i : Nat) :
    (b, i) ∈ (c.recordFinalConsume b i).finalBlockConsumes := by
  simp [ConsumeInfo.recordFinalConsume]

/-- Recording into another block keeps an existing entry. -/
theorem mem_recordFinalConsume_other (c : ConsumeInfo) (b i b2 j : Nat)
    (hne : ¬ b = b2) (h : (b, i) ∈ c.finalBlockConsumes) :
    (b, i) ∈ (c.recordFinalConsume b2 j).finalBlockConsumes := by
  simp only [ConsumeInfo.recordFinalConsume, List.mem_cons, List.mem_filter]
  refine Or.inr ⟨h, ?_⟩
  simpa using hne

/-- A recorded entry is the new one or an old one of another block. -/
theorem mem_recordFinalConsume_elim (c : ConsumeInfo) (b i b2 j : Nat)
    (h : (b, i) ∈ (c.recordFinalConsume b2 j).finalBlockConsumes) :
    (b = b2 ∧ i = j) ∨ ((b, i) ∈ c.finalBlockConsumes ∧ ¬ b = b2) := by
  simp only [ConsumeInfo.recordFinalConsume, List.mem_cons,
    List.mem_filter] at h
  rcases h with h | ⟨h1, h2⟩
  · rcases Prod.mk.injEq .. ▸ h with ⟨rfl, rfl⟩
    exact Or.inl ⟨rfl, rfl⟩
  · refine Or.inr ⟨h1, ?_⟩
    simpa using h2

/-- Recording a debug value after the consume leaves the final consumes
unchanged. -/
theorem recordDebugAfterConsume_final (c : ConsumeInfo) (dvi : Nat) :
    (c.recordDebugAfterConsume dvi).finalBlockConsumes
      = c.finalBlockConsumes := rfl

/-- Popping a debug value leaves the final consumes unchanged. -/
theorem popDebugAfterConsume_final (c : ConsumeInfo) (dvi : Nat) :
    (c.popDebugAfterConsume dvi).finalBlockConsumes
      = c.finalBlockConsumes := rfl

/-- An edge destroy leaves the instruction lists of other blocks
unchanged. -/
theorem blockInsts_edgeDestroy_other (host : Host) (defId predBB succBB : Nat)
    (st : Phase2State) (x : Nat) (hx : ¬ x = succBB) :
    blockInsts (edgeDestroy host defId predBB succBB st).f x
      = blockInsts st.f x := by
  unfold edgeDestroy findOrInsertDestroyOnCFGEdge
  cases hfind : findDestroyOnCFGEdge host.isIncidentalUse defId
      (blockInsts st.f succBB) with
  | some di => rfl
  | none =>
      dsimp only
      rw [blockInsts_insertAtBlockBegin]
      simp [hx]

/-- An edge destroy grows the target block's instruction list and keeps
all memberships. -/
theorem blockInsts_edgeDestroy_grow (host : Host) (defId predBB succBB : Nat)
    (st : Phase2State) (x : Nat) (inst : Inst)
    (h : inst ∈ blockInsts st.f x) :
    inst ∈ blockInsts (edgeDestroy host defId predBB succBB st).f x := by
  unfold edgeDestroy findOrInsertDestroyOnCFGEdge
  cases hfind : findDestroyOnCFGEdge host.isIncidentalUse defId
      (blockInsts st.f succBB) with
  | some di => exact h
  | none =>
      dsimp only
      rw [blockInsts_insertAtBlockBegin]
      split
      · exact List.mem_cons_of_mem _ h
      · exact h

/-- An edge destroy leaves every successor list unchanged. -/
theorem blockSuccs_edgeDestroy (host : Host) (defId predBB succBB : Nat)
    (st : Phase2State) (x : Nat) :
    blockSuccs (edgeDestroy host defId predBB succBB st).f x
      = blockSuccs st.f x := by
  unfold edgeDestroy findOrInsertDestroyOnCFGEdge
  cases hfind : findDestroyOnCFGEdge host.isIncidentalUse defId
      (blockInsts st.f succBB) with
  | some di => rfl
  | none =>
      dsimp only
      exact blockSuccs_map_id st.f _ (fun b => by split <;> rfl)
        (fun b => by split <;> rfl) x

/-- An edge destroy leaves every predecessor list unchanged. -/
theorem predsOf_edgeDestroy (host : Host) (defId predBB succBB : Nat)
    (st : Phase2State) (x : Nat) :
    predsOf (edgeDestroy host defId predBB succBB st).f x
      = predsOf st.f x := by
  unfold edgeDestroy findOrInsertDestroyOnCFGEdge
  cases hfind : findDestroyOnCFGEdge host.isIncidentalUse defId
      (blockInsts st.f succBB) with
  | some di => rfl
  | none =>
      dsimp only
      exact predsOf_map_id st.f _ (fun b => by split <;> rfl)
        (fun b => by split <;> rfl) x

/-- An edge destroy preserves block existence. -/
theorem findBlock_isSome_edgeDestroy (host : Host)
    (defId predBB succBB : Nat) (st : Phase2State) (x : Nat) :
    (findBlock (edgeDestroy host defId predBB succBB st).f x).isSome
      = (findBlock st.f x).isSome := by
  unfold edgeDestroy findOrInsertDestroyOnCFGEdge
  cases hfind : findDestroyOnCFGEdge host.isIncidentalUse defId
      (blockInsts st.f succBB) with
  | some di => rfl
  | none =>
      dsimp only
      unfold insertAtBlockBegin
      rw [findBlock_map_id st.f _ (fun b => by split <;> rfl) x]
      cases findBlock st.f x <;> simp

/-- An edge destroy keeps the recorded entries of other blocks. -/
theorem entries_edgeDestroy_other (host : Host) (defId predBB succBB : Nat)
    (st : Phase2State) (b i : Nat) (hb : ¬ b = succBB)
    (h : (b, i) ∈ st.consumes.finalBlockConsumes) :
    (b, i) ∈ (edgeDestroy host defId predBB succBB
        st).consumes.finalBlockConsumes := by
  unfold edgeDestroy findOrInsertDestroyOnCFGEdge
  cases hfind : findDestroyOnCFGEdge host.isIncidentalUse defId
      (blockInsts st.f succBB) with
  | some di => exact mem_recordFinalConsume_other _ b i succBB di.id hb h
  | none =>
      dsimp only
      exact mem_recordFinalConsume_other _ b i succBB st.nextId hb h

/-- An edge destroy establishes a claimed entry destroy at the target
block. -/
theorem edgeDestroy_destroyEntry (host : Host) (defId predBB succBB : Nat)
    (st : Phase2State) (hbb : (findBlock st.f succBB).isSome = true) :
    DestroyEntryOK host.isIncidentalUse defId
      (edgeDestroy host defId predBB succBB st) succBB := by
  unfold edgeDestroy findOrInsertDestroyOnCFGEdge
  cases hfind : findDestroyOnCFGEdge host.isIncidentalUse defId
      (blockInsts st.f succBB) with
  | some di =>
      obtain ⟨pre, rest, hdec, hskip, _, hdi⟩ :=
        findDestroyOnCFGEdge_decomp_of_some host.isIncidentalUse defId
          (blockInsts st.f succBB) di hfind
      exact ⟨pre, di, rest, hdec, hskip, hdi,
        mem_recordFinalConsume_self _ succBB di.id⟩
  | none =>
      dsimp only
      refine ⟨[], mkDestroy st.nextId defId, blockInsts st.f succBB, ?_,
        by simp, by simp [mkDestroy, destroyedValue],
        mem_recordFinalConsume_self _ succBB st.nextId⟩
      rw [blockInsts_insertAtBlockBegin]
      simp [hbb]

/-- An edge destroy preserves claimed entry destroys everywhere. -/
theorem edgeDestroy_preserves_destroyEntry (host : Host)
    (defId predBB succBB : Nat) (st : Phase2State) (x : Nat)
    (h : DestroyEntryOK host.isIncidentalUse defId st x) :
    DestroyEntryOK host.isIncidentalUse defId
      (edgeDestroy host defId predBB succBB st) x := by
  by_cases hx : x = succBB
  · subst hx
    obtain ⟨pre, di, rest, hdec, _, _, _⟩ := h
    have hne : blockInsts st.f x ≠ [] := by rw [hdec]; simp
    have hsome : (findBlock st.f x).isSome = true := by
      unfold blockInsts at hne
      cases hfb : findBlock st.f x with
      | none => rw [hfb] at hne; simp at hne
      | some b => simp
    exact edgeDestroy_destroyEntry host defId predBB x st hsome
  · obtain ⟨pre, di, rest, hdec, hskip, hdi, hmem⟩ := h
    refine ⟨pre, di, rest, ?_, hskip, hdi, ?_⟩
    · rw [blockInsts_edgeDestroy_other host defId predBB succBB st x hx]
      exact hdec
    · exact entries_edgeDestroy_other host defId predBB succBB st x di.id hx
        hmem

/-- An edge destroy into an existing block keeps the entry map sound. -/
theorem edgeDestroy_entriesOK (host : Host) (defId predBB succBB : Nat)
    (st : Phase2State) (hbb : (findBlock st.f succBB).isSome = true)
    (h : EntriesOK st) :
    EntriesOK (edgeDestroy host defId predBB succBB st) := by
  intro p hp
  unfold edgeDestroy findOrInsertDestroyOnCFGEdge at hp ⊢
  cases hfind : findDestroyOnCFGEdge host.isIncidentalUse defId
      (blockInsts st.f succBB) with
  | some di =>
      rw [hfind] at hp
      dsimp only at hp ⊢
      rcases mem_recordFinalConsume_elim _ p.1 p.2 succBB di.id hp with
        ⟨hb, hi⟩ | ⟨hmem, _⟩
      · obtain ⟨pre, rest, hdec, _, _, _⟩ :=
          findDestroyOnCFGEdge_decomp_of_some host.isIncidentalUse defId
            (blockInsts st.f succBB) di hfind
        refine ⟨di, ?_, hi.symm⟩
        rw [hb, hdec]
        simp
      · exact h p hmem
  | none =>
      rw [hfind] at hp
      dsimp only at hp ⊢
      rcases mem_recordFinalConsume_elim _ p.1 p.2 succBB st.nextId hp with
        ⟨hb, hi⟩ | ⟨hmem, hbne⟩
      · refine ⟨mkDestroy st.nextId defId, ?_, hi.symm⟩
        rw [hb, blockInsts_insertAtBlockBegin]
        simp [hbb]
      · obtain ⟨inst, hmem2, hid⟩ := h p hmem
        refine ⟨inst, ?_, hid⟩
        rw [blockInsts_insertAtBlockBegin]
        split
        · exact List.mem_cons_of_mem _ hmem2
        · exact hmem2

/-- An edge destroy keeps an entry present for every block that had one. -/
theorem edgeDestroy_entry_exists (host : Host) (defId predBB succBB : Nat)
    (st : Phase2State) (b : Nat)
    (h : ∃ i, (b, i) ∈ st.consumes.finalBlockConsumes) :
    ∃ i, (b, i) ∈ (edgeDestroy host defId predBB succBB
        st).consumes.finalBlockConsumes := by
  by_cases hb : b = succBB
  · subst hb
    unfold edgeDestroy findOrInsertDestroyOnCFGEdge
    cases hfind : findDestroyOnCFGEdge host.isIncidentalUse defId
        (blockInsts st.f b) with
    | some di => exact ⟨di.id, mem_recordFinalConsume_self _ b di.id⟩
    | none =>
        dsimp only
        exact ⟨st.nextId, mem_recordFinalConsume_self _ b st.nextId⟩
  · obtain ⟨i, hi⟩ := h
    exact ⟨i, entries_edgeDestroy_other host defId predBB succBB st b i hb hi⟩

/-- Folding edge destroys over a successor list establishes a claimed
entry destroy at every listed block and preserves the rest of the state's
phase-2 facts. -/
theorem fold_edgeDestroy_spec (host : Host) (defId bb : Nat) :
    ∀ (l : List Nat) (st : Phase2State),
      (∀ s ∈ l, (findBlock st.f s).isSome = true) →
      ((EntriesOK st → EntriesOK
          (l.foldl (fun s succ => edgeDestroy host defId bb succ s) st))
      ∧ (∀ x ∈ l, DestroyEntryOK host.isIncidentalUse defId
          (l.foldl (fun s succ => edgeDestroy host defId bb succ s) st) x)
      ∧ (∀ x, DestroyEntryOK host.isIncidentalUse defId st x →
          DestroyEntryOK host.isIncidentalUse defId
            (l.foldl (fun s succ => edgeDestroy host defId bb succ s) st) x)
      ∧ (∀ x, ¬ x ∈ l →
          blockInsts (l.foldl (fun s succ => edgeDestroy host defId bb succ
            s) st).f x = blockInsts st.f x)
      ∧ (∀ x inst, inst ∈ blockInsts st.f x →
          inst ∈ blockInsts (l.foldl (fun s succ => edgeDestroy host defId
            bb succ s) st).f x)
      ∧ (∀ b i, ¬ b ∈ l → (b, i) ∈ st.consumes.finalBlockConsumes →
          (b, i) ∈ (l.foldl (fun s succ => edgeDestroy host defId bb succ
            s) st).consumes.finalBlockConsumes)
      ∧ (∀ b, (∃ i, (b, i) ∈ st.consumes.finalBlockConsumes) →
          ∃ i, (b, i) ∈ (l.foldl (fun s succ => edgeDestroy host defId bb
            succ s) st).consumes.finalBlockConsumes)
      ∧ (∀ x, blockSuccs (l.foldl (fun s succ => edgeDestroy host defId bb
          succ s) st).f x = blockSuccs st.f x)
      ∧ (∀ x, predsOf (l.foldl (fun s succ => edgeDestroy host defId bb
          succ s) st).f x = predsOf st.f x)
      ∧ (∀ x, (findBlock (l.foldl (fun s succ => edgeDestroy host defId bb
          succ s) st).f x).isSome = (findBlock st.f x).isSome)) := by
  intro l
  induction l with
  | nil =>
      intro st _
      refine ⟨fun h => h, by simp, fun x h => h, fun x _ => rfl,
        fun x inst h => h, fun b i _ h => h, fun b h => h, fun x => rfl,
        fun x => rfl, fun x => rfl⟩
  | cons s rest ih =>
      intro st hsome
      have hs : (findBlock st.f s).isSome = true := hsome s (by simp)
      have hsome2 : ∀ x ∈ rest,
          (findBlock (edgeDestroy host defId bb s st).f x).isSome = true := by
        intro x hx
        rw [findBlock_isSome_edgeDestroy]
        exact hsome x (by simp [hx])
      obtain ⟨ih1, ih2, ih3, ih4, ih5, ih6, ih7, ih8, ih9, ih10⟩ :=
        ih (edgeDestroy host defId bb s st) hsome2
      simp only [List.foldl_cons]
      refine ⟨?_, ?_, ?_, ?_, ?_, ?_, ?_, ?_, ?_, ?_⟩
      · intro h
        exact ih1 (edgeDestroy_entriesOK host defId bb s st hs h)
      · intro x hx
        rcases List.mem_cons.mp hx with rfl | hxr
        · exact ih3 x (edgeDestroy_destroyEntry host defId bb x st hs)
        · exact ih2 x hxr
      · intro x h
        exact ih3 x (edgeDestroy_preserves_destroyEntry host defId bb s st
          x h)
      · intro x hx
        rw [ih4 x (fun hxr => hx (by simp [hxr]))]
        exact blockInsts_edgeDestroy_other host defId bb s st x
          (fun he => hx (by simp [he]))
      · intro x inst h
        exact ih5 x inst (blockInsts_edgeDestroy_grow host defId bb s st x
          inst h)
      · intro b i hb h
        refine ih6 b i (fun hbr => hb (by simp [hbr])) ?_
        exact entries_edgeDestroy_other host defId bb s st b i
          (fun he => hb (by simp [he])) h
      · intro b h
        exact ih7 b (edgeDestroy_entry_exists host defId bb s st b h)
      · intro x
        rw [ih8 x]
        exact blockSuccs_edgeDestroy host defId bb s st x
      · intro x
        rw [ih9 x]
        exact predsOf_edgeDestroy host defId bb s st x
      · intro x
        rw [ih10 x]
        exact findBlock_isSome_edgeDestroy host defId bb s st x

/-- Popping passed-over debug values never touches the final consumes. -/
theorem foldPopDebug_final (l : List Inst) :
    ∀ c : ConsumeInfo,
      (l.foldl (fun c i =>
        if i.kind = InstKind.debugValue then c.popDebugAfterConsume i.id
        else c) c).finalBlockConsumes = c.finalBlockConsumes := by
  induction l with
  | nil => intro c; rfl
  | cons a rest ih =>
      intro c
      simp only [List.foldl_cons]
      rw [ih]
      split <;> rfl

/-- Placing a final destroy inside a block records an entry for that block,
keeps the entry map sound, and leaves other blocks and their facts
untouched. -/
theorem insertDestroyAtInst_spec (defId bb idx : Nat)
    (existing : Option Inst) (st : Phase2State)
    (hex : ∀ e, existing = some e → e ∈ blockInsts st.f bb)
    (hbb : (findBlock st.f bb).isSome = true) :
    ((∃ i, (bb, i) ∈ (insertDestroyAtInst defId bb idx existing
        st).consumes.finalBlockConsumes)
    ∧ (EntriesOK st → EntriesOK (insertDestroyAtInst defId bb idx existing
        st))
    ∧ (∀ x, ¬ x = bb → blockInsts (insertDestroyAtInst defId bb idx
        existing st).f x = blockInsts st.f x)
    ∧ (∀ x inst, inst ∈ blockInsts st.f x →
        inst ∈ blockInsts (insertDestroyAtInst defId bb idx existing
          st).f x)
    ∧ (∀ b i, ¬ b = bb → (b, i) ∈ st.consumes.finalBlockConsumes →
        (b, i) ∈ (insertDestroyAtInst defId bb idx existing
          st).consumes.finalBlockConsumes)
    ∧ (∀ b, (∃ i, (b, i) ∈ st.consumes.finalBlockConsumes) →
        ∃ i, (b, i) ∈ (insertDestroyAtInst defId bb idx existing
          st).consumes.finalBlockConsumes)
    ∧ (∀ x, ¬ x = bb → DestroyEntryOK isInc defId2 st x →
        DestroyEntryOK isInc defId2 (insertDestroyAtInst defId bb idx
          existing st) x)
    ∧ (∀ x, blockSuccs (insertDestroyAtInst defId bb idx existing st).f x
        = blockSuccs st.f x)
    ∧ (∀ x, predsOf (insertDestroyAtInst defId bb idx existing st).f x
        = predsOf st.f x)
    ∧ (∀ x, (findBlock (insertDestroyAtInst defId bb idx existing
        st).f x).isSome = (findBlock st.f x).isSome)) := by
  cases existing with
  | some ed =>
      have hed : ed ∈ blockInsts st.f bb := hex ed rfl
      unfold insertDestroyAtInst
      dsimp only
      have hfold : ∀ ll : List Inst,
          (List.foldl (fun c i =>
            if i.kind = InstKind.debugValue then c.popDebugAfterConsume i.id
            else c) st.consumes ll).finalBlockConsumes
            = st.consumes.finalBlockConsumes :=
        fun ll => foldPopDebug_final ll st.consumes
      refine ⟨⟨ed.id, mem_recordFinalConsume_self _ bb ed.id⟩, ?_,
        fun x _ => rfl, fun x inst h => h, ?_, ?_, ?_, fun x => rfl,
        fun x => rfl, fun x => rfl⟩
      · intro h p hp
        rcases mem_recordFinalConsume_elim _ p.1 p.2 bb ed.id hp with
          ⟨hb, hi⟩ | ⟨hmem, _⟩
        · exact ⟨ed, hb ▸ hed, hi.symm⟩
        · rw [hfold] at hmem
          exact h p hmem
      · intro b i hb h
        refine mem_recordFinalConsume_other _ b i bb ed.id hb ?_
        rw [hfold]
        exact h
      · intro b h
        by_cases hb : b = bb
        · subst hb
          exact ⟨ed.id, mem_recordFinalConsume_self _ b ed.id⟩
        · obtain ⟨i, hi⟩ := h
          refine ⟨i, mem_recordFinalConsume_other _ b i bb ed.id hb ?_⟩
          rw [hfold]
          exact hi
      · intro x hx h
        obtain ⟨pre, di, rest, hdec, hskip, hdi, hmem⟩ := h
        refine ⟨pre, di, rest, hdec, hskip, hdi, ?_⟩
        refine mem_recordFinalConsume_other _ x di.id bb ed.id hx ?_
        rw [hfold]
        exact hmem
  | none =>
      unfold insertDestroyAtInst
      dsimp only
      refine ⟨⟨st.nextId, mem_recordFinalConsume_self _ bb st.nextId⟩, ?_,
        ?_, ?_, ?_, ?_, ?_, ?_, ?_, ?_⟩
      · intro h p hp
        rcases mem_recordFinalConsume_elim _ p.1 p.2 bb st.nextId hp with
          ⟨hb, hi⟩ | ⟨hmem, _⟩
        · refine ⟨mkDestroy st.nextId defId, ?_, hi.symm⟩
          rw [hb, blockInsts_insertAtIdx]
          simp [hbb]
        · obtain ⟨inst, hm, hid⟩ := h p hmem
          refine ⟨inst, ?_, hid⟩
          rw [blockInsts_insertAtIdx]
          split
          · rename_i hcond
            rw [← List.take_append_drop idx (blockInsts st.f p.1),
              hcond.1] at hm
            rcases List.mem_append.mp (hcond.1 ▸ hm) with h1 | h2
            · exact List.mem_append.mpr (Or.inl h1)
            · exact List.mem_append.mpr (Or.inr (List.mem_cons_of_mem _ h2))
          · exact hm
      · intro x hx
        rw [blockInsts_insertAtIdx]
        simp [hx]
      · intro x inst h
        rw [blockInsts_insertAtIdx]
        split
        · rw [← List.take_append_drop idx (blockInsts st.f x)] at h
          rcases List.mem_append.mp h with h1 | h2
          · exact List.mem_append.mpr (Or.inl h1)
          · exact List.mem_append.mpr (Or.inr (List.mem_cons_of_mem _ h2))
        · exact h
      · intro b i hb h
        exact mem_recordFinalConsume_other _ b i bb st.nextId hb h
      · intro b h
        by_cases hb : b = bb
        · subst hb
          exact ⟨st.nextId, mem_recordFinalConsume_self _ b st.nextId⟩
        · obtain ⟨i, hi⟩ := h
          exact ⟨i, mem_recordFinalConsume_other _ b i bb st.nextId hb hi⟩
      · intro x hx h
        obtain ⟨pre, di, rest, hdec, hskip, hdi, hmem⟩ := h
        refine ⟨pre, di, rest, ?_, hskip, hdi, ?_⟩
        · rw [blockInsts_insertAtIdx]
          simp [hx, hdec]
        · exact mem_recordFinalConsume_other _ x di.id bb st.nextId hx hmem
      · intro x
        unfold insertAtIdx
        exact blockSuccs_map_id st.f _ (fun b => by split <;> rfl)
          (fun b => by split <;> rfl) x
      · intro x
        unfold insertAtIdx
        exact predsOf_map_id st.f _ (fun b => by split <;> rfl)
          (fun b => by split <;> rfl) x
      · intro x
        unfold insertAtIdx
        rw [findBlock_map_id st.f _ (fun b => by split <;> rfl) x]
        cases findBlock st.f x <;> simp

/-- Recording a final consume keeps the per-block keys distinct. -/
theorem keysOK_recordFinalConsume (c : ConsumeInfo) (b i : Nat)
    (h : KeysOK c) : KeysOK (c.recordFinalConsume b i) := by
  unfold KeysOK ConsumeInfo.recordFinalConsume at *
  simp only [List.map_cons]
  rw [List.nodup_cons]
  constructor
  · intro hmem
    obtain ⟨p, hp, hpb⟩ := List.mem_map.mp hmem
    have hf := List.of_mem_filter hp
    simp [hpb] at hf
  · exact List.Nodup.sublist
      (List.Sublist.map Prod.fst (List.filter_sublist _)) h

/-- Placing a final destroy inside a block keeps the keys distinct. -/
theorem keysOK_insertDestroyAtInst (defId bb idx : Nat)
    (existing : Option Inst) (st : Phase2State) (h : KeysOK st.consumes) :
    KeysOK (insertDestroyAtInst defId bb idx existing st).consumes := by
  unfold insertDestroyAtInst
  cases existing with
  | some ed =>
      dsimp only
      apply keysOK_recordFinalConsume
      unfold KeysOK
      rw [foldPopDebug_final]
      exact h
  | none =>
      dsimp only
      exact keysOK_recordFinalConsume _ bb st.nextId h

/-- An edge destroy keeps the keys distinct. -/
theorem keysOK_edgeDestroy (host : Host) (defId predBB succBB : Nat)
    (st : Phase2State) (h : KeysOK st.consumes) :
    KeysOK (edgeDestroy host defId predBB succBB st).consumes := by
  unfold edgeDestroy findOrInsertDestroyOnCFGEdge
  cases hfind : findDestroyOnCFGEdge host.isIncidentalUse defId
      (blockInsts st.f succBB) with
  | some di => exact keysOK_recordFinalConsume _ succBB di.id h
  | none =>
      dsimp only
      exact keysOK_recordFinalConsume _ succBB st.nextId h

/-- A fold of edge destroys keeps the keys distinct. -/
theorem keysOK_fold_edgeDestroy (host : Host) (defId bb : Nat) :
    ∀ (l : List Nat) (st : Phase2State), KeysOK st.consumes →
      KeysOK ((l.foldl (fun s succ => edgeDestroy host defId bb succ s)
        st)).consumes := by
  intro l
  induction l with
  | nil => intro st h; exact h
  | cons s rest ih =>
      intro st h
      simp only [List.foldl_cons]
      exact ih _ (keysOK_edgeDestroy host defId bb s st h)

/-- Entry soundness only depends on the function and the recorded
consumes. -/
theorem entriesOK_congr {st st' : Phase2State} (hf : st'.f = st.f)
    (hc : st'.consumes.finalBlockConsumes
      = st.consumes.finalBlockConsumes) (h : EntriesOK st) :
    EntriesOK st' := by
  intro p hp
  rw [hc] at hp
  obtain ⟨i, hi, hd⟩ := h p hp
  exact ⟨i, by rw [hf]; exact hi, hd⟩

/-- An entry destroy only depends on the function and the recorded
consumes. -/
theorem destroyEntryOK_congr (isInc : Inst → Bool) (defId : Nat)
    {st st' : Phase2State} (hf : st'.f = st.f)
    (hc : st'.consumes.finalBlockConsumes
      = st.consumes.finalBlockConsumes) (x : Nat)
    (h : DestroyEntryOK isInc defId st x) :
    DestroyEntryOK isInc defId st' x := by
  obtain ⟨pre, di, rest, hdec, hskip, hdi, hmem⟩ := h
  exact ⟨pre, di, rest, by rw [hf]; exact hdec, hskip, hdi,
    by rw [hc]; exact hmem⟩

/-- With distinct keys, a recorded entry is the only one of its block. -/
theorem consumeCount_eq_one (st : Phase2State) (bb i : Nat)
    (hK : KeysOK st.consumes)
    (hm : (bb, i) ∈ st.consumes.finalBlockConsumes) :
    consumeCount st bb = 1 := by
  unfold consumeCount
  unfold KeysOK at hK
  have h1 : bb ∈ st.consumes.finalBlockConsumes.map Prod.fst :=
    List.mem_map.mpr ⟨(bb, i), hm, rfl⟩
  have hle := List.nodup_iff_count_le_one.mp hK bb
  have hge : 0 < (st.consumes.finalBlockConsumes.map Prod.fst).count bb :=
    List.count_pos_iff.mpr h1
  omega

/-- A block found by id is one of the function's block ids. -/
theorem findBlock_isSome_mem_ids (f : IRFunction) (x : Nat)
    (h : (findBlock f x).isSome = true) : x ∈ f.blocks.map Block.id := by
  unfold findBlock at h
  obtain ⟨b, hb⟩ := Option.isSome_iff_exists.mp h
  have hmem := List.mem_of_find?_eq_some hb
  have hid := List.find?_some hb
  exact List.mem_map.mpr ⟨b, hmem, by simpa using hid⟩

/-- Every predecessor id names an existing block. -/
theorem mem_predsOf_findBlock_isSome (f : IRFunction) (bb p : Nat)
    (hp : p ∈ predsOf f bb) : (findBlock f p).isSome = true := by
  unfold predsOf at hp
  obtain ⟨b, hb, hid⟩ := List.mem_map.mp hp
  have hbm := List.mem_of_mem_filter hb
  unfold findBlock
  rw [List.find?_isSome]
  exact ⟨b, hbm, by rw [hid]; simp⟩

/-- A step that keeps the function and the recorded consumes satisfies the
frame. -/
theorem scanPost_of_congr (host : Host) (defId bb : Nat)
    {st st2 : Phase2State} (hf : st2.f = st.f)
    (hc : st2.consumes.finalBlockConsumes
      = st.consumes.finalBlockConsumes) :
    ScanPost host defId bb st st2 := by
  refine ⟨entriesOK_congr hf hc, ?_, ?_, ?_, ?_, ?_, ?_, ?_⟩
  · intro x inst h
    rw [hf]
    exact h
  · intro b h
    rw [hc]
    exact h
  · intro x _ h
    exact destroyEntryOK_congr _ _ hf hc x h
  · intro x
    rw [hf]
  · intro x
    rw [hf]
  · intro x
    rw [hf]
  · intro hk
    unfold KeysOK at *
    rw [hc]
    exact hk

/-- The frame composes. -/
theorem scanPost_trans (host : Host) (defId bb : Nat)
    {s1 s2 s3 : Phase2State} (h12 : ScanPost host defId bb s1 s2)
    (h23 : ScanPost host defId bb s2 s3) : ScanPost host defId bb s1 s3 := by
  obtain ⟨a1, a2, a3, a4, a5, a6, a7, a8⟩ := h12
  obtain ⟨b1, b2, b3, b4, b5, b6, b7, b8⟩ := h23
  exact ⟨fun h => b1 (a1 h), fun x i h => b2 x i (a2 x i h),
    fun b h => b3 b (a3 b h), fun x hx h => b4 x hx (a4 x hx h),
    fun x => (b5 x).trans (a5 x), fun x => (b6 x).trans (a6 x),
    fun x => (b7 x).trans (a7 x), fun h => b8 (a8 h)⟩

/-- An intra-block destroy placement satisfies the frame and records an
entry for its block. -/
theorem scanPost_insertDestroyAtInst (host : Host) (defId bb idx : Nat)
    (existing : Option Inst) (st : Phase2State)
    (hex : ∀ e, existing = some e → e ∈ blockInsts st.f bb)
    (hbb : (findBlock st.f bb).isSome = true) :
    ScanPost host defId bb st (insertDestroyAtInst defId bb idx existing st)
    ∧ ∃ i, (bb, i) ∈ (insertDestroyAtInst defId bb idx existing
        st).consumes.finalBlockConsumes := by
  obtain ⟨h1, h2, h3, h4, h5, h6, h7, h8, h9, h10⟩ :=
    insertDestroyAtInst_spec defId bb idx existing st hex hbb
  exact ⟨⟨h2, h4, h6, h7, h8, h9, h10,
    fun hk => keysOK_insertDestroyAtInst defId bb idx existing st hk⟩, h1⟩

/-- A fold of edge destroys over the successors satisfies the frame and
establishes an entry destroy at every one of them. -/
theorem scanPost_fold_edgeDestroy (host : Host) (defId bb : Nat)
    (l : List Nat) (st : Phase2State)
    (hsome : ∀ s ∈ l, (findBlock st.f s).isSome = true) :
    ScanPost host defId bb st
      (l.foldl (fun s succ => edgeDestroy host defId bb succ s) st)
    ∧ ∀ x ∈ l, DestroyEntryOK host.isIncidentalUse defId
        (l.foldl (fun s succ => edgeDestroy host defId bb succ s) st) x := by
  obtain ⟨h1, h2, h3, h4, h5, h6, h7, h8, h9, h10⟩ :=
    fold_edgeDestroy_spec host defId bb l st hsome
  exact ⟨⟨h1, h5, h7, fun x _ hd => h3 x hd, h8, h9, h10,
    fun hk => keysOK_fold_edgeDestroy host defId bb l st hk⟩, h2⟩

/-- The backward scan of a LiveWithin block satisfies the frame and either
records a final consume for the block or establishes a claimed entry
destroy at every successor (terminator boundary). -/
theorem destroyInBlockScan_spec (host : Host) (defInfo : ValueInfo)
    (pdm : Bool) (lv : PrunedLivenessState) (bb : Nat) (insts : List Inst) :
    ∀ (fuel idx : Nat) (existing : Option Inst) (st : Phase2State),
      insts = blockInsts st.f bb →
      idx < insts.length →
      idx < fuel →
      (∀ e, existing = some e → e ∈ insts) →
      (findBlock st.f bb).isSome = true →
      (∀ s ∈ blockSuccs st.f bb, (findBlock st.f s).isSome = true) →
      ¬ bb ∈ blockSuccs st.f bb →
      ScanPost host defInfo.id bb st
        (destroyInBlockScan host defInfo pdm lv bb insts fuel idx existing
          st)
      ∧ ((∃ i, (bb, i) ∈ (destroyInBlockScan host defInfo pdm lv bb insts
            fuel idx existing st).consumes.finalBlockConsumes)
        ∨ (∀ succ ∈ blockSuccs st.f bb,
            DestroyEntryOK host.isIncidentalUse defInfo.id
              (destroyInBlockScan host defInfo pdm lv bb insts fuel idx
                existing st) succ)) := by
  intro fuel
  induction fuel with
  | zero =>
      intro idx existing st _ _ hfuel _ _ _ _
      omega
  | succ n ih =>
      intro idx existing st hinsts hidx hfuel hex hbb hsucc hnself
      cases hget : insts.get? idx with
      | none =>
          exfalso
          rw [List.get?_eq_none] at hget
          omega
      | some inst =>
          have hmem_inst : inst ∈ insts := List.get?_mem hget
          unfold destroyInBlockScan
          rw [hget]
          dsimp only
          set st1 := if pdm ∧ inst.kind = InstKind.debugValue
              ∧ st.debugValues.contains inst.id then
            { st with
              debugValues := st.debugValues.filter (fun x => x != inst.id),
              consumes := st.consumes.recordDebugAfterConsume inst.id }
          else st with hst1
          have hf1 : st1.f = st.f := by
            rw [hst1]
            split <;> rfl
          have hc1 : st1.consumes.finalBlockConsumes
              = st.consumes.finalBlockConsumes := by
            rw [hst1]
            split <;> rfl
          have hpost1 : ScanPost host defInfo.id bb st st1 :=
            scanPost_of_congr host defInfo.id bb hf1 hc1
          have hbb1 : (findBlock st1.f bb).isSome = true := by
            rw [hf1]
            exact hbb
          have hsucc1 : ∀ s ∈ blockSuccs st1.f bb,
              (findBlock st1.f s).isSome = true := by
            rw [hf1]
            exact hsucc
          have hinsts1 : insts = blockInsts st1.f bb := by
            rw [hf1]
            exact hinsts
          have hnself1 : ¬ bb ∈ blockSuccs st1.f bb := by
            rw [hf1]
            exact hnself
          cases hint : lv.interesting inst.id with
          | nonLifetimeEndingUse =>
              dsimp only
              split
              · obtain ⟨hp, hd⟩ := scanPost_fold_edgeDestroy host defInfo.id
                  bb (blockSuccs st1.f bb) st1 hsucc1
                refine ⟨scanPost_trans _ _ _ hpost1 hp, Or.inr ?_⟩
                intro succ hs
                rw [← hf1] at hs
                exact hd succ hs
              · obtain ⟨hp, hone⟩ := scanPost_insertDestroyAtInst host
                  defInfo.id bb (idx + 1) existing st1
                  (fun e he => by
                    rw [← hinsts1]
                    exact hex e he)
                  hbb1
                exact ⟨scanPost_trans _ _ _ hpost1 hp, Or.inl hone⟩
          | lifetimeEndingUse =>
              dsimp only
              refine ⟨scanPost_trans _ _ _ hpost1 ?_,
                Or.inl ⟨inst.id, mem_recordFinalConsume_self _ bb inst.id⟩⟩
              refine ⟨?_, fun x i h => h, ?_, ?_, fun x => rfl,
                fun x => rfl, fun x => rfl, ?_⟩
              · intro h p hp
                rcases mem_recordFinalConsume_elim _ p.1 p.2 bb inst.id hp
                  with ⟨hb, hi⟩ | ⟨hm, _⟩
                · refine ⟨inst, ?_, hi.symm⟩
                  rw [hb, ← hinsts1]
                  exact hmem_inst
                · exact h p hm
              · intro b hb2
                by_cases hbbb : b = bb
                · subst hbbb
                  exact ⟨inst.id, mem_recordFinalConsume_self _ b inst.id⟩
                · obtain ⟨i, hi⟩ := hb2
                  exact ⟨i, mem_recordFinalConsume_other _ b i bb inst.id
                    hbbb hi⟩
              · intro x hx h
                obtain ⟨pre, di, rest, hdec, hskip, hdi, hm⟩ := h
                exact ⟨pre, di, rest, hdec, hskip, hdi,
                  mem_recordFinalConsume_other _ x di.id bb inst.id hx hm⟩
              · exact fun hk => keysOK_recordFinalConsume _ bb inst.id hk
          | nonUser =>
              dsimp only
              set existing2 := if !(host.ignoredByDestroyHoisting inst.kind)
                  then none
                else if existing.isNone
                    && inst.kind == InstKind.destroyValue
                    && (match inst.operands.head? with
                        | some o =>
                            getCanonicalCopiedDef st1.f
                              ((allInsts st1.f).length + 1) o.value
                              == defInfo.id
                        | none => false) then
                  some inst
                else existing with hex2eq
              have hex2 : ∀ e, existing2 = some e → e ∈ insts := by
                rw [hex2eq]
                intro e he
                split at he
                · exact nomatch he
                · split at he
                  · injection he with he2
                    rw [← he2]
                    exact hmem_inst
                  · exact hex e he
              by_cases hidx0 : idx = 0
              · rw [if_pos hidx0]
                obtain ⟨hp, hone⟩ := scanPost_insertDestroyAtInst host
                  defInfo.id bb 0 existing2 st1
                  (fun e he => by
                    rw [← hinsts1]
                    exact hex2 e he)
                  hbb1
                exact ⟨scanPost_trans _ _ _ hpost1 hp, Or.inl hone⟩
              · rw [if_neg hidx0]
                cases hprev : insts.get? (idx - 1) with
                | none =>
                    exfalso
                    rw [List.get?_eq_none] at hprev
                    omega
                | some prev =>
                    dsimp only
                    by_cases hdefq : defInfo.definingInst = some prev.id
                    · rw [if_pos hdefq]
                      obtain ⟨hp, hone⟩ := scanPost_insertDestroyAtInst host
                        defInfo.id bb idx existing2 st1
                        (fun e he => by
                          rw [← hinsts1]
                          exact hex2 e he)
                        hbb1
                      exact ⟨scanPost_trans _ _ _ hpost1 hp, Or.inl hone⟩
                    · rw [if_neg hdefq]
                      obtain ⟨hp, hdisj⟩ := ih (idx - 1) existing2 st1
                        hinsts1 (by omega) (by omega) hex2 hbb1 hsucc1
                        hnself1
                      refine ⟨scanPost_trans _ _ _ hpost1 hp, ?_⟩
                      rcases hdisj with hone | hall
                      · exact Or.inl hone
                      · refine Or.inr ?_
                        intro succ hs
                        rw [← hf1] at hs
                        exact hall succ hs

/-- The scan of a whole LiveWithin block: frame plus a recorded consume or
entry destroys at every successor. -/
theorem findOrInsertDestroyInBlock_spec (host : Host) (defInfo : ValueInfo)
    (pdm : Bool) (lv : PrunedLivenessState) (bb : Nat) (st : Phase2State)
    (hne : blockInsts st.f bb ≠ [])
    (hbb : (findBlock st.f bb).isSome = true)
    (hsucc : ∀ s ∈ blockSuccs st.f bb, (findBlock st.f s).isSome = true)
    (hnself : ¬ bb ∈ blockSuccs st.f bb) :
    ScanPost host defInfo.id bb st
      (findOrInsertDestroyInBlock host defInfo pdm lv bb st)
    ∧ ((∃ i, (bb, i) ∈ (findOrInsertDestroyInBlock host defInfo pdm lv bb
          st).consumes.finalBlockConsumes)
      ∨ (∀ succ ∈ blockSuccs st.f bb,
          DestroyEntryOK host.isIncidentalUse defInfo.id
            (findOrInsertDestroyInBlock host defInfo pdm lv bb st) succ)) := by
  have hlen : 0 < (blockInsts st.f bb).length := List.length_pos.mpr hne
  exact destroyInBlockScan_spec host defInfo pdm lv bb
    (blockInsts st.f bb) (blockInsts st.f bb).length
    ((blockInsts st.f bb).length - 1) none st rfl (by omega) (by omega)
    (fun e he => nomatch he) hbb hsucc hnself

/-- The worklist frame holds reflexively. -/
theorem stepFrame_refl (host : Host) (defId : Nat)
    (lv : PrunedLivenessState) (st : Phase2State) :
    StepFrame host defId lv st st :=
  ⟨fun h => h, fun x i h => h, fun b h => h, fun x _ h => h,
   fun x => rfl, fun x => rfl, fun x => rfl, fun h => h⟩

/-- The worklist frame composes. -/
theorem stepFrame_trans (host : Host) (defId : Nat)
    (lv : PrunedLivenessState) {s1 s2 s3 : Phase2State}
    (h12 : StepFrame host defId lv s1 s2)
    (h23 : StepFrame host defId lv s2 s3) :
    StepFrame host defId lv s1 s3 := by
  obtain ⟨a1, a2, a3, a4, a5, a6, a7, a8⟩ := h12
  obtain ⟨b1, b2, b3, b4, b5, b6, b7, b8⟩ := h23
  exact ⟨fun h => b1 (a1 h), fun x i h => b2 x i (a2 x i h),
    fun b h => b3 b (a3 b h), fun x hx h => b4 x hx (a4 x hx h),
    fun x => (b5 x).trans (a5 x), fun x => (b6 x).trans (a6 x),
    fun x => (b7 x).trans (a7 x), fun h => b8 (a8 h)⟩

/-- A LiveWithin-block scan satisfies the worklist frame: entry destroys
live in Dead blocks, which the scanned block is not. -/
theorem stepFrame_of_scanPost (host : Host) (defId : Nat)
    (lv : PrunedLivenessState) (bb : Nat)
    (hlw : lv.blockLiveness bb = BlockLiveness.liveWithin)
    {st st2 : Phase2State} (h : ScanPost host defId bb st st2) :
    StepFrame host defId lv st st2 := by
  obtain ⟨a1, a2, a3, a4, a5, a6, a7, a8⟩ := h
  refine ⟨a1, a2, a3, ?_, a5, a6, a7, a8⟩
  intro x hx hd
  refine a4 x ?_ hd
  intro hxbb
  subst hxbb
  exact BlockLiveness.noConfusion (hlw.symm.trans hx)

/-- An edge destroy satisfies the worklist frame. -/
theorem stepFrame_edgeDestroy (host : Host) (defId : Nat)
    (lv : PrunedLivenessState) (predBB succBB : Nat) (st : Phase2State)
    (hs : (findBlock st.f succBB).isSome = true) :
    StepFrame host defId lv st (edgeDestroy host defId predBB succBB st) :=
  ⟨fun h => edgeDestroy_entriesOK host defId predBB succBB st hs h,
   fun x i h => blockInsts_edgeDestroy_grow host defId predBB succBB st x
     i h,
   fun b h => edgeDestroy_entry_exists host defId predBB succBB st b h,
   fun x _ h => edgeDestroy_preserves_destroyEntry host defId predBB succBB
     st x h,
   fun x => blockSuccs_edgeDestroy host defId predBB succBB st x,
   fun x => predsOf_edgeDestroy host defId predBB succBB st x,
   fun x => findBlock_isSome_edgeDestroy host defId predBB succBB st x,
   fun hk => keysOK_edgeDestroy host defId predBB succBB st hk⟩

/-- Processed-block guarantees survive a worklist frame step and a larger
visited set. -/
theorem processedOK_mono (host : Host) (f0 : IRFunction) (defId : Nat)
    (lv : PrunedLivenessState) (seen seen2 : List Nat)
    {st st2 : Phase2State} (hfr : StepFrame host defId lv st st2)
    (hseen : ∀ b ∈ seen, b ∈ seen2)
    (hsd : ∀ x, lv.blockLiveness x = BlockLiveness.liveWithin →
       ∀ s ∈ blockSuccs f0 x, lv.blockLiveness s = BlockLiveness.dead)
    (b : Nat) (h : ProcessedOK host f0 defId lv seen st b) :
    ProcessedOK host f0 defId lv seen2 st2 b := by
  obtain ⟨hlw, hdead⟩ := h
  obtain ⟨f1, f2, f3, f4, f5, f6, f7, f8⟩ := hfr
  constructor
  · intro hb
    rcases hlw hb with ⟨i, hi⟩ | hsuccs
    · exact Or.inl (f3 b ⟨i, hi⟩)
    · refine Or.inr ?_
      intro succ hs
      exact f4 succ (hsd b hb succ hs) (hsuccs succ hs)
  · intro hb
    refine ⟨?_, fun p hp hnp => hseen p ((hdead hb).2 p hp hnp)⟩
    intro p hp hlo
    exact f4 b hb ((hdead hb).1 p hp hlo)

/-- The fold over a Dead block's predecessors: the worklist and visited
set grow by the same fresh non-LiveOut predecessors, every LiveOut
predecessor leaves a claimed entry destroy at the Dead block, and the
state change satisfies the worklist frame. -/
theorem foldPreds_spec (host : Host) (defId : Nat)
    (lv : PrunedLivenessState) (bb : Nat)
    (hbbdead : lv.blockLiveness bb = BlockLiveness.dead) :
    ∀ (l pend sn : List Nat) (s : Phase2State), sn.Nodup →
      (findBlock s.f bb).isSome = true →
      ∃ news,
        (l.foldl (predsStep host defId lv bb) (pend, sn, s)).1
          = pend ++ news
        ∧ (l.foldl (predsStep host defId lv bb) (pend, sn, s)).2.1
          = sn ++ news
        ∧ (sn ++ news).Nodup
        ∧ (∀ b ∈ news, b ∈ l)
        ∧ (∀ p ∈ l, ¬ lv.blockLiveness p = BlockLiveness.liveOut →
            p ∈ sn ++ news)
        ∧ (∀ p ∈ l, lv.blockLiveness p = BlockLiveness.liveOut →
            DestroyEntryOK host.isIncidentalUse defId
              (l.foldl (predsStep host defId lv bb) (pend, sn, s)).2.2 bb)
        ∧ StepFrame host defId lv s
            (l.foldl (predsStep host defId lv bb) (pend, sn, s)).2.2 := by
  intro l
  induction l with
  | nil =>
      intro pend sn s hnd hfb
      refine ⟨[], by simp, by simp, by simpa using hnd, by simp,
        by simp, by simp, stepFrame_refl host defId lv s⟩
  | cons p rest ih =>
      intro pend sn s hnd hfb
      simp only [List.foldl_cons]
      by_cases hlo : lv.blockLiveness p = BlockLiveness.liveOut
      · have hstep : predsStep host defId lv bb (pend, sn, s) p
            = (pend, sn, edgeDestroy host defId p bb s) := by
          unfold predsStep
          rw [if_pos hlo]
        rw [hstep]
        obtain ⟨news, h1, h2, h3, h4, h5, h6, h7⟩ := ih pend sn
          (edgeDestroy host defId p bb s)
          hnd (by rw [findBlock_isSome_edgeDestroy]; exact hfb)
        refine ⟨news, h1, h2, h3,
          fun b hb => List.mem_cons_of_mem _ (h4 b hb), ?_, ?_,
          stepFrame_trans host defId lv
            (stepFrame_edgeDestroy host defId lv p bb s hfb) h7⟩
        · intro q hq hnl
          rcases List.mem_cons.mp hq with rfl | hqr
          · exact absurd hlo hnl
          · exact h5 q hqr hnl
        · intro q hq hql
          obtain ⟨g1, g2, g3, g4, g5, g6, g7, g8⟩ := h7
          exact g4 bb hbbdead
            (edgeDestroy_destroyEntry host defId p bb s hfb)
      · by_cases hct : sn.contains p = true
        · have hstep : predsStep host defId lv bb (pend, sn, s) p
              = (pend, sn, s) := by
            unfold predsStep
            dsimp only
            rw [if_neg hlo, if_pos hct]
          rw [hstep]
          obtain ⟨news, h1, h2, h3, h4, h5, h6, h7⟩ := ih pend sn s hnd hfb
          refine ⟨news, h1, h2, h3,
            fun b hb => List.mem_cons_of_mem _ (h4 b hb), ?_, ?_, h7⟩
          · intro q hq hnl
            rcases List.mem_cons.mp hq with rfl | hqr
            · exact List.mem_append.mpr (Or.inl (by simpa using hct))
            · exact h5 q hqr hnl
          · intro q hq hql
            rcases List.mem_cons.mp hq with rfl | hqr
            · exact absurd hql hlo
            · exact h6 q hqr hql
        · have hstep : predsStep host defId lv bb (pend, sn, s) p
              = (pend ++ [p], sn ++ [p], s) := by
            unfold predsStep
            dsimp only
            rw [if_neg hlo, if_neg hct]
          rw [hstep]
          have hpn : p ∉ sn := by simpa using hct
          have hnd2 : (sn ++ [p]).Nodup := by
            rw [List.nodup_append]
            exact ⟨hnd, List.nodup_singleton p,
              fun x hx hx2 => hpn (by
                rwa [List.mem_singleton.mp hx2] at hx)⟩
          obtain ⟨news, h1, h2, h3, h4, h5, h6, h7⟩ := ih (pend ++ [p])
            (sn ++ [p]) s hnd2 hfb
          have hre : ∀ (ll : List Nat) (a : Nat),
              a ∈ (ll ++ [p]) ++ news ↔ a ∈ ll ++ p :: news := by
            intro ll a
            simp [List.mem_append, or_assoc]
          refine ⟨p :: news, ?_, ?_, ?_, ?_, ?_, ?_, h7⟩
          · rw [h1]
            simp
          · rw [h2]
            simp
          · have h3b := h3
            rwa [List.append_assoc, List.singleton_append] at h3b
          · intro b hb
            rcases List.mem_cons.mp hb with rfl | hbr
            · exact List.mem_cons_self b rest
            · exact List.mem_cons_of_mem _ (h4 b hbr)
          · intro q hq hnl
            rcases List.mem_cons.mp hq with rfl | hqr
            · exact List.mem_append.mpr (Or.inr (List.mem_cons_self q news))
            · exact (hre sn q).mp (h5 q hqr hnl)
          · intro q hq hql
            rcases List.mem_cons.mp hq with rfl | hqr
            · exact absurd hql hlo
            · exact h6 q hqr hql

/-- Master induction over the phase-2 worklist: the traversal keeps the
invariants, visits a superset of the initial blocks, and leaves every
visited block with its processed-block guarantee at the final state. -/
theorem destroysWorklistLoop_master (host : Host) (defInfo : ValueInfo)
    (pdm : Bool) (lv : PrunedLivenessState) (f0 : IRFunction)
    (hsd : ∀ x, lv.blockLiveness x = BlockLiveness.liveWithin →
       ∀ s ∈ blockSuccs f0 x, lv.blockLiveness s = BlockLiveness.dead)
    (hsOK : ∀ x s, s ∈ blockSuccs f0 x → (findBlock f0 s).isSome = true) :
    ∀ (fuel : Nat) (pending seen : List Nat) (st : Phase2State),
      (∀ x, blockSuccs st.f x = blockSuccs f0 x) →
      (∀ x, predsOf st.f x = predsOf f0 x) →
      (∀ x, (findBlock st.f x).isSome = (findBlock f0 x).isSome) →
      (∀ x, (findBlock f0 x).isSome = true → blockInsts st.f x ≠ []) →
      EntriesOK st →
      KeysOK st.consumes →
      seen.Nodup →
      (∀ b ∈ seen, (findBlock f0 b).isSome = true) →
      (∀ b ∈ pending, b ∈ seen) →
      (∀ b ∈ seen, ¬ b ∈ pending →
        ProcessedOK host f0 defInfo.id lv seen st b) →
      pending.length + ((f0.blocks.map Block.id).length - seen.length)
        < fuel →
      ∃ seenF, (∀ b ∈ seen, b ∈ seenF)
        ∧ KeysOK (destroysWorklistLoop host defInfo pdm lv fuel pending
            seen st).consumes
        ∧ (∀ b ∈ seenF, ProcessedOK host f0 defInfo.id lv seenF
            (destroysWorklistLoop host defInfo pdm lv fuel pending seen
              st) b) := by
  intro fuel
  induction fuel with
  | zero =>
      intro pending seen st _ _ _ _ _ _ _ _ _ _ hfuel
      omega
  | succ n ih =>
      intro pending seen st hsucceq hpredeq hfbeq hne hE hK hndseen
        hseenOK hps hproc hfuel
      cases pending with
      | nil =>
          have hloop : destroysWorklistLoop host defInfo pdm lv (n + 1) []
              seen st = st := rfl
          rw [hloop]
          exact ⟨seen, fun b hb => hb, hK,
            fun b hb => hproc b hb (List.not_mem_nil b)⟩
      | cons bb rest =>
          have hbbseen : bb ∈ seen := hps bb (List.mem_cons_self bb rest)
          have hbbf0 : (findBlock f0 bb).isSome = true := hseenOK bb hbbseen
          have hm := hfuel
          rw [List.length_cons] at hm
          unfold destroysWorklistLoop
          dsimp only
          cases hlv : lv.blockLiveness bb with
          | liveOut =>
              dsimp only
              refine ih rest seen st hsucceq hpredeq hfbeq hne hE hK
                hndseen hseenOK
                (fun b hb => hps b (List.mem_cons_of_mem _ hb)) ?_
                (by omega)
              intro b hb hbr
              by_cases hbbb : b = bb
              · subst hbbb
                constructor
                · intro hlw
                  exact BlockLiveness.noConfusion (hlv.symm.trans hlw)
                · intro hd
                  exact BlockLiveness.noConfusion (hlv.symm.trans hd)
              · refine hproc b hb (fun hbp => ?_)
                rcases List.mem_cons.mp hbp with h | h
                · exact hbbb h
                · exact hbr h
          | liveWithin =>
              dsimp only
              have hbbcur : (findBlock st.f bb).isSome = true := by
                rw [hfbeq]
                exact hbbf0
              have hnecur : blockInsts st.f bb ≠ [] := hne bb hbbf0
              have hsucccur : ∀ s ∈ blockSuccs st.f bb,
                  (findBlock st.f s).isSome = true := by
                intro s hs
                rw [hfbeq]
                refine hsOK bb s ?_
                rw [← hsucceq]
                exact hs
              have hnself : ¬ bb ∈ blockSuccs st.f bb := by
                intro hmem
                have hd := hsd bb hlv bb (by rw [← hsucceq]; exact hmem)
                exact BlockLiveness.noConfusion (hlv.symm.trans hd)
              obtain ⟨hpost, hdisj⟩ := findOrInsertDestroyInBlock_spec host
                defInfo pdm lv bb st hnecur hbbcur hsucccur hnself
              have hframe : StepFrame host defInfo.id lv st
                  (findOrInsertDestroyInBlock host defInfo pdm lv bb st) :=
                stepFrame_of_scanPost host defInfo.id lv bb hlv hpost
              obtain ⟨f1, f2, f3, f4, f5, f6, f7, f8⟩ := hframe
              refine ih rest seen
                (findOrInsertDestroyInBlock host defInfo pdm lv bb st)
                (fun x => (f5 x).trans (hsucceq x))
                (fun x => (f6 x).trans (hpredeq x))
                (fun x => (f7 x).trans (hfbeq x)) ?_ (f1 hE) (f8 hK)
                hndseen hseenOK
                (fun b hb => hps b (List.mem_cons_of_mem _ hb)) ?_
                (by omega)
              · intro x hx
                obtain ⟨a, ha⟩ := List.exists_mem_of_ne_nil _ (hne x hx)
                exact List.ne_nil_of_mem (f2 x a ha)
              · intro b hb hbr
                by_cases hbbb : b = bb
                · subst hbbb
                  constructor
                  · intro _
                    rcases hdisj with hone | hall
                    · exact Or.inl hone
                    · refine Or.inr ?_
                      intro succ hs
                      refine hall succ ?_
                      rw [hsucceq]
                      exact hs
                  · intro hd
                    exact BlockLiveness.noConfusion (hlv.symm.trans hd)
                · have hold : ProcessedOK host f0 defInfo.id lv seen st
                      b := by
                    refine hproc b hb (fun hbp => ?_)
                    rcases List.mem_cons.mp hbp with h | h
                    · exact hbbb h
                    · exact hbr h
                  exact processedOK_mono host f0 defInfo.id lv seen seen
                    ⟨f1, f2, f3, f4, f5, f6, f7, f8⟩ (fun c hc => hc) hsd
                    b hold
          | dead =>
              dsimp only
              have hbbcur : (findBlock st.f bb).isSome = true := by
                rw [hfbeq]
                exact hbbf0
              obtain ⟨news, h1, h2, h3, h4, h5, h6, h7⟩ := foldPreds_spec
                host defInfo.id lv bb hlv (predsOf st.f bb) rest seen st
                hndseen hbbcur
              set res := (predsOf st.f bb).foldl
                (predsStep host defInfo.id lv bb) (rest, seen, st)
                with hres
              obtain ⟨f1, f2, f3, f4, f5, f6, f7, f8⟩ := h7
              have hseenOK2 : ∀ b ∈ res.2.1,
                  (findBlock f0 b).isSome = true := by
                intro b hb
                rw [h2] at hb
                rcases List.mem_append.mp hb with h | h
                · exact hseenOK b h
                · have hbp := h4 b h
                  rw [hpredeq] at hbp
                  exact mem_predsOf_findBlock_isSome f0 bb b hbp
              have hps2 : ∀ b ∈ res.1, b ∈ res.2.1 := by
                intro b hb
                rw [h1] at hb
                rw [h2]
                rcases List.mem_append.mp hb with h | h
                · exact List.mem_append.mpr
                    (Or.inl (hps b (List.mem_cons_of_mem _ h)))
                · exact List.mem_append.mpr (Or.inr h)
              have hnd2 : res.2.1.Nodup := by
                rw [h2]
                exact h3
              have hssub : ∀ x ∈ res.2.1, x ∈ f0.blocks.map Block.id :=
                fun x hx => findBlock_isSome_mem_ids f0 x (hseenOK2 x hx)
              have hlen2 : res.2.1.length
                  ≤ (f0.blocks.map Block.id).length :=
                nodup_subset_length hnd2 hssub
              have e1 : res.1.length = rest.length + news.length := by
                rw [h1, List.length_append]
              have e2 : res.2.1.length = seen.length + news.length := by
                rw [h2, List.length_append]
              have hproc2 : ∀ b ∈ res.2.1, ¬ b ∈ res.1 →
                  ProcessedOK host f0 defInfo.id lv res.2.1 res.2.2 b := by
                intro b hb hbp
                by_cases hbbb : b = bb
                · subst hbbb
                  constructor
                  · intro hlw
                    exact BlockLiveness.noConfusion (hlv.symm.trans hlw)
                  · intro _
                    constructor
                    · intro p hp hplo
                      refine h6 p ?_ hplo
                      rw [hpredeq]
                      exact hp
                    · intro p hp hnlo
                      rw [h2]
                      refine h5 p ?_ hnlo
                      rw [hpredeq]
                      exact hp
                · have hbseen : b ∈ seen := by
                    rw [h2] at hb
                    rcases List.mem_append.mp hb with h | h
                    · exact h
                    · exact absurd (by
                        rw [h1]
                        exact List.mem_append.mpr (Or.inr h)) hbp
                  have hbrest : ¬ b ∈ rest := fun h => hbp (by
                    rw [h1]
                    exact List.mem_append.mpr (Or.inl h))
                  have hold : ProcessedOK host f0 defInfo.id lv seen st
                      b := by
                    refine hproc b hbseen (fun hbp2 => ?_)
                    rcases List.mem_cons.mp hbp2 with h | h
                    · exact hbbb h
                    · exact hbrest h
                  refine processedOK_mono host f0 defInfo.id lv seen
                    res.2.1 ⟨f1, f2, f3, f4, f5, f6, f7, f8⟩ ?_ hsd b hold
                  intro c hc
                  rw [h2]
                  exact List.mem_append.mpr (Or.inl hc)
              obtain ⟨seenF, hsF, hkF, hpF⟩ := ih res.1 res.2.1 res.2.2
                (fun x => (f5 x).trans (hsucceq x))
                (fun x => (f6 x).trans (hpredeq x))
                (fun x => (f7 x).trans (hfbeq x))
                (by
                  intro x hx
                  obtain ⟨a, ha⟩ := List.exists_mem_of_ne_nil _ (hne x hx)
                  exact List.ne_nil_of_mem (f2 x a ha))
                (f1 hE) (f8 hK) hnd2 hseenOK2 hps2 hproc2 (by omega)
              refine ⟨seenF, ?_, hkF, hpF⟩
              intro b hb
              refine hsF b ?_
              rw [h2]
              exact List.mem_append.mpr (Or.inl hb)

/-- C3 (amended): at the exit of phase 2 (`findOrInsertDestroys`), for
every block the backward traversal reaches from the consuming blocks:
a LiveWithin block either holds exactly one recorded final consume or —
when its liveness boundary is a non-lifetime-ending terminator — has a
destroy of the def at the entry of every successor, claimed as that
successor's final consume; and every Dead reached block with a LiveOut
predecessor holds a destroy of the def at its entry (looking past
incidental uses and destroys of other values), claimed as its final
consume.  Hypotheses: the consuming blocks are distinct existing blocks,
every block is nonempty, successor ids name existing blocks, successors
of LiveWithin blocks are Dead, and the initial consume info is sound with
distinct keys. -/
theorem findOrInsertDestroys_amended (host : Host) (defInfo : ValueInfo)
    (pdm : Bool) (lv : PrunedLivenessState) (consumingBlocks : List Nat)
    (st : Phase2State)
    (hnd : consumingBlocks.Nodup)
    (hcb : ∀ b ∈ consumingBlocks, (findBlock st.f b).isSome = true)
    (hne : ∀ x, (findBlock st.f x).isSome = true → blockInsts st.f x ≠ [])
    (hsOK : ∀ x s, s ∈ blockSuccs st.f x → (findBlock st.f s).isSome
      = true)
    (hsd : ∀ x, lv.blockLiveness x = BlockLiveness.liveWithin →
       ∀ s ∈ blockSuccs st.f x, lv.blockLiveness s = BlockLiveness.dead)
    (hE : EntriesOK st) (hK : KeysOK st.consumes) :
    ∀ bb, Phase2Reaches st.f lv consumingBlocks bb →
      (lv.blockLiveness bb = BlockLiveness.liveWithin →
        consumeCount (findOrInsertDestroys host defInfo pdm lv
          consumingBlocks st) bb = 1
        ∨ (∀ succ ∈ blockSuccs st.f bb,
            DestroyEntryOK host.isIncidentalUse defInfo.id
              (findOrInsertDestroys host defInfo pdm lv consumingBlocks
                st) succ))
      ∧ (lv.blockLiveness bb = BlockLiveness.dead →
          ∀ p ∈ predsOf st.f bb,
            lv.blockLiveness p = BlockLiveness.liveOut →
            DestroyEntryOK host.isIncidentalUse defInfo.id
              (findOrInsertDestroys host defInfo pdm lv consumingBlocks
                st) bb) := by
  obtain ⟨seenF, hsF, hkF, hpF⟩ := destroysWorklistLoop_master host defInfo
    pdm lv st.f hsd hsOK
    (st.f.blocks.length + consumingBlocks.length + 1) consumingBlocks
    consumingBlocks st
    (fun x => rfl) (fun x => rfl) (fun x => rfl) hne hE hK hnd hcb
    (fun b hb => hb)
    (fun b hb hbp => absurd hb hbp)
    (by rw [List.length_map]; omega)
  have heq : destroysWorklistLoop host defInfo pdm lv
      (st.f.blocks.length + consumingBlocks.length + 1) consumingBlocks
      consumingBlocks st
      = findOrInsertDestroys host defInfo pdm lv consumingBlocks st := rfl
  rw [heq] at hkF hpF
  have hclosure : ∀ bb, Phase2Reaches st.f lv consumingBlocks bb →
      bb ∈ seenF := by
    intro bb hr
    induction hr with
    | seed hb => exact hsF _ hb
    | pred hr hdead hp hnlo ihr =>
        have hPbb := hpF _ ihr
        exact (hPbb.2 hdead).2 _ hp hnlo
  intro bb hr
  have hP := hpF bb (hclosure bb hr)
  constructor
  · intro hlw
    rcases hP.1 hlw with ⟨i, hi⟩ | hsuccs
    · exact Or.inl (consumeCount_eq_one _ bb i hkF hi)
    · exact Or.inr hsuccs
  · intro hd p hp hplo
    exact (hP.2 hd).1 p hp hplo

/-- Witness for the amended phase-2 contract: on `w3F` the single
LiveWithin block 0 is a consuming block and ends in a lifetime-ending
terminator, so it holds exactly one recorded final consume. -/
theorem findOrInsertDestroys_amended_witness :
    consumeCount (findOrInsertDestroys w3Host w3Def false w3LV [0] w3St) 0
      = 1
    ∨ (∀ succ ∈ blockSuccs w3St.f 0,
        DestroyEntryOK w3Host.isIncidentalUse w3Def.id
          (findOrInsertDestroys w3Host w3Def false w3LV [0] w3St)
          succ) := by
  have hids : w3St.f.blocks.map Block.id = [0] := rfl
  have hfb : ∀ x, (findBlock w3St.f x).isSome = true → x = 0 := by
    intro x hx
    have hx0 := findBlock_isSome_mem_ids w3St.f x hx
    rw [hids] at hx0
    exact List.mem_singleton.mp hx0
  have hsuccsE : ∀ x, blockSuccs w3St.f x = [] := by
    intro x
    unfold blockSuccs
    cases hfx : findBlock w3St.f x with
    | none => rfl
    | some b =>
        have hb := List.mem_of_find?_eq_some hfx
        have hbl : w3St.f.blocks
            = [⟨0, [⟨10, InstKind.other, []⟩,
                ⟨11, InstKind.otherTerm,
                  [⟨7, OperandOwnership.destroyingConsume, none⟩]⟩],
                []⟩] := rfl
        rw [hbl] at hb
        rw [List.mem_singleton.mp hb]
  refine (findOrInsertDestroys_amended w3Host w3Def false w3LV [0] w3St
    (by decide) ?_ ?_ ?_ ?_ ?_ ?_ 0
    (Phase2Reaches.seed (by decide))).1 (by decide)
  · intro b hb
    rw [List.mem_singleton.mp hb]
    decide
  · intro x hx
    obtain rfl := hfb x hx
    decide
  · intro x s hs
    rw [hsuccsE x] at hs
    exact absurd hs (List.not_mem_nil s)
  · intro x _ s hs
    rw [hsuccsE x] at hs
    exact absurd hs (List.not_mem_nil s)
  · intro p hp
    exact absurd hp (List.not_mem_nil p)
  · exact List.nodup_nil

end CanonicalOSSA
